import Mathlib

/-!
# hw4: `BinarySearchTree` (bst.h) and `AVLTree` (avlbst.h)

Shallow embedding of the pointer-based trees of `src/bst.h` and `src/avlbst.h`.

* A node address is a natural number, a pointer is `Option Nat` (`none` is `nullptr`).
* The C++ free store is a list of cells; cell `a` holds the node living at address `a`,
  or `none` once the node has been `delete`d.  `new` appends a cell.
* Keys and values are instantiated at `Int` (`Key = Value = int`).
* Every operation returns an `Option`: `none` stands for an execution that does not
  return normally (a null / dangling dereference, or a pointer walk that never ends).
  Pointer walks carry a step budget of `heap.length + 1`; a walk that takes more steps
  than there are cells has revisited a cell and therefore never terminates in the source.
* `int8_t` arithmetic on the balance field is made explicit with `wrap8`.
-/

/-- Pointer to a node: `none` is the null pointer. -/
abbrev Ptr := Option Nat

/-- Node record: `Node<Key,Value>` of bst.h together with the `balance_` member that
`AVLNode<Key,Value>` adds (unused by the plain `BinarySearchTree` code). -/
structure AVLNode where
  key : Int
  value : Int
  parent_ : Ptr
  left_ : Ptr
  right_ : Ptr
  balance_ : Int
deriving DecidableEq

/-- The free store. -/
abbrev Heap := List (Option AVLNode)

/-- Program state seen by a tree object: its `root_` member and the free store. -/
structure TreeState where
  root_ : Ptr
  heap : Heap
deriving DecidableEq

/-- Conversion of an `int` to `int8_t` (two's complement wrap-around). -/
def wrap8 (i : Int) : Int := (i + 128) % 256 - 128

/-- Read the node stored at address `a` (`none`: unallocated or deleted). -/
def deref (h : Heap) (a : Nat) : Option AVLNode := h.getD a none

/-- Overwrite the node stored at address `a`. -/
def store (h : Heap) (a : Nat) (nd : AVLNode) : Heap := h.set a (some nd)

/-- The effect of `delete` on the node at address `a`. -/
def free (h : Heap) (a : Nat) : Heap := h.set a none

/-- Constructor `AVLNode(key, value, parent)`: children null, balance 0. -/
def AVLNode.new (k v : Int) (parent : Ptr) : AVLNode :=
  { key := k, value := v, parent_ := parent, left_ := none, right_ := none, balance_ := 0 }

/-- Expression `new AVLNode(k, v, parent)`: the fresh address and the extended store. -/
def alloc (h : Heap) (nd : AVLNode) : Nat × Heap := (h.length, h ++ [some nd])

/-- Method `Node::setParent`. -/
def setParent (h : Heap) (a : Nat) (p : Ptr) : Option Heap :=
  (deref h a).map fun nd => store h a { nd with parent_ := p }

/-- Method `Node::setLeft`. -/
def setLeft (h : Heap) (a : Nat) (p : Ptr) : Option Heap :=
  (deref h a).map fun nd => store h a { nd with left_ := p }

/-- Method `Node::setRight`. -/
def setRight (h : Heap) (a : Nat) (p : Ptr) : Option Heap :=
  (deref h a).map fun nd => store h a { nd with right_ := p }

/-- Method `Node::setValue`. -/
def setValue (h : Heap) (a : Nat) (v : Int) : Option Heap :=
  (deref h a).map fun nd => store h a { nd with value := v }

/-- Method `AVLNode::setBalance` (the argument is already an `int8_t`). -/
def setBalance (h : Heap) (a : Nat) (b : Int) : Option Heap :=
  (deref h a).map fun nd => store h a { nd with balance_ := b }

/-- Dereference of a possibly-null pointer. -/
def derefPtr (h : Heap) : Ptr → Option AVLNode
  | none => none
  | some a => deref h a

/-- Getter `Node::getParent` through a node address. -/
def getParent (h : Heap) (a : Nat) : Option Ptr := (deref h a).map (·.parent_)

/-- Getter `Node::getLeft` through a node address. -/
def getLeft (h : Heap) (a : Nat) : Option Ptr := (deref h a).map (·.left_)

/-- Getter `Node::getRight` through a node address. -/
def getRight (h : Heap) (a : Nat) : Option Ptr := (deref h a).map (·.right_)

/-- Setter call `p->setParent(q)` through a possibly-null pointer `p`. -/
def setParentAt (h : Heap) (p : Ptr) (q : Ptr) : Option Heap :=
  match p with
  | none => none
  | some a => setParent h a q

namespace BinarySearchTree

/-- `BinarySearchTree::getNode(k, n)` (bst.h 686-702). -/
def getNode (h : Heap) (k : Int) : Nat → Ptr → Option Ptr
  | _, none => some none
  | 0, some _ => none
  | fuel + 1, some n =>
    match deref h n with
    | none => none
    | some nd =>
      if nd.key = k then some (some n)
      else if nd.key > k then getNode h k fuel nd.left_
      else getNode h k fuel nd.right_

/-- `BinarySearchTree::internalFind(key)` (bst.h 709-713). -/
def internalFind (t : TreeState) (key : Int) : Option Ptr :=
  getNode t.heap key (t.heap.length + 1) t.root_

/-- `BinarySearchTree::find(k)` (bst.h 424-431): the iterator's `current_` pointer, paired
with the state after the call. -/
def find (t : TreeState) (k : Int) : Option (Ptr × TreeState) :=
  (internalFind t k).map fun curr => (curr, t)

/-- `BinarySearchTree::getHeight(n)` (bst.h 716-724). -/
def getHeight (h : Heap) : Nat → Ptr → Option Int
  | _, none => some 0
  | 0, some _ => none
  | fuel + 1, some n =>
    match deref h n with
    | none => none
    | some nd =>
      match getHeight h fuel nd.left_, getHeight h fuel nd.right_ with
      | some leftHeight, some rightHeight => some (max leftHeight rightHeight + 1)
      | _, _ => none

/-- `BinarySearchTree::checkBalance(n)` (bst.h 729-742). -/
def checkBalance (h : Heap) : Nat → Ptr → Option Bool
  | _, none => some true
  | 0, some _ => none
  | fuel + 1, some n =>
    match deref h n with
    | none => none
    | some nd =>
      match getHeight h (h.length + 1) nd.left_, getHeight h (h.length + 1) nd.right_ with
      | some lSubtreeHeight, some rSubtreeHeight =>
        if |lSubtreeHeight - rSubtreeHeight| ≥ 2 then some false
        else
          match checkBalance h fuel nd.left_ with
          | none => none
          | some false => some false
          | some true => checkBalance h fuel nd.right_
      | _, _ => none

/-- `BinarySearchTree::isBalanced()` (bst.h 747-751). -/
def isBalanced (t : TreeState) : Option Bool :=
  checkBalance t.heap (t.heap.length + 1) t.root_

/-- `BinarySearchTree::predecessor(current)` inner loop (bst.h 624-627). -/
def rightmost (h : Heap) : Nat → Nat → Option Nat
  | 0, _ => none
  | fuel + 1, p =>
    match deref h p with
    | none => none
    | some nd =>
      match nd.right_ with
      | none => some p
      | some r => rightmost h fuel r

/-- `BinarySearchTree::predecessor(current)` (bst.h 614-629). -/
def predecessor (h : Heap) (current : Nat) : Option Ptr :=
  match deref h current with
  | none => none
  | some nd =>
    match nd.left_ with
    | none => some none
    | some p => (rightmost h (h.length + 1) p).map some

/-- The test `np != NULL && (n == np->getLeft())` of `nodeSwap` (bst.h 763-765, 769-771). -/
def isLeftChild (h : Heap) (n : Nat) (np : Ptr) : Option Bool :=
  match np with
  | none => some false
  | some pa => (getLeft h pa).map fun l => decide (some n = l)

/-- The three `temp` exchanges of `nodeSwap` (bst.h 773-784). -/
def swapLinks (h : Heap) (a1 a2 : Nat) : Option Heap :=
  (getParent h a1).bind fun temp =>
  (getParent h a2).bind fun q =>
  (setParent h a1 q).bind fun h =>
  (setParent h a2 temp).bind fun h =>
  (getLeft h a1).bind fun temp =>
  (getLeft h a2).bind fun q =>
  (setLeft h a1 q).bind fun h =>
  (setLeft h a2 temp).bind fun h =>
  (getRight h a1).bind fun temp =>
  (getRight h a2).bind fun q =>
  (setRight h a1 q).bind fun h =>
  setRight h a2 temp

/-- The adjacency repair of `nodeSwap` (bst.h 786-805). -/
def fixAdjacent (h : Heap) (a1 a2 : Nat) (n1r n1lt n2r n2lt : Ptr) : Option Heap :=
  if n1r ≠ none ∧ n1r = some a2 then
    (setRight h a2 (some a1)).bind fun h => setParent h a1 (some a2)
  else if n2r ≠ none ∧ n2r = some a1 then
    (setRight h a1 (some a2)).bind fun h => setParent h a2 (some a1)
  else if n1lt ≠ none ∧ n1lt = some a2 then
    (setLeft h a2 (some a1)).bind fun h => setParent h a1 (some a2)
  else if n2lt ≠ none ∧ n2lt = some a1 then
    (setLeft h a1 (some a2)).bind fun h => setParent h a2 (some a1)
  else some h

/-- Redirection of the former neighbours of one node to the other node `b`
(bst.h 807-821 and 823-837). -/
def relinkNeighbours (h : Heap) (b : Nat) (np nr nlt : Ptr) (nIsLeft : Bool) : Option Heap :=
  (match np with
    | some pa =>
      if np ≠ some b then (if nIsLeft then setLeft h pa (some b) else setRight h pa (some b))
      else some h
    | none => some h).bind fun h =>
  (if nr ≠ none ∧ nr ≠ some b then setParentAt h nr (some b) else some h).bind fun h =>
  (if nlt ≠ none ∧ nlt ≠ some b then setParentAt h nlt (some b) else some h)

/-- `BinarySearchTree::nodeSwap(n1, n2)` (bst.h 753-847). -/
def nodeSwap (t : TreeState) (n1 n2 : Ptr) : Option TreeState :=
  match n1, n2 with
  | some a1, some a2 =>
    if a1 = a2 then some t
    else
      (getParent t.heap a1).bind fun n1p =>
      (getRight t.heap a1).bind fun n1r =>
      (getLeft t.heap a1).bind fun n1lt =>
      (isLeftChild t.heap a1 n1p).bind fun n1isLeft =>
      (getParent t.heap a2).bind fun n2p =>
      (getRight t.heap a2).bind fun n2r =>
      (getLeft t.heap a2).bind fun n2lt =>
      (isLeftChild t.heap a2 n2p).bind fun n2isLeft =>
      (swapLinks t.heap a1 a2).bind fun h =>
      (fixAdjacent h a1 a2 n1r n1lt n2r n2lt).bind fun h =>
      (relinkNeighbours h a2 n1p n1r n1lt n1isLeft).bind fun h =>
      (relinkNeighbours h a1 n2p n2r n2lt n2isLeft).map fun h =>
        { root_ := if t.root_ = some a1 then some a2
                   else if t.root_ = some a2 then some a1
                   else t.root_,
          heap := h }
  | _, _ => some t

/-- Leaf branch of `BinarySearchTree::remove` (bst.h 526-539). -/
def removeLeaf (t : TreeState) (n : Nat) (p : Ptr) : Option TreeState :=
  match p with
  | none => some { root_ := none, heap := free t.heap n }
  | some pa =>
    (getLeft t.heap pa).bind fun pl =>
      (if pl = some n then setLeft t.heap pa none else setRight t.heap pa none).map
        fun h => { root_ := t.root_, heap := free h n }

/-- One-child branch of `BinarySearchTree::remove` (bst.h 540-572). -/
def removeOneChild (t : TreeState) (n : Nat) (nd : AVLNode) (p : Ptr) : Option TreeState :=
  let c : Ptr := if nd.left_ ≠ none then nd.left_ else nd.right_
  match p with
  | some pa =>
    (getRight t.heap pa).bind fun pr =>
      let h := free t.heap n
      (if pr = some n then setRight h pa c else setLeft h pa c).bind fun h =>
        (setParentAt h c p).map fun h => { root_ := t.root_, heap := h }
  | none =>
    (setParentAt t.heap c none).map fun h => { root_ := c, heap := free h n }

/-- Two-children branch of `BinarySearchTree::remove` (bst.h 573-608). -/
def removeTwoChildren (t : TreeState) (n : Nat) : Option TreeState := do
  let pred ← predecessor t.heap n
  let t ← nodeSwap t (some n) pred
  let nd ← deref t.heap n
  let predParent := nd.parent_
  if nd.left_ = none ∧ nd.right_ = none then
    let pa ← predParent
    let pl ← getLeft t.heap pa
    let h ← if pl = some n then setLeft t.heap pa none else setRight t.heap pa none
    some { root_ := t.root_, heap := free h n }
  else if (nd.left_ ≠ none ∧ nd.right_ = none) ∨ (nd.left_ = none ∧ nd.right_ ≠ none) then
    let c : Ptr := if nd.left_ = none then nd.left_ else nd.right_
    let pa ← predParent
    let pl ← getLeft t.heap pa
    let h := free t.heap n
    let h ← if pl = some n then setLeft h pa c else setRight h pa c
    let h ← setParentAt h c predParent
    some { root_ := t.root_, heap := h }
  else some t

/-- `BinarySearchTree::remove(key)` (bst.h 519-609). -/
def remove (t : TreeState) (key : Int) : Option TreeState :=
  match internalFind t key with
  | none => none
  | some none => some t
  | some (some n) =>
    match deref t.heap n with
    | none => none
    | some nd =>
      let p := nd.parent_
      if nd.left_ = none ∧ nd.right_ = none then removeLeaf t n p
      else if (nd.left_ = none ∧ nd.right_ ≠ none) ∨ (nd.left_ ≠ none ∧ nd.right_ = none) then
        removeOneChild t n nd p
      else removeTwoChildren t n

/-- Outcome of `operator[]`: a reference to the stored value, or the `std::out_of_range`
exception. -/
inductive Lookup where
  | value (v : Int)
  | out_of_range
deriving DecidableEq

/-- `BinarySearchTree::operator[](key)` (bst.h 437-452). -/
def subscript (t : TreeState) (key : Int) : Option Lookup :=
  match internalFind t key with
  | none => none
  | some none => some .out_of_range
  | some (some curr) => (deref t.heap curr).map fun nd => .value nd.value

/-- The loop `while (n->getLeft() != NULL) n = n->getLeft();` (bst.h 671-674 and 341-344). -/
def leftmost (h : Heap) : Nat → Nat → Option Nat
  | 0, _ => none
  | fuel + 1, n =>
    match deref h n with
    | none => none
    | some nd =>
      match nd.left_ with
      | none => some n
      | some l => leftmost h fuel l

/-- `BinarySearchTree::getSmallestNode()` (bst.h 662-676). -/
def getSmallestNode (t : TreeState) : Option Ptr :=
  match t.root_ with
  | none => some none
  | some r => (leftmost t.heap (t.heap.length + 1) r).map some

/-- `BinarySearchTree::begin()` (bst.h 401-407): the iterator's `current_` pointer. -/
def begin (t : TreeState) : Option Ptr := getSmallestNode t

/-- `BinarySearchTree::end()` (bst.h 412-418): the iterator's `current_` pointer. -/
def end_ (_t : TreeState) : Option Ptr := some none

/-- The climbing loop of `iterator::operator++` followed by the final step to the parent
(bst.h 349-351). -/
def climb (h : Heap) : Nat → Nat → Option Ptr
  | 0, _ => none
  | fuel + 1, cur =>
    match deref h cur with
    | none => none
    | some nd =>
      match nd.parent_ with
      | none => some none
      | some p =>
        match deref h p with
        | none => none
        | some pnd => if pnd.right_ = some cur then climb h fuel p else some (some p)

/-- `BinarySearchTree::iterator::operator++()` (bst.h 329-353) on the iterator's `current_`. -/
def increment (h : Heap) (current_ : Ptr) : Option Ptr :=
  match current_ with
  | none => some none
  | some c =>
    match deref h c with
    | none => none
    | some nd =>
      match nd.right_ with
      | some r => (leftmost h (h.length + 1) r).map some
      | none => climb h (h.length + 1) c

end BinarySearchTree

namespace AVLTree

/-- `AVLTree::updateBalances(n)` (avlbst.h 147-169). -/
def updateBalances : Nat → Heap → Ptr → Option Heap
  | _, h, none => some h
  | 0, _, some _ => none
  | fuel + 1, h, some n =>
    match deref h n with
    | none => none
    | some nd =>
      let lHeight : Option Int :=
        match nd.left_ with
        | none => some 0
        | some l => (deref h l).map (·.balance_)
      let rHeight : Option Int :=
        match nd.right_ with
        | none => some 0
        | some r => (deref h r).map (·.balance_)
      match lHeight, rHeight with
      | some lh, some rh =>
        updateBalances fuel (store h n { nd with balance_ := wrap8 (max lh rh + 1) }) nd.parent_
      | _, _ => none

/-- `AVLTree::getHeight(n)` (avlbst.h 301-315). -/
def getHeight (h : Heap) : Nat → Ptr → Option Int
  | _, none => some 0
  | 0, some _ => none
  | fuel + 1, some n =>
    match deref h n with
    | none => none
    | some nd =>
      match getHeight h fuel nd.left_, getHeight h fuel nd.right_ with
      | some lSubtreeHeight, some rSubstreeHeight => some (max lSubtreeHeight rSubstreeHeight + 1)
      | _, _ => none

/-- `AVLTree::calculateBalance(n)` (avlbst.h 318-325). -/
def calculateBalance (h : Heap) (n : Ptr) : Option Int := do
  let nd ← derefPtr h n
  let lHeight ← getHeight h (h.length + 1) nd.left_
  let rHeight ← getHeight h (h.length + 1) nd.right_
  some (rHeight - lHeight)

/-- The statement `m->setBalance(std::max(getHeight(m->getLeft()), getHeight(m->getRight())) + 1)`
of the two rotations. -/
def setBalanceFromHeights (h : Heap) (m : Nat) : Option Heap := do
  let nd ← deref h m
  let lh ← getHeight h (h.length + 1) nd.left_
  let rh ← getHeight h (h.length + 1) nd.right_
  setBalance h m (wrap8 (max lh rh + 1))

/-- `AVLTree::rightRotation(n)` (avlbst.h 328-344); the returned pointer is `n` itself. -/
def rightRotation (h : Heap) (n : Ptr) : Option Heap := do
  let a ← n
  let nd ← deref h a
  let currLeft ← nd.left_
  let cl ← deref h currLeft
  let currLeft_RightChild := cl.right_
  let h ← setRight h currLeft (some a)
  let h ← setLeft h a currLeft_RightChild
  let h ← setBalanceFromHeights h a
  setBalanceFromHeights h currLeft

/-- `AVLTree::leftRotation(n)` (avlbst.h 347-363); the returned pointer is `n` itself. -/
def leftRotation (h : Heap) (n : Ptr) : Option Heap := do
  let a ← n
  let nd ← deref h a
  let currRight ← nd.right_
  let cr ← deref h currRight
  let currRight_LeftChild := cr.left_
  let h ← setLeft h currRight (some a)
  let h ← setRight h a currRight_LeftChild
  let h ← setBalanceFromHeights h a
  setBalanceFromHeights h currRight

/-- Short-circuit `a && b`, where evaluating `b` may dereference a null pointer. -/
def andAlso (a : Bool) (b : Option Bool) : Option Bool := if a then b else some false

/-- Short-circuit `a || b`, where evaluating either operand may dereference a null pointer. -/
def orElse (a b : Option Bool) : Option Bool := a.bind fun x => if x then some true else b

/-- Key comparison `x > y` whose operands are read through pointers. -/
def keyGt (x y : Option Int) : Option Bool := x.bind fun u => y.map fun v => decide (u > v)

/-- Key comparison `x < y` whose operands are read through pointers. -/
def keyLt (x y : Option Int) : Option Bool := x.bind fun u => y.map fun v => decide (u < v)

/-- Cases 2 to 6 of `AVLTree::rebalanceTree` (avlbst.h 255-297), `anc` being the node that
`ancestor` points to. -/
def rebalanceCases (h : Heap) (a : Nat) (anc : AVLNode) (newNode : Ptr) : Option Heap :=
  let fuel := h.length + 1
  let newKey : Option Int := (derefPtr h newNode).map (·.key)
  let rightKey : Option Int := (derefPtr h anc.right_).map (·.key)
  let leftKey : Option Int := (derefPtr h anc.left_).map (·.key)
  (orElse (andAlso (decide (anc.balance_ < 0)) (keyGt newKey (some anc.key)))
          (andAlso (decide (anc.balance_ > 0)) (keyLt newKey (some anc.key)))).bind fun case2 =>
  if case2 then
    (setBalance h a 0).bind fun h => updateBalances fuel h newNode
  else (andAlso (decide (anc.balance_ > 0)) (keyGt newKey rightKey)).bind fun case3 =>
  if case3 then
    (setBalance h a 0).bind fun h => (leftRotation h (some a)).bind fun h =>
      updateBalances fuel h newNode
  else (andAlso (decide (anc.balance_ < 0)) (keyLt newKey leftKey)).bind fun case4 =>
  if case4 then
    (setBalance h a 0).bind fun h => (getLeft h a).bind fun l =>
      (rightRotation h l).bind fun h => updateBalances fuel h newNode
  else (andAlso (decide (anc.balance_ < 0)) (keyGt newKey leftKey)).bind fun case5 =>
  if case5 then
    (getLeft h a).bind fun l => (rightRotation h l).bind fun h =>
      (rightRotation h (some a)).bind fun h => updateBalances fuel h newNode
  else
    (getRight h a).bind fun r => (rightRotation h r).bind fun h =>
      (leftRotation h (some a)).bind fun h => updateBalances fuel h newNode

/-- `AVLTree::rebalanceTree(ancestor, newNode, root)` (avlbst.h 239-298). -/
def rebalanceTree (h : Heap) (ancestor newNode root : Ptr) : Option Heap :=
  match ancestor with
  | none =>
    -- Case 1
    match derefPtr h newNode, derefPtr h root, root with
    | some nnd, some rnd, some r =>
      (setBalance h r (if nnd.key < rnd.key then -1 else 1)).bind fun h =>
        updateBalances (h.length + 1) h newNode
    | _, _, _ => none
  | some a =>
    match deref h a with
    | none => none
    | some anc => rebalanceCases h a anc newNode

/-- Result of the descent loop of `AVLTree::insert`. -/
inductive Descent where
  | found (n : Nat)
  | attach (p : Nat) (setLeftChild : Bool)
deriving DecidableEq

/-- Descent loop of `AVLTree::insert` (avlbst.h 193-216): either the node already holding the
key, or the final value of `p` and of `setLeftChild`. -/
def insertLoop (h : Heap) (k : Int) : Nat → Nat → Option Descent
  | 0, _ => none
  | fuel + 1, newNode =>
    match deref h newNode with
    | none => none
    | some nd =>
      if k < nd.key then
        match nd.left_ with
        | none => some (.attach newNode true)
        | some l => insertLoop h k fuel l
      else if k > nd.key then
        match nd.right_ with
        | none => some (.attach newNode false)
        | some r => insertLoop h k fuel r
      else if k = nd.key then some (.found newNode)
      else insertLoop h k fuel newNode

/-- `AVLTree::insert(new_item)` (avlbst.h 175-237). -/
def insert (t : TreeState) (new_item : Int × Int) : Option TreeState :=
  match t.root_ with
  | none =>
    some { root_ := some (alloc t.heap (AVLNode.new new_item.1 new_item.2 none)).1,
           heap := (alloc t.heap (AVLNode.new new_item.1 new_item.2 none)).2 }
  | some root =>
    let ancestor : Ptr := none
    match insertLoop t.heap new_item.1 (t.heap.length + 1) root with
    | none => none
    | some (.found n) =>
      (setValue t.heap n new_item.2).map fun h => { root_ := t.root_, heap := h }
    | some (.attach p setLeftChild) =>
      let newNode := (alloc t.heap (AVLNode.new new_item.1 new_item.2 (some p))).1
      let h := (alloc t.heap (AVLNode.new new_item.1 new_item.2 (some p))).2
      (if !setLeftChild then setRight h p (some newNode) else setLeft h p (some newNode)).bind
        fun h => (getParent h newNode).bind
        fun np => (updateBalances (h.length + 1) h np).bind
        fun h => (rebalanceTree h ancestor (some newNode) (some root)).map
        fun h => { root_ := t.root_, heap := h }

/-- `AVLTree::remove(key)` (avlbst.h 369-373): the body is empty. -/
def remove (t : TreeState) (_key : Int) : Option TreeState := some t

/-- `AVLTree::nodeSwap(n1, n2)` (avlbst.h 375-382). -/
def nodeSwap (t : TreeState) (n1 n2 : Ptr) : Option TreeState := do
  let t ← BinarySearchTree.nodeSwap t n1 n2
  let nd1 ← derefPtr t.heap n1
  let nd2 ← derefPtr t.heap n2
  let tempB := nd1.balance_
  let h ← setBalance t.heap (← n1) nd2.balance_
  let h ← setBalance h (← n2) tempB
  some { root_ := t.root_, heap := h }

/-- The empty tree on an empty free store (`BinarySearchTree()` constructor). -/
def empty : TreeState := { root_ := none, heap := [] }

/-- A finite sequence of `insert` calls. -/
def insertAll : TreeState → List (Int × Int) → Option TreeState
  | t, [] => some t
  | t, kv :: rest => (insert t kv).bind fun t => insertAll t rest

end AVLTree

/-! ## Specification-level observations of a state -/

/-- In-order traversal of the nodes reachable from `p` through child pointers, as
(key, value) pairs. -/
def inorderFrom (h : Heap) : Nat → Ptr → Option (List (Int × Int))
  | _, none => some []
  | 0, some _ => none
  | fuel + 1, some a =>
    match deref h a with
    | none => none
    | some nd =>
      match inorderFrom h fuel nd.left_, inorderFrom h fuel nd.right_ with
      | some l, some r => some (l ++ (nd.key, nd.value) :: r)
      | _, _ => none

/-- In-order (key, value) sequence of a tree. -/
def inorder (t : TreeState) : Option (List (Int × Int)) :=
  inorderFrom t.heap (t.heap.length + 1) t.root_

/-- Parent/child pointer symmetry over every live node of the store, and a parentless root. -/
def ParentSymmetric (t : TreeState) : Prop :=
  (∀ n nd m, deref t.heap n = some nd → (nd.left_ = some m ∨ nd.right_ = some m) →
      ∃ md, deref t.heap m = some md ∧ md.parent_ = some n) ∧
  (∀ r, t.root_ = some r → ∃ rd, deref t.heap r = some rd ∧ rd.parent_ = none)

/-! ## Abstract shape of a pointer tree -/

/-- Finite binary tree of (address, key, value) triples: the unfolding of a heap tree. -/
inductive Shape where
  | nil : Shape
  | node (l : Shape) (a : Nat) (k v : Int) (r : Shape) : Shape
deriving DecidableEq

namespace Shape

/-- Pointer to the root node of a shape. -/
def ptr : Shape → Ptr
  | nil => none
  | node _ a _ _ _ => some a

/-- In-order list of (address, key, value). -/
def nodes : Shape → List (Nat × Int × Int)
  | nil => []
  | node l a k v r => l.nodes ++ (a, k, v) :: r.nodes

/-- In-order list of addresses. -/
def addrs (s : Shape) : List Nat := s.nodes.map (·.1)

/-- In-order list of keys. -/
def keys (s : Shape) : List Int := s.nodes.map (·.2.1)

/-- In-order list of (key, value) pairs. -/
def toList (s : Shape) : List (Int × Int) := s.nodes.map (·.2)

/-- Height, with `height nil = 0` and `height leaf = 1`. -/
def height : Shape → Nat
  | nil => 0
  | node l _ _ _ r => max l.height r.height + 1

/-- The AVL balance invariant: at every node the two subtree heights differ by at most 1. -/
def Balanced : Shape → Prop
  | nil => True
  | node l _ _ _ r =>
    ((r.height : Int) - l.height ≤ 1 ∧ (l.height : Int) - r.height ≤ 1) ∧ l.Balanced ∧ r.Balanced

/-- The BST order invariant: at every node, every key of the left subtree is smaller and every
key of the right subtree is greater than the node's key. -/
def Ordered : Shape → Prop
  | nil => True
  | node l _ k _ r => (∀ x ∈ l.keys, x < k) ∧ (∀ x ∈ r.keys, k < x) ∧ l.Ordered ∧ r.Ordered

/-- The order invariant can be checked by evaluation. -/
def decOrdered : (s : Shape) → Decidable s.Ordered
  | nil => isTrue trivial
  | node l _ k _ r =>
    let _ := decOrdered l
    let _ := decOrdered r
    inferInstanceAs
      (Decidable ((∀ x ∈ l.keys, x < k) ∧ (∀ x ∈ r.keys, k < x) ∧ l.Ordered ∧ r.Ordered))

instance (s : Shape) : Decidable s.Ordered := decOrdered s

/-- The balance invariant can be checked by evaluation. -/
def decBalanced : (s : Shape) → Decidable s.Balanced
  | nil => isTrue trivial
  | node l _ _ _ r =>
    let _ := decBalanced l
    let _ := decBalanced r
    inferInstanceAs
      (Decidable (((r.height : Int) - l.height ≤ 1 ∧ (l.height : Int) - r.height ≤ 1) ∧
        l.Balanced ∧ r.Balanced))

instance (s : Shape) : Decidable s.Balanced := decBalanced s

/-- The heap `h` holds the shape `s` below a node whose parent pointer is `par`: every node's
key, value, parent, left and right fields are the ones the shape prescribes. -/
def Rep (h : Heap) : Ptr → Shape → Prop
  | _, nil => True
  | par, node l a k v r =>
    (∃ b, deref h a = some ⟨k, v, par, l.ptr, r.ptr, b⟩) ∧ Rep h (some a) l ∧ Rep h (some a) r

/-- Key search along the comparison path: address and value of the node found. -/
def find (k : Int) : Shape → Option (Nat × Int)
  | nil => none
  | node l a key v r =>
    if key = k then some (a, v) else if key > k then l.find k else r.find k

/-- Unbalanced insertion of `(k, v)`: overwrite the value on an equal key, otherwise attach a
leaf with address `x` at the end of the comparison path. -/
def ins (x : Nat) (k v : Int) : Shape → Shape
  | nil => node nil x k v nil
  | node l a key val r =>
    if k < key then node (l.ins x k v) a key val r
    else if k > key then node l a key val (r.ins x k v)
    else node l a key v r

end Shape

/-- The state `t` is a well-formed tree of shape `s`: the root pointer is the shape's root, the
heap holds the shape with consistent parent pointers, and no address occurs twice. -/
def Models (t : TreeState) (s : Shape) : Prop :=
  t.root_ = s.ptr ∧ Shape.Rep t.heap none s ∧ s.addrs.Nodup

/-- Invariant of the states built by `insert` calls from the empty tree. -/
structure Reach (t : TreeState) (s : Shape) : Prop where
  models : Models t s
  ordered : s.Ordered
  cover : ∀ a, a < t.heap.length → a ∈ s.addrs

/-- The state reached by inserting keys 2, 1, 3 (values 20, 10, 30) into the empty tree. -/
def exampleTree : TreeState :=
  { root_ := some 0,
    heap := [some ⟨2, 20, none, some 1, some 2, 2⟩, some ⟨1, 10, some 0, none, none, 1⟩,
             some ⟨3, 30, some 0, none, none, 1⟩] }

/-- The shape of `exampleTree`. -/
def exampleShape : Shape :=
  .node (.node .nil 1 1 10 .nil) 0 2 20 (.node .nil 2 3 30 .nil)

/-- A node with its balance field blanked: the structural content of a node. -/
def AVLNode.strip (nd : AVLNode) : AVLNode := { nd with balance_ := 0 }

/-- Two stores of the same size whose nodes agree on everything except the balance field. -/
def SameShape (h h' : Heap) : Prop :=
  h'.length = h.length ∧ ∀ c, (deref h' c).map AVLNode.strip = (deref h c).map AVLNode.strip

/-- The parent chain starting at `p` reaches the null pointer after `n` nodes, and every node on
it has live children: what the walk of `updateBalances` dereferences. -/
inductive UpOK (h : Heap) : Ptr → Nat → Prop
  | null : UpOK h none 0
  | step {a : Nat} {nd : AVLNode} {n : Nat} :
      deref h a = some nd →
      (∀ l, nd.left_ = some l → ∃ c, deref h l = some c) →
      (∀ r, nd.right_ = some r → ∃ c, deref h r = some c) →
      UpOK h nd.parent_ n → UpOK h (some a) (n + 1)

/-- The tree 4(2(1, 3), 5): node 4 at address 0, 2 at address 1, 1 at address 2, 3 at
address 3 and 5 at address 4, with consistent parent pointers. -/
def rotationHeap : Heap :=
  [some ⟨4, 0, none, some 1, some 4, 0⟩, some ⟨2, 0, some 0, some 2, some 3, 0⟩,
   some ⟨1, 0, some 1, none, none, 0⟩, some ⟨3, 0, some 1, none, none, 0⟩,
   some ⟨5, 0, some 0, none, none, 0⟩]

/-- The shape held by `rotationHeap`. -/
def rotationShape : Shape :=
  .node (.node (.node .nil 2 1 0 .nil) 1 2 0 (.node .nil 3 3 0 .nil)) 0 4 0 (.node .nil 4 5 0 .nil)

/-- The mirror image of `rotationHeap`: the tree 2(1, 4(3, 5)) with 2 at address 0, 4 at
address 1, 5 at address 2, 3 at address 3 and 1 at address 4. -/
def rotationHeapMirror : Heap :=
  [some ⟨2, 0, none, some 4, some 1, 0⟩, some ⟨4, 0, some 0, some 3, some 2, 0⟩,
   some ⟨5, 0, some 1, none, none, 0⟩, some ⟨3, 0, some 1, none, none, 0⟩,
   some ⟨1, 0, some 0, none, none, 0⟩]

/-- The left spine 30 (address 0, balance -1), 20 (address 1), 10 (address 2). -/
def leftLeftHeap : Heap :=
  [some ⟨30, 0, none, some 1, none, -1⟩, some ⟨20, 0, some 0, some 2, none, 0⟩,
   some ⟨10, 0, some 1, none, none, 0⟩]

/-- The zig-zag 30 (address 0, balance -1), left child 10 (address 1), whose right child is 20
(address 2). -/
def leftRightHeap : Heap :=
  [some ⟨30, 0, none, some 1, none, -1⟩, some ⟨10, 0, some 0, none, some 2, 0⟩,
   some ⟨20, 0, some 1, none, none, 0⟩]

/-- First address of a list, or the pointer `N` when the list is empty. -/
def firstOr (l : List Nat) (N : Ptr) : Ptr :=
  match l with
  | [] => N
  | y :: _ => some y

/-- Along the list of addresses, `operator++` leads from each node to the next one, and from
the last one to `N`. -/
def IterChain (h : Heap) : List Nat → Ptr → Prop
  | [], _ => True
  | x :: rest, N =>
    BinarySearchTree.increment h (some x) = some (firstOr rest N) ∧ IterChain h rest N

/-- The iterator's `current_` after `n` applications of `operator++`. -/
def advance (h : Heap) : Nat → Ptr → Option Ptr
  | 0, p => some p
  | n + 1, p => (BinarySearchTree.increment h p).bind (advance h n)

namespace Shape

/-- The heap `h` holds the shape `s` as far as keys, values and child pointers go; parent
pointers are not constrained. -/
def CRep (h : Heap) : Shape → Prop
  | nil => True
  | node l a k v r =>
    (∃ nd, deref h a = some nd ∧ nd.key = k ∧ nd.value = v ∧ nd.left_ = l.ptr ∧
      nd.right_ = r.ptr) ∧ CRep h l ∧ CRep h r

/-- Removal of the node holding `k` when it has at most one child: its only child (if any)
takes its place. A node with two children is left in place. -/
def spliceOut (k : Int) : Shape → Shape
  | nil => nil
  | node l a key v r =>
    if k < key then node (l.spliceOut k) a key v r
    else if k > key then node l a key v (r.spliceOut k)
    else
      match l, r with
      | nil, _ => r
      | _, nil => l
      | _, _ => node l a key v r

end Shape

namespace Shape

/-- The node met on the comparison path of `k` that holds `k` (if any) has at most one
child. -/
def FewChildren (k : Int) : Shape → Prop
  | nil => True
  | node l _ key _ r =>
    if k < key then l.FewChildren k
    else if k > key then r.FewChildren k
    else l = nil ∨ r = nil

end Shape

/-- The store `h'` is `h` with node `n` released, the child slot of its parent `p` that held
`n` redirected to `c`, and the parent pointer of `c` set to `p`; every other cell is
unchanged. -/
def Detached (h h' : Heap) (n : Nat) (p c : Ptr) : Prop :=
  h'.length = h.length ∧ deref h' n = none ∧
  (∀ ca, c = some ca → ∃ cnd, deref h ca = some cnd ∧
    deref h' ca = some { cnd with parent_ := p }) ∧
  (∀ pa, p = some pa → ∃ pnd, deref h pa = some pnd ∧
    deref h' pa = some { pnd with
      left_ := if pnd.left_ = some n then c else pnd.left_,
      right_ := if pnd.right_ = some n then c else pnd.right_ }) ∧
  (∀ x, x ≠ n → some x ≠ p → some x ≠ c → deref h' x = deref h x)

namespace PlainBST

/-- Plain unbalanced BST descent as worded in the specification (4.1, Descend-to-insert):
walk from the root comparing `key` to each visited node's key; on equality return the existing
node; on exhaustion return the parent at which a new node must be attached and the side. -/
def descendToInsert (h : Heap) (key : Int) : Nat → Nat → Option AVLTree.Descent
  | 0, _ => none
  | fuel + 1, n =>
    match deref h n with
    | none => none
    | some nd =>
      if key = nd.key then some (.found n)
      else if key < nd.key then
        match nd.left_ with
        | none => some (.attach n true)
        | some l => descendToInsert h key fuel l
      else
        match nd.right_ with
        | none => some (.attach n false)
        | some r => descendToInsert h key fuel r

/-- Plain unbalanced BST insertion as worded in the specification (4.1 and 4.2 steps 1-3):
an empty tree gets a new root; an existing key has its value overwritten; otherwise the new
key is attached as a leaf of the located parent. No balance work is done. -/
def insert (t : TreeState) (kv : Int × Int) : Option TreeState :=
  match t.root_ with
  | none =>
    some { root_ := some t.heap.length, heap := t.heap ++ [some (AVLNode.new kv.1 kv.2 none)] }
  | some r =>
    match descendToInsert t.heap kv.1 (t.heap.length + 1) r with
    | none => none
    | some (.found n) => (setValue t.heap n kv.2).map fun h => { root_ := t.root_, heap := h }
    | some (.attach p isLeft) =>
      (if isLeft then
          setLeft (t.heap ++ [some (AVLNode.new kv.1 kv.2 (some p))]) p (some t.heap.length)
        else
          setRight (t.heap ++ [some (AVLNode.new kv.1 kv.2 (some p))]) p (some t.heap.length)).map
        fun h => { root_ := t.root_, heap := h }

/-- A finite sequence of plain insertions. -/
def insertAll : TreeState → List (Int × Int) → Option TreeState
  | t, [] => some t
  | t, kv :: rest => (insert t kv).bind fun t => insertAll t rest

end PlainBST

/-- The store after `new AVLNode(k, v, p)` and the link `p->setLeft(newNode)` (when `b`) or
`p->setRight(newNode)`, where `nd` is the node at `p`. -/
def attachHeap (h : Heap) (k v : Int) (p : Nat) (b : Bool) (nd : AVLNode) : Heap :=
  store (h ++ [some (AVLNode.new k v (some p))]) p
    (if b then { nd with left_ := some h.length } else { nd with right_ := some h.length })

/-- Stored balance of the node a child pointer refers to, 0 for an absent child: the values
`lHeight` and `rHeight` read by `AVLTree::updateBalances`. -/
def storedBalance (h : Heap) : Ptr → Int
  | none => 0
  | some c =>
    match deref h c with
    | none => 0
    | some nd => nd.balance_

/-- Nodes visited by following `getParent()` from `p` until the null pointer. -/
def parentChain (h : Heap) : Nat → Ptr → List Nat
  | 0, _ => []
  | _ + 1, none => []
  | fuel + 1, some n =>
    n :: match deref h n with
      | none => []
      | some nd => parentChain h fuel nd.parent_

namespace Shape

/-- Addresses on the comparison path of `k`, from the root downwards. -/
def path (k : Int) : Shape → List Nat
  | nil => []
  | node l a key _ r =>
    a :: (if k < key then l.path k else if k > key then r.path k else [])

/-- Every node of the shape stores the height of its subtree in its balance field. -/
def BalOK (h : Heap) : Shape → Prop
  | nil => True
  | node l a k v r =>
    (∃ nd, deref h a = some nd ∧ nd.balance_ = ((node l a k v r).height : Int)) ∧
      BalOK h l ∧ BalOK h r

/-- Every node off the comparison path of `k` stores the height of its subtree. -/
def OffOK (h : Heap) (k : Int) : Shape → Prop
  | nil => True
  | node l _ key _ r =>
    if k < key then OffOK h k l ∧ BalOK h r
    else if k > key then BalOK h l ∧ OffOK h k r
    else BalOK h l ∧ BalOK h r

end Shape

/-- The recurrence `updateBalances` establishes at node `m`: its balance field is
`max(lHeight, rHeight) + 1` of the stored balances of its children, as an `int8_t`. -/
def BalanceStep (h : Heap) (m : Nat) : Prop :=
  ∃ md, deref h m = some md ∧
    md.balance_ = wrap8 (max (storedBalance h md.left_) (storedBalance h md.right_) + 1)

/-- Key, value and balance of the node at an address. -/
def payload (h : Heap) (x : Nat) : Option (Int × Int × Int) :=
  (deref h x).map fun nd => (nd.key, nd.value, nd.balance_)

/-- The transposition of the addresses `a` and `b`. -/
def swapAddr (a b x : Nat) : Nat := if x = a then b else if x = b then a else x

/-- The transposition of `a` and `b` on pointers (the null pointer is fixed). -/
def swapPtr (a b : Nat) : Ptr → Ptr
  | none => none
  | some x => some (swapAddr a b x)

/-- A pointer field of every node after the `temp` exchange of that field between `a` and
`b` (bst.h 773-784). -/
def exchView (a b : Nat) (X : Nat → Option Ptr) : Nat → Option Ptr :=
  fun x => if x = a then X b else if x = b then X a else X x

/-- The parent field of every node after the adjacency repair (bst.h 786-805). -/
def fixP (a b : Nat) (n1r n1lt n2r n2lt : Ptr) (P : Nat → Option Ptr) : Nat → Option Ptr :=
  fun x =>
    if n1r = some b then (if x = a then some (some b) else P x)
    else if n2r = some a then (if x = b then some (some a) else P x)
    else if n1lt = some b then (if x = a then some (some b) else P x)
    else if n2lt = some a then (if x = b then some (some a) else P x)
    else P x

/-- The left field of every node after the adjacency repair (bst.h 786-805). -/
def fixL (a b : Nat) (n1r n1lt n2r n2lt : Ptr) (L : Nat → Option Ptr) : Nat → Option Ptr :=
  fun x =>
    if n1r = some b then L x
    else if n2r = some a then L x
    else if n1lt = some b then (if x = b then some (some a) else L x)
    else if n2lt = some a then (if x = a then some (some b) else L x)
    else L x

/-- The right field of every node after the adjacency repair (bst.h 786-805). -/
def fixR (a b : Nat) (n1r n2r : Ptr) (R : Nat → Option Ptr) : Nat → Option Ptr :=
  fun x =>
    if n1r = some b then (if x = b then some (some a) else R x)
    else if n2r = some a then (if x = a then some (some b) else R x)
    else R x

/-- The parent field of every node after the former children `nr`, `nlt` of a node are
redirected to `b` (bst.h 814-821, 830-837). -/
def relP (b : Nat) (nr nlt : Ptr) (P : Nat → Option Ptr) : Nat → Option Ptr :=
  fun x =>
    if nlt = some x ∧ x ≠ b then some (some b)
    else if nr = some x ∧ x ≠ b then some (some b)
    else P x

/-- The left field of every node after the former parent `np` of a node is redirected to `b`
(bst.h 807-813, 823-829). -/
def relL (b : Nat) (np : Ptr) (isLeft : Bool) (L : Nat → Option Ptr) : Nat → Option Ptr :=
  fun x => if np = some x ∧ x ≠ b ∧ isLeft = true then some (some b) else L x

/-- The right field of every node after the former parent `np` of a node is redirected to `b`
(bst.h 807-813, 823-829). -/
def relR (b : Nat) (np : Ptr) (isLeft : Bool) (R : Nat → Option Ptr) : Nat → Option Ptr :=
  fun x => if np = some x ∧ x ≠ b ∧ isLeft = false then some (some b) else R x

/-- The pointer fields `P`, `L`, `R` (parent, left, right) form a tree on the addresses in
`T`: all three fields are readable, links stay inside `T`, a node is the parent of exactly its
children, the two children differ, and no node is its own parent or grandparent. -/
structure TreeLinks (T : Nat → Prop) (P L R : Nat → Option Ptr) : Prop where
  liveP : ∀ x, T x → ∃ p, P x = some p
  liveL : ∀ x, T x → ∃ p, L x = some p
  liveR : ∀ x, T x → ∃ p, R x = some p
  closedP : ∀ x y, T x → P x = some (some y) → T y
  up : ∀ x y, T x → P x = some (some y) → L y = some (some x) ∨ R y = some (some x)
  downL : ∀ x y, T y → L y = some (some x) → T x ∧ P x = some (some y)
  downR : ∀ x y, T y → R y = some (some x) → T x ∧ P x = some (some y)
  distinct : ∀ x c, T x → L x = some (some c) → R x ≠ some (some c)
  noSelf : ∀ x, T x → P x ≠ some (some x)
  noTwo : ∀ x y, T x → P x = some (some y) → P y ≠ some (some x)

/-- The store `h` has `n` cells, the payloads `pay` and the pointer fields `P`, `L`, `R`. -/
structure HasView (h : Heap) (n : Nat) (pay : Nat → Option (Int × Int × Int))
    (P L R : Nat → Option Ptr) : Prop where
  len : h.length = n
  payl : ∀ x, payload h x = pay x
  par : ∀ x, getParent h x = P x
  left : ∀ x, getLeft h x = L x
  right : ∀ x, getRight h x = R x

namespace Shape

/-- The shape after the nodes at addresses `a` and `b` exchanged their positions: the position
of `a` is taken by `b` with its key and value `nb`, the position of `b` by `a` with `na`. -/
def exchange (a b : Nat) (na nb : Int × Int) : Shape → Shape
  | nil => nil
  | node l x k v r =>
    if x = a then node (l.exchange a b na nb) b nb.1 nb.2 (r.exchange a b na nb)
    else if x = b then node (l.exchange a b na nb) a na.1 na.2 (r.exchange a b na nb)
    else node (l.exchange a b na nb) x k v (r.exchange a b na nb)

end Shape

/-- The insert sequence of the keys 1, 2, ..., `n` in increasing order (each value equal to
its key). -/
def ascending (n : Nat) : List (Int × Int) :=
  (List.range n).map fun i => ((i : Int) + 1, (i : Int) + 1)

namespace Shape

/-- The right spine of `m` nodes at addresses `a`, `a + 1`, ... holding the keys `a + 1`,
`a + 2`, ...: the shape built by inserting keys in increasing order. -/
def spineFrom (a : Nat) : Nat → Shape
  | 0 => nil
  | m + 1 => node nil a ((a : Int) + 1) ((a : Int) + 1) (spineFrom (a + 1) m)

end Shape

/-! ## Store lemmas -/

theorem deref_lt {h : Heap} {a : Nat} {nd : AVLNode} (e : deref h a = some nd) :
    a < h.length := by
  unfold deref at e
  by_contra hlt
  rw [List.getD_eq_default _ _ (by omega)] at e
  cases e

theorem deref_store (h : Heap) (a c : Nat) (nd : AVLNode) :
    deref (store h a nd) c = if a = c ∧ a < h.length then some nd else deref h c := by
  unfold deref store
  simp only [List.getD_eq_getElem?_getD, List.getElem?_set]
  by_cases hac : a = c
  · subst hac
    by_cases hl : a < h.length
    · simp [hl]
    · simp [hl, List.getElem?_eq_none (not_lt.mp hl)]
  · simp [hac]

theorem deref_store_self {h : Heap} {a : Nat} {nd0 : AVLNode} (e : deref h a = some nd0)
    (nd : AVLNode) : deref (store h a nd) a = some nd := by
  rw [deref_store]; simp [deref_lt e]

theorem deref_store_ne (h : Heap) {a c : Nat} (nd : AVLNode) (hne : a ≠ c) :
    deref (store h a nd) c = deref h c := by
  rw [deref_store]; simp [hne]

theorem length_store (h : Heap) (a : Nat) (nd : AVLNode) : (store h a nd).length = h.length := by
  simp [store]

theorem deref_append_lt (h : Heap) (x : Option AVLNode) {c : Nat} (hc : c < h.length) :
    deref (h ++ [x]) c = deref h c := by
  unfold deref
  simp [List.getD_eq_getElem?_getD, List.getElem?_append_left hc]

theorem deref_append_length (h : Heap) (x : Option AVLNode) :
    deref (h ++ [x]) h.length = x := by
  unfold deref
  simp [List.getD_eq_getElem?_getD]

/-! ## Shape lemmas -/

namespace Shape

@[simp] theorem nodes_nil : nodes nil = [] := rfl

@[simp] theorem nodes_node (l : Shape) (a : Nat) (k v : Int) (r : Shape) :
    nodes (node l a k v r) = l.nodes ++ (a, k, v) :: r.nodes := rfl

@[simp] theorem addrs_nil : addrs nil = [] := rfl

@[simp] theorem addrs_node (l : Shape) (a : Nat) (k v : Int) (r : Shape) :
    addrs (node l a k v r) = l.addrs ++ a :: r.addrs := by simp [addrs]

@[simp] theorem keys_nil : keys nil = [] := rfl

@[simp] theorem keys_node (l : Shape) (a : Nat) (k v : Int) (r : Shape) :
    keys (node l a k v r) = l.keys ++ k :: r.keys := by simp [keys]

@[simp] theorem toList_nil : toList nil = [] := rfl

@[simp] theorem toList_node (l : Shape) (a : Nat) (k v : Int) (r : Shape) :
    toList (node l a k v r) = l.toList ++ (k, v) :: r.toList := by simp [toList]

theorem keys_eq_toList (s : Shape) : s.keys = s.toList.map Prod.fst := by
  simp [keys, toList, List.map_map]

theorem length_addrs (s : Shape) : s.addrs.length = s.nodes.length := by simp [addrs]

theorem height_le_length (s : Shape) : s.height ≤ s.nodes.length := by
  induction s with
  | nil => simp [height]
  | node l a k v r ihl ihr =>
    simp only [height, nodes_node, List.length_append, List.length_cons]
    omega

theorem ptr_ins (x : Nat) (k v : Int) (l : Shape) (a : Nat) (key val : Int) (r : Shape) :
    (ins x k v (node l a key val r)).ptr = some a := by
  simp only [ins]; split_ifs <;> rfl

theorem mem_keys_ins (x : Nat) (k v : Int) (s : Shape) (y : Int) :
    y ∈ (ins x k v s).keys ↔ y = k ∨ y ∈ s.keys := by
  induction s with
  | nil => simp [ins]
  | node l a key val r ihl ihr =>
    simp only [ins]
    split_ifs with h1 h2
    · simp [ihl]; tauto
    · simp [ihr]; tauto
    · have : k = key := by omega
      subst this; simp; tauto

theorem ordered_ins (x : Nat) (k v : Int) (s : Shape) (hs : s.Ordered) :
    (ins x k v s).Ordered := by
  induction s with
  | nil => simp [ins, Ordered]
  | node l a key val r ihl ihr =>
    obtain ⟨hl, hr, ol, or_⟩ := hs
    simp only [ins]
    split_ifs with h1 h2
    · refine ⟨?_, hr, ihl ol, or_⟩
      intro y hy
      rcases (mem_keys_ins x k v l y).1 hy with rfl | hy
      · exact h1
      · exact hl y hy
    · refine ⟨hl, ?_, ol, ihr or_⟩
      intro y hy
      rcases (mem_keys_ins x k v r y).1 hy with rfl | hy
      · exact h2
      · exact hr y hy
    · exact ⟨hl, hr, ol, or_⟩

theorem find_ins_ne (x : Nat) (k v : Int) (s : Shape) (k' : Int) (hne : k' ≠ k) :
    (ins x k v s).find k' = s.find k' := by
  induction s with
  | nil => simp [ins, find]; omega
  | node l a key val r ihl ihr =>
    simp only [ins]
    split_ifs with h1 h2
    · simp only [find, ihl]
    · simp only [find, ihr]
    · have : k = key := by omega
      subst this
      simp only [find]
      rw [if_neg (Ne.symm hne), if_neg (Ne.symm hne)]

theorem find_ins_self (x : Nat) (k v : Int) (s : Shape) :
    ∃ a, (ins x k v s).find k = some (a, v) := by
  induction s with
  | nil => exact ⟨x, by simp [ins, find]⟩
  | node l a key val r ihl ihr =>
    simp only [ins]
    split_ifs with h1 h2
    · obtain ⟨b, hb⟩ := ihl
      refine ⟨b, ?_⟩
      simp only [find, hb]
      rw [if_neg (by omega), if_pos (by omega)]
    · obtain ⟨b, hb⟩ := ihr
      refine ⟨b, ?_⟩
      simp only [find, hb]
      rw [if_neg (by omega), if_neg (by omega)]
    · exact ⟨a, by simp only [find]; rw [if_pos (by omega)]⟩

theorem find_eq_none {k : Int} {s : Shape} (hk : k ∉ s.keys) : s.find k = none := by
  induction s with
  | nil => rfl
  | node l a key val r ihl ihr =>
    simp only [keys_node, List.mem_append, List.mem_cons, not_or] at hk
    obtain ⟨h1, h2, h3⟩ := hk
    simp only [find]
    rw [if_neg (Ne.symm h2)]
    split_ifs
    · exact ihl h1
    · exact ihr h3

theorem find_mem {k : Int} {s : Shape} {a : Nat} {v : Int} (hf : s.find k = some (a, v)) :
    (a, k, v) ∈ s.nodes := by
  induction s with
  | nil => cases hf
  | node l b key val r ihl ihr =>
    simp only [find] at hf
    simp only [nodes_node, List.mem_append, List.mem_cons]
    split_ifs at hf with h1 h2
    · cases hf; subst h1; exact Or.inr (Or.inl rfl)
    · exact Or.inl (ihl hf)
    · exact Or.inr (Or.inr (ihr hf))

theorem mem_keys_of_mem_nodes {s : Shape} {a : Nat} {k v : Int} (h : (a, k, v) ∈ s.nodes) :
    k ∈ s.keys := List.mem_map.2 ⟨_, h, rfl⟩

theorem mem_addrs_of_mem_nodes {s : Shape} {a : Nat} {k v : Int} (h : (a, k, v) ∈ s.nodes) :
    a ∈ s.addrs := List.mem_map.2 ⟨_, h, rfl⟩

theorem find_of_mem {s : Shape} (hs : s.Ordered) {a : Nat} {k v : Int}
    (hm : (a, k, v) ∈ s.nodes) : s.find k = some (a, v) := by
  induction s with
  | nil => cases hm
  | node l b key val r ihl ihr =>
    obtain ⟨hl, hr, ol, or_⟩ := hs
    simp only [nodes_node, List.mem_append, List.mem_cons] at hm
    simp only [find]
    rcases hm with hm | hm | hm
    · have := hl k (mem_keys_of_mem_nodes hm)
      rw [if_neg (by omega), if_pos (by omega)]
      exact ihl ol hm
    · cases hm; simp
    · have := hr k (mem_keys_of_mem_nodes hm)
      rw [if_neg (by omega), if_neg (by omega)]
      exact ihr or_ hm

theorem nodes_ins_of_find {x : Nat} {k v : Int} {s : Shape} {a : Nat} {w : Int}
    (hf : s.find k = some (a, w)) : (ins x k v s).addrs = s.addrs := by
  induction s with
  | nil => cases hf
  | node l b key val r ihl ihr =>
    simp only [find] at hf
    simp only [ins]
    split_ifs at hf with h1 h2
    · subst h1; simp
    · rw [if_pos (by omega)]; simp [ihl hf]
    · have : k > key := by omega
      rw [if_neg (by omega), if_pos this]; simp [ihr hf]

theorem nodes_ins_perm {x : Nat} {k v : Int} {s : Shape} (hf : s.find k = none) :
    (ins x k v s).nodes.Perm ((x, k, v) :: s.nodes) := by
  induction s with
  | nil => simp [ins]
  | node l b key val r ihl ihr =>
    simp only [find] at hf
    simp only [ins]
    split_ifs at hf with h1 h2
    · rw [if_pos (by omega)]
      simp only [nodes_node]
      exact ((ihl hf).append_right _).trans (by simp)
    · have : k > key := by omega
      rw [if_neg (by omega), if_pos this]
      simp only [nodes_node]
      refine (List.Perm.append_left _ ((ihr hf).cons _)).trans ?_
      refine (List.Perm.append_left _ (List.Perm.swap _ _ _)).trans ?_
      exact List.perm_middle

theorem keys_sorted {s : Shape} (hs : s.Ordered) : s.keys.Pairwise (· < ·) := by
  induction s with
  | nil => simp
  | node l b key val r ihl ihr =>
    obtain ⟨hl, hr, ol, or_⟩ := hs
    simp only [keys_node]
    rw [List.pairwise_append]
    refine ⟨ihl ol, List.pairwise_cons.2 ⟨hr, ihr or_⟩, ?_⟩
    intro y hy z hz
    rcases List.mem_cons.1 hz with rfl | hz
    · exact hl y hy
    · exact lt_trans (hl y hy) (hr z hz)

end Shape

/-! ## Representation lemmas -/

theorem SameShape.refl (h : Heap) : SameShape h h := ⟨rfl, fun _ => rfl⟩

theorem SameShape.trans {h1 h2 h3 : Heap} (a : SameShape h1 h2) (b : SameShape h2 h3) :
    SameShape h1 h3 := ⟨b.1.trans a.1, fun c => (b.2 c).trans (a.2 c)⟩

theorem sameShape_setBalance {h : Heap} {a : Nat} {nd : AVLNode} (e : deref h a = some nd)
    (b : Int) : SameShape h (store h a { nd with balance_ := b }) := by
  refine ⟨length_store _ _ _, fun c => ?_⟩
  rw [deref_store]
  split_ifs with hc
  · obtain ⟨rfl, _⟩ := hc
    rw [e]; rfl
  · rfl

theorem sameShape_deref {h h' : Heap} (hs : SameShape h h') {a : Nat} {nd : AVLNode}
    (e : deref h a = some nd) :
    ∃ nd', deref h' a = some nd' ∧ nd'.key = nd.key ∧ nd'.value = nd.value ∧
      nd'.parent_ = nd.parent_ ∧ nd'.left_ = nd.left_ ∧ nd'.right_ = nd.right_ := by
  have h2 := hs.2 a
  rw [e] at h2
  cases hd : deref h' a with
  | none => rw [hd] at h2; cases h2
  | some nd' =>
    rw [hd] at h2
    simp only [Option.map_some', Option.some.injEq, AVLNode.strip] at h2
    refine ⟨nd', rfl, ?_⟩
    cases nd; cases nd'
    simp only [AVLNode.mk.injEq] at h2
    simp_all

namespace Shape

theorem rep_frame {h h' : Heap} {par : Ptr} {s : Shape} (hr : Rep h par s)
    (hf : ∀ c ∈ s.addrs, deref h' c = deref h c) : Rep h' par s := by
  induction s generalizing par with
  | nil => trivial
  | node l a k v r ihl ihr =>
    obtain ⟨⟨b, hb⟩, hl, hr'⟩ := hr
    refine ⟨⟨b, ?_⟩, ihl hl fun c hc => hf c ?_, ihr hr' fun c hc => hf c ?_⟩
    · rw [hf a (by simp)]; exact hb
    · simp [hc]
    · simp [hc]

theorem rep_sameShape {h h' : Heap} (hs : SameShape h h') {par : Ptr} {s : Shape}
    (hr : Rep h par s) : Rep h' par s := by
  induction s generalizing par with
  | nil => trivial
  | node l a k v r ihl ihr =>
    obtain ⟨⟨b, hb⟩, hl, hr'⟩ := hr
    refine ⟨?_, ihl hl, ihr hr'⟩
    obtain ⟨nd', e, h1, h2, h3, h4, h5⟩ := sameShape_deref hs hb
    refine ⟨nd'.balance_, ?_⟩
    rw [e]
    cases nd'
    simp_all

theorem rep_nodes {h : Heap} {par : Ptr} {s : Shape} (hr : Rep h par s) {a : Nat} {k v : Int}
    (hm : (a, k, v) ∈ s.nodes) :
    ∃ nd, deref h a = some nd ∧ nd.key = k ∧ nd.value = v := by
  induction s generalizing par with
  | nil => cases hm
  | node l a' k' v' r ihl ihr =>
    obtain ⟨⟨b, hb⟩, hl, hr'⟩ := hr
    simp only [nodes_node, List.mem_append, List.mem_cons] at hm
    rcases hm with hm | hm | hm
    · exact ihl hl hm
    · cases hm; exact ⟨_, hb, rfl, rfl⟩
    · exact ihr hr' hm

theorem rep_addr_live {h : Heap} {par : Ptr} {s : Shape} (hr : Rep h par s) {a : Nat}
    (hm : a ∈ s.addrs) : ∃ nd, deref h a = some nd := by
  obtain ⟨⟨a', k, v⟩, hm', rfl⟩ := List.mem_map.1 hm
  obtain ⟨nd, e, _⟩ := rep_nodes hr hm'
  exact ⟨nd, e⟩

theorem rep_addr_lt {h : Heap} {par : Ptr} {s : Shape} (hr : Rep h par s) {a : Nat}
    (hm : a ∈ s.addrs) : a < h.length := by
  obtain ⟨nd, e⟩ := rep_addr_live hr hm
  exact deref_lt e

theorem rep_ptr_live {h : Heap} {par : Ptr} {s : Shape} (hr : Rep h par s) {a : Nat}
    (hp : s.ptr = some a) : ∃ nd, deref h a = some nd := by
  cases s with
  | nil => cases hp
  | node l a' k v r =>
    cases hp
    obtain ⟨⟨b, hb⟩, _, _⟩ := hr
    exact ⟨_, hb⟩

theorem nodes_length_le {h : Heap} {par : Ptr} {s : Shape} (hr : Rep h par s)
    (hnd : s.addrs.Nodup) : s.nodes.length ≤ h.length := by
  have hsub : s.addrs ⊆ List.range h.length := fun a ha =>
    List.mem_range.2 (rep_addr_lt hr ha)
  have := (List.subperm_of_subset hnd hsub).length_le
  simpa [length_addrs] using this

theorem height_le_heap {h : Heap} {par : Ptr} {s : Shape} (hr : Rep h par s)
    (hnd : s.addrs.Nodup) : s.height ≤ h.length :=
  le_trans (height_le_length s) (nodes_length_le hr hnd)

theorem getNode_rep {h : Heap} (k : Int) {par : Ptr} {s : Shape} (hr : Rep h par s)
    {fuel : Nat} (hf : s.height ≤ fuel) :
    BinarySearchTree.getNode h k fuel s.ptr = some ((s.find k).map (·.1)) := by
  induction s generalizing par fuel with
  | nil => cases fuel <;> rfl
  | node l a key v r ihl ihr =>
    obtain ⟨⟨b, hb⟩, hl, hr'⟩ := hr
    cases fuel with
    | zero => simp [height] at hf
    | succ fuel =>
      simp only [height] at hf
      show BinarySearchTree.getNode h k (fuel + 1) (some a) = _
      simp only [BinarySearchTree.getNode, hb, find]
      split_ifs
      · rfl
      · exact ihl hl (by omega)
      · exact ihr hr' (by omega)

theorem inorderFrom_rep {h : Heap} {par : Ptr} {s : Shape} (hr : Rep h par s)
    {fuel : Nat} (hf : s.height ≤ fuel) :
    inorderFrom h fuel s.ptr = some s.toList := by
  induction s generalizing par fuel with
  | nil => cases fuel <;> rfl
  | node l a key v r ihl ihr =>
    obtain ⟨⟨b, hb⟩, hl, hr'⟩ := hr
    cases fuel with
    | zero => simp [height] at hf
    | succ fuel =>
      simp only [height] at hf
      have e1 := ihl hl (show l.height ≤ fuel by omega)
      have e2 := ihr hr' (show r.height ≤ fuel by omega)
      show inorderFrom h (fuel + 1) (some a) = _
      simp only [inorderFrom, hb, e1, e2, toList_node]

end Shape

/-! ## The descent loop of `AVLTree::insert` on a represented tree -/

namespace Shape

theorem nodup_node {l r : Shape} {a : Nat} {k v : Int} (h : (node l a k v r).addrs.Nodup) :
    l.addrs.Nodup ∧ r.addrs.Nodup ∧ a ∉ l.addrs ∧ a ∉ r.addrs ∧ ∀ c ∈ l.addrs, c ∉ r.addrs := by
  rw [addrs_node, List.nodup_append] at h
  obtain ⟨h1, h2, h3⟩ := h
  rw [List.nodup_cons] at h2
  refine ⟨h1, h2.2, ?_, h2.1, ?_⟩
  · intro hm; exact h3 hm (List.mem_cons_self _ _)
  · intro c hc hc'; exact h3 hc (List.mem_cons_of_mem _ hc')

theorem ptr_eq_some {s : Shape} {a : Nat} (hp : s.ptr = some a) :
    ∃ l k v r, s = node l a k v r := by
  cases s with
  | nil => cases hp
  | node l a' k v r => cases hp; exact ⟨l, k, v, r, rfl⟩

theorem find_isSome_ptr {s : Shape} {k : Int} {n : Nat} {w : Int}
    (hf : s.find k = some (n, w)) : ∃ a, s.ptr = some a := by
  cases s with
  | nil => cases hf
  | node l a' k v r => exact ⟨a', rfl⟩

theorem insertLoop_found {h : Heap} (x : Nat) {k : Int} (v : Int) {s : Shape} {par : Ptr}
    (hr : Rep h par s) {a : Nat} (hp : s.ptr = some a) {fuel : Nat} (hf : s.height ≤ fuel)
    (hnd : s.addrs.Nodup) {n : Nat} {w : Int} (hfind : s.find k = some (n, w)) :
    AVLTree.insertLoop h k fuel a = some (.found n) ∧
      ∃ nd, deref h n = some nd ∧ nd.key = k ∧
        Rep (store h n { nd with value := v }) par (ins x k v s) := by
  induction s generalizing par fuel a with
  | nil => cases hp
  | node l a0 key val r ihl ihr =>
    cases hp
    obtain ⟨⟨b, hb⟩, hl, hr'⟩ := hr
    obtain ⟨ndl, ndr, nal, nar, ndis⟩ := nodup_node hnd
    cases fuel with
    | zero => simp [height] at hf
    | succ fuel =>
      simp only [height] at hf
      simp only [find] at hfind
      split_ifs at hfind with h1 h2
      · cases hfind
        subst h1
        refine ⟨?_, _, hb, rfl, ?_⟩
        · simp [AVLTree.insertLoop, hb]
        · simp only [ins, lt_irrefl, if_false, gt_iff_lt]
          refine ⟨⟨b, deref_store_self hb _⟩, rep_frame hl ?_, rep_frame hr' ?_⟩
          · intro c hc
            exact deref_store_ne _ _ (fun e => nal (e ▸ hc))
          · intro c hc
            exact deref_store_ne _ _ (fun e => nar (e ▸ hc))
      · obtain ⟨la, hla⟩ := find_isSome_ptr hfind
        obtain ⟨e1, nd, e2, e3, e4⟩ := ihl hl hla (show l.height ≤ fuel by omega) ndl hfind
        have hn : n ∈ l.addrs := mem_addrs_of_mem_nodes (find_mem hfind)
        have hna : n ≠ a0 := fun e => nal (e ▸ hn)
        refine ⟨?_, nd, e2, e3, ?_⟩
        · simp only [AVLTree.insertLoop, hb]
          rw [if_pos (by omega)]
          simp only [hla, e1]
        · simp only [ins]
          rw [if_pos (by omega)]
          refine ⟨⟨b, ?_⟩, e4, rep_frame hr' ?_⟩
          · rw [deref_store_ne _ _ hna, hb]
            obtain ⟨l1, k1, v1, r1, rfl⟩ := ptr_eq_some hla
            rw [ptr_ins]; rfl
          · intro c hc
            exact deref_store_ne _ _ (fun e => ndis n hn (e ▸ hc))
      · have hk : key < k := by omega
        obtain ⟨ra, hra⟩ := find_isSome_ptr hfind
        obtain ⟨e1, nd, e2, e3, e4⟩ := ihr hr' hra (show r.height ≤ fuel by omega) ndr hfind
        have hn : n ∈ r.addrs := mem_addrs_of_mem_nodes (find_mem hfind)
        have hna : n ≠ a0 := fun e => nar (e ▸ hn)
        refine ⟨?_, nd, e2, e3, ?_⟩
        · simp only [AVLTree.insertLoop, hb]
          rw [if_neg (by omega), if_pos (by omega)]
          simp only [hra, e1]
        · simp only [ins]
          rw [if_neg (by omega), if_pos (by omega)]
          refine ⟨⟨b, ?_⟩, rep_frame hl ?_, e4⟩
          · rw [deref_store_ne _ _ hna, hb]
            obtain ⟨l1, k1, v1, r1, rfl⟩ := ptr_eq_some hra
            rw [ptr_ins]; rfl
          · intro c hc
            exact deref_store_ne _ _ (fun e => ndis c hc (e ▸ hn))

/-- The node written by `p->setLeft(newNode)` / `p->setRight(newNode)`. -/
theorem attach_frame {h : Heap} {p c : Nat} (nd' : AVLNode) (x : Option AVLNode)
    (hne : p ≠ c) (hc : c < h.length) :
    deref (store (h ++ [x]) p nd') c = deref h c := by
  rw [deref_store_ne _ _ hne, deref_append_lt _ _ hc]

theorem insertLoop_attach {h : Heap} {k : Int} (v : Int) {s : Shape} {par : Ptr}
    (hr : Rep h par s) {a : Nat} (hp : s.ptr = some a) {fuel : Nat} (hf : s.height ≤ fuel)
    (hnd : s.addrs.Nodup) (hfind : s.find k = none) :
    ∃ p b nd, AVLTree.insertLoop h k fuel a = some (.attach p b) ∧ deref h p = some nd ∧
      p ∈ s.addrs ∧
      Rep (store (h ++ [some (AVLNode.new k v (some p))]) p
            (if b then { nd with left_ := some h.length }
             else { nd with right_ := some h.length })) par (ins h.length k v s) := by
  induction s generalizing par fuel a with
  | nil => cases hp
  | node l a0 key val r ihl ihr =>
    cases hp
    have hr0 := hr
    obtain ⟨⟨b, hb⟩, hl, hr'⟩ := hr
    obtain ⟨ndl, ndr, nal, nar, ndis⟩ := nodup_node hnd
    have halt : a0 < h.length := deref_lt hb
    cases fuel with
    | zero => simp [height] at hf
    | succ fuel =>
      simp only [height] at hf
      simp only [find] at hfind
      split_ifs at hfind with h1 h2
      · -- k < key
        have hk : k < key := by omega
        cases hlp : l.ptr with
        | none =>
          have hlnil : l = nil := by
            cases l with
            | nil => rfl
            | node _ _ _ _ _ => cases hlp
          subst hlnil
          refine ⟨a0, true, _, ?_, hb, by simp, ?_⟩
          · simp only [AVLTree.insertLoop, hb]
            rw [if_pos hk]
            simp [ptr]
          · simp only [ins, if_true]
            rw [if_pos hk]
            refine ⟨⟨b, ?_⟩, ⟨⟨0, ?_⟩, trivial, trivial⟩, rep_frame hr' ?_⟩
            · rw [deref_store_self ((deref_append_lt _ _ halt).trans hb)]
              rfl
            · rw [deref_store_ne _ _ (by omega), deref_append_length]; rfl
            · intro c hc
              exact attach_frame _ _ (fun e => nar (e ▸ hc)) (rep_addr_lt hr' hc)
        | some la =>
          obtain ⟨p, bb, nd, e1, e2, e3, e4⟩ :=
            ihl hl hlp (show l.height ≤ fuel by omega) ndl hfind
          have hpa : p ≠ a0 := fun e => nal (e ▸ e3)
          refine ⟨p, bb, nd, ?_, e2, by simp [e3], ?_⟩
          · simp only [AVLTree.insertLoop, hb]
            rw [if_pos hk]
            simp only [hlp, e1]
          · simp only [ins]
            rw [if_pos hk]
            refine ⟨⟨b, ?_⟩, e4, rep_frame hr' ?_⟩
            · rw [attach_frame _ _ hpa halt, hb]
              obtain ⟨l1, k1, v1, r1, rfl⟩ := ptr_eq_some hlp
              rw [ptr_ins]; rfl
            · intro c hc
              exact attach_frame _ _ (fun e => ndis p e3 (e ▸ hc)) (rep_addr_lt hr' hc)
      · -- key < k
        have hk : key < k := by omega
        cases hrp : r.ptr with
        | none =>
          have hrnil : r = nil := by
            cases r with
            | nil => rfl
            | node _ _ _ _ _ => cases hrp
          subst hrnil
          refine ⟨a0, false, _, ?_, hb, by simp, ?_⟩
          · simp only [AVLTree.insertLoop, hb]
            rw [if_neg (not_lt.2 hk.le), if_pos (show k > key from hk)]
            simp [ptr]
          · simp only [ins, Bool.false_eq_true, if_false]
            rw [if_neg (not_lt.2 hk.le), if_pos (show k > key from hk)]
            refine ⟨⟨b, ?_⟩, rep_frame hl ?_, ⟨⟨0, ?_⟩, trivial, trivial⟩⟩
            · rw [deref_store_self ((deref_append_lt _ _ halt).trans hb)]
              rfl
            · intro c hc
              exact attach_frame _ _ (fun e => nal (e ▸ hc)) (rep_addr_lt hl hc)
            · rw [deref_store_ne _ _ (by omega), deref_append_length]; rfl
        | some ra =>
          obtain ⟨p, bb, nd, e1, e2, e3, e4⟩ :=
            ihr hr' hrp (show r.height ≤ fuel by omega) ndr hfind
          have hpa : p ≠ a0 := fun e => nar (e ▸ e3)
          refine ⟨p, bb, nd, ?_, e2, by simp [e3], ?_⟩
          · simp only [AVLTree.insertLoop, hb]
            rw [if_neg (not_lt.2 hk.le), if_pos (show k > key from hk)]
            simp only [hrp, e1]
          · simp only [ins]
            rw [if_neg (not_lt.2 hk.le), if_pos (show k > key from hk)]
            refine ⟨⟨b, ?_⟩, rep_frame hl ?_, e4⟩
            · rw [attach_frame _ _ hpa halt, hb]
              obtain ⟨l1, k1, v1, r1, rfl⟩ := ptr_eq_some hrp
              rw [ptr_ins]; rfl
            · intro c hc
              exact attach_frame _ _ (fun e => ndis c hc (e ▸ e3)) (rep_addr_lt hl hc)

end Shape

/-! ## The upward walks of `updateBalances` -/

theorem UpOK.sameShape {h h' : Heap} (hs : SameShape h h') {p : Ptr} {n : Nat}
    (hu : UpOK h p n) : UpOK h' p n := by
  induction hu with
  | null => exact UpOK.null
  | step e hl hr _ ih =>
    obtain ⟨nd', e', _, _, hp, hle, hri⟩ := sameShape_deref hs e
    refine UpOK.step e' ?_ ?_ (hp ▸ ih)
    · intro l hl'
      obtain ⟨c, hc⟩ := hl l (hle ▸ hl')
      obtain ⟨c', hc', _⟩ := sameShape_deref hs hc
      exact ⟨c', hc'⟩
    · intro r hr'
      obtain ⟨c, hc⟩ := hr r (hri ▸ hr')
      obtain ⟨c', hc', _⟩ := sameShape_deref hs hc
      exact ⟨c', hc'⟩

theorem updateBalances_ok {fuel : Nat} {h : Heap} {p : Ptr} {n : Nat} (hu : UpOK h p n)
    (hf : n ≤ fuel) : ∃ h', AVLTree.updateBalances fuel h p = some h' ∧ SameShape h h' := by
  induction fuel generalizing h p n with
  | zero =>
    cases hu with
    | null => exact ⟨h, rfl, SameShape.refl h⟩
    | step _ _ _ _ => omega
  | succ fuel ih =>
    cases hu with
    | null => exact ⟨h, rfl, SameShape.refl h⟩
    | @step a nd m e hl hr hup =>
      have hlb : ∃ lh, (match nd.left_ with
          | none => some (0 : Int)
          | some l => (deref h l).map (·.balance_)) = some lh := by
        cases hnl : nd.left_ with
        | none => exact ⟨0, rfl⟩
        | some l =>
          obtain ⟨c, hc⟩ := hl l hnl
          exact ⟨c.balance_, by simp [hc]⟩
      have hrb : ∃ rh, (match nd.right_ with
          | none => some (0 : Int)
          | some r => (deref h r).map (·.balance_)) = some rh := by
        cases hnr : nd.right_ with
        | none => exact ⟨0, rfl⟩
        | some r =>
          obtain ⟨c, hc⟩ := hr r hnr
          exact ⟨c.balance_, by simp [hc]⟩
      obtain ⟨lh, hlh⟩ := hlb
      obtain ⟨rh, hrh⟩ := hrb
      have hs1 := sameShape_setBalance e (wrap8 (max lh rh + 1))
      obtain ⟨h', e', hs2⟩ := ih (UpOK.sameShape hs1 hup) (show m ≤ fuel by omega)
      refine ⟨h', ?_, hs1.trans hs2⟩
      simp only [AVLTree.updateBalances, e, hlh, hrh]
      exact e'

namespace Shape

theorem upOK_of_rep {h : Heap} {par : Ptr} {s : Shape} (hr : Rep h par s) {d : Nat}
    (hu : UpOK h par d) {a : Nat} (ha : a ∈ s.addrs) :
    ∃ n, n ≤ d + s.height ∧ UpOK h (some a) n := by
  induction s generalizing par d with
  | nil => simp at ha
  | node l a0 k v r ihl ihr =>
    obtain ⟨⟨b, hb⟩, hl, hr'⟩ := hr
    have hstep : UpOK h (some a0) (d + 1) := by
      refine UpOK.step hb ?_ ?_ hu
      · intro c hc; exact rep_ptr_live hl hc
      · intro c hc; exact rep_ptr_live hr' hc
    simp only [addrs_node, List.mem_append, List.mem_cons] at ha
    simp only [height]
    rcases ha with ha | rfl | ha
    · obtain ⟨n, hn, hun⟩ := ihl hl hstep ha
      exact ⟨n, by omega, hun⟩
    · exact ⟨d + 1, by omega, hstep⟩
    · obtain ⟨n, hn, hun⟩ := ihr hr' hstep ha
      exact ⟨n, by omega, hun⟩

end Shape

/-! ## `AVLTree::insert` on a well-formed tree -/

namespace Shape

theorem addrs_ins_perm {x : Nat} {k v : Int} {s : Shape} (hf : s.find k = none) :
    (ins x k v s).addrs.Perm (x :: s.addrs) := by
  have := (nodes_ins_perm (x := x) (v := v) hf).map (·.1)
  simpa [addrs] using this

theorem toList_ins_perm {x : Nat} {k v : Int} {s : Shape} (hf : s.find k = none) :
    (ins x k v s).toList.Perm ((k, v) :: s.toList) := by
  have := (nodes_ins_perm (x := x) (v := v) hf).map (·.2)
  simpa [toList] using this

theorem ptr_eq_none {s : Shape} (hp : s.ptr = none) : s = nil := by
  cases s with
  | nil => rfl
  | node _ _ _ _ _ => cases hp

end Shape

theorem rep_upOK {h : Heap} {s : Shape} (hr : Shape.Rep h none s) (hnd : s.addrs.Nodup)
    {a : Nat} (ha : a ∈ s.addrs) : ∃ n, n ≤ h.length + 1 ∧ UpOK h (some a) n := by
  obtain ⟨n, hn, hu⟩ := Shape.upOK_of_rep hr UpOK.null ha
  have := Shape.height_le_heap hr hnd
  exact ⟨n, by omega, hu⟩

theorem insert_empty (t : TreeState) (hroot : t.root_ = none) (k v : Int) :
    AVLTree.insert t (k, v) =
      some { root_ := some t.heap.length, heap := t.heap ++ [some (AVLNode.new k v none)] } := by
  simp [AVLTree.insert, hroot, alloc]

theorem insert_found {t : TreeState} {s : Shape} (hm : Models t s) {k : Int} (v : Int)
    {n : Nat} {w : Int} (hfind : s.find k = some (n, w)) (x : Nat) :
    ∃ nd, deref t.heap n = some nd ∧ nd.key = k ∧
      AVLTree.insert t (k, v) =
        some { root_ := t.root_, heap := store t.heap n { nd with value := v } } ∧
      Models { root_ := t.root_, heap := store t.heap n { nd with value := v } }
        (s.ins x k v) := by
  obtain ⟨hroot, hrep, hnd⟩ := hm
  obtain ⟨a, hp⟩ := Shape.find_isSome_ptr hfind
  have hfuel : s.height ≤ t.heap.length + 1 :=
    le_trans (Shape.height_le_heap hrep hnd) (Nat.le_succ _)
  obtain ⟨e1, nd, e2, e3, e4⟩ := Shape.insertLoop_found x v hrep hp hfuel hnd hfind
  refine ⟨nd, e2, e3, ?_, ?_, e4, ?_⟩
  · rw [hp] at hroot
    simp [AVLTree.insert, hroot, e1, setValue, e2]
  · obtain ⟨l1, k1, v1, r1, rfl⟩ := Shape.ptr_eq_some hp
    rw [Shape.ptr_ins]; exact hroot
  · rw [Shape.nodes_ins_of_find hfind]; exact hnd

theorem insert_attach {t : TreeState} {s : Shape} (hm : Models t s) {k : Int} (v : Int)
    (hfind : s.find k = none) {a : Nat} (hp : s.ptr = some a) :
    ∃ h', AVLTree.insert t (k, v) = some { root_ := t.root_, heap := h' } ∧
      h'.length = t.heap.length + 1 ∧
      Models { root_ := t.root_, heap := h' } (s.ins t.heap.length k v) := by
  obtain ⟨hroot, hrep, hnd⟩ := hm
  have hfuel : s.height ≤ t.heap.length + 1 :=
    le_trans (Shape.height_le_heap hrep hnd) (Nat.le_succ _)
  obtain ⟨p, b, nd, e1, e2, e3, e4⟩ := Shape.insertLoop_attach v hrep hp hfuel hnd hfind
  -- the store after `new` and the child link
  set x := t.heap.length with hx
  set h1 : Heap := t.heap ++ [some (AVLNode.new k v (some p))] with hh1
  set h2 : Heap := store h1 p (if b then { nd with left_ := some x }
    else { nd with right_ := some x }) with hh2
  set s' := s.ins x k v with hs'
  have hplt : p < x := deref_lt e2
  have hd1 : deref h1 p = some nd := by rw [hh1, deref_append_lt _ _ hplt]; exact e2
  have hlen2 : h2.length = x + 1 := by simp [hh2, hh1, length_store, hx]
  have hperm := Shape.addrs_ins_perm (x := x) (v := v) hfind
  have hxs : x ∉ s.addrs := fun hmem => lt_irrefl _ (Shape.rep_addr_lt hrep hmem)
  have hnd' : s'.addrs.Nodup := hperm.nodup_iff.2 (List.nodup_cons.2 ⟨hxs, hnd⟩)
  have hroot' : t.root_ = s'.ptr := by
    obtain ⟨l1, k1, v1, r1, rfl⟩ := Shape.ptr_eq_some hp
    rw [hs', Shape.ptr_ins]; exact hroot
  have hps' : p ∈ s'.addrs := hperm.mem_iff.2 (List.mem_cons_of_mem _ e3)
  have hxs' : x ∈ s'.addrs := hperm.mem_iff.2 (List.mem_cons_self _ _)
  have has' : a ∈ s'.addrs := by
    obtain ⟨l1, k1, v1, r1, rfl⟩ := Shape.ptr_eq_some hp
    exact hperm.mem_iff.2 (List.mem_cons_of_mem _ (by simp))
  -- `newNode->getParent()`
  have hd2x : deref h2 x = some (AVLNode.new k v (some p)) := by
    rw [hh2, deref_store_ne _ _ (by omega), hh1, hx, deref_append_length]
  -- first walk
  obtain ⟨n1, hn1, hu1⟩ := rep_upOK e4 hnd' hps'
  obtain ⟨h3, e5, hs3⟩ := updateBalances_ok hu1 hn1
  have hr3 := Shape.rep_sameShape hs3 e4
  -- case 1 of rebalanceTree
  obtain ⟨xnd, hx3⟩ := Shape.rep_addr_live hr3 hxs'
  obtain ⟨rnd, ha3⟩ := Shape.rep_addr_live hr3 has'
  have hs4 := sameShape_setBalance ha3 (if xnd.key < rnd.key then -1 else 1)
  have hr4 := Shape.rep_sameShape hs4 hr3
  obtain ⟨n2, hn2, hu2⟩ := rep_upOK hr4 hnd' hxs'
  obtain ⟨h5, e6, hs5⟩ := updateBalances_ok hu2 hn2
  have hr5 := Shape.rep_sameShape hs5 hr4
  refine ⟨h5, ?_, ?_, hroot', hr5, hnd'⟩
  · have hset : (if (!b) = true then setRight h1 p (some x) else setLeft h1 p (some x))
        = some h2 := by
      cases b <;> simp [setRight, setLeft, hd1, hh2]
    rw [hp] at hroot
    simp only [AVLTree.insert, hroot, e1, alloc]
    rw [← hx, ← hh1, hset]
    simp only [Option.some_bind, getParent, hd2x, Option.map_some', AVLNode.new]
    rw [e5]
    simp only [Option.some_bind, AVLTree.rebalanceTree, derefPtr, hx3, ha3, setBalance,
      Option.map_some']
    rw [e6]
    rfl
  · rw [hs5.1, hs4.1, hs3.1, hlen2]

/-! ## Sequences of `insert` calls -/

theorem reach_empty : Reach AVLTree.empty Shape.nil :=
  ⟨⟨rfl, trivial, List.nodup_nil⟩, trivial, fun a ha => by simp [AVLTree.empty] at ha⟩

theorem insert_reach {t : TreeState} {s : Shape} (hR : Reach t s) (k v : Int) :
    ∃ t', AVLTree.insert t (k, v) = some t' ∧ Reach t' (s.ins t.heap.length k v) ∧
      t.heap.length ≤ t'.heap.length := by
  obtain ⟨hm, ho, hc⟩ := hR
  have ho' := Shape.ordered_ins t.heap.length k v s ho
  cases hp : s.ptr with
  | none =>
    have hs : s = Shape.nil := Shape.ptr_eq_none hp
    subst hs
    have hroot : t.root_ = none := hm.1
    have hlen : t.heap.length = 0 := by
      by_contra hne
      have := hc 0 (by omega)
      simp at this
    refine ⟨_, insert_empty t hroot k v, ⟨⟨rfl, ?_, ?_⟩, ho', ?_⟩, by simp⟩
    · refine ⟨⟨0, ?_⟩, trivial, trivial⟩
      show deref (t.heap ++ _) t.heap.length = _
      rw [deref_append_length]; rfl
    · simp [Shape.ins]
    · intro a ha
      simp [hlen] at ha
      simp [Shape.ins, hlen, ha]
  | some a =>
    cases hfind : s.find k with
    | some nw =>
      obtain ⟨n, w⟩ := nw
      obtain ⟨nd, e1, e2, e3, e4⟩ := insert_found hm v hfind t.heap.length
      refine ⟨_, e3, ⟨e4, ho', ?_⟩, by simp [length_store]⟩
      intro c hc'
      rw [Shape.nodes_ins_of_find hfind]
      exact hc c (by simpa [length_store] using hc')
    | none =>
      obtain ⟨h', e1, e2, e3⟩ := insert_attach hm v hfind hp
      refine ⟨_, e1, ⟨e3, ho', ?_⟩, by simp [e2]⟩
      intro c hc'
      have hperm := Shape.addrs_ins_perm (x := t.heap.length) (v := v) hfind
      rw [hperm.mem_iff]
      simp only [e2] at hc'
      by_cases hcl : c < t.heap.length
      · exact List.mem_cons_of_mem _ (hc c hcl)
      · have : c = t.heap.length := by omega
        subst this; exact List.mem_cons_self _ _

theorem insertAll_reach {t : TreeState} {s : Shape} (hR : Reach t s) (l : List (Int × Int)) :
    ∃ t' s', AVLTree.insertAll t l = some t' ∧ Reach t' s' ∧
      (∀ y, y ∈ s'.keys ↔ y ∈ l.map Prod.fst ∨ y ∈ s.keys) ∧
      ((l.map Prod.fst).Nodup → (∀ p ∈ l, p.1 ∉ s.keys) → s'.toList.Perm (l ++ s.toList)) := by
  induction l generalizing t s with
  | nil => exact ⟨t, s, rfl, hR, by simp, fun _ _ => List.Perm.refl _⟩
  | cons kv rest ih =>
    obtain ⟨k, v⟩ := kv
    obtain ⟨t1, e1, hR1, _⟩ := insert_reach hR k v
    obtain ⟨t', s', e2, hR', hk, hperm⟩ := ih hR1
    refine ⟨t', s', ?_, hR', ?_, ?_⟩
    · simp only [AVLTree.insertAll, e1, Option.some_bind, e2]
    · intro y
      rw [hk y, Shape.mem_keys_ins]
      simp only [List.map_cons, List.mem_cons]
      tauto
    · intro hnd hfresh
      simp only [List.map_cons, List.nodup_cons] at hnd
      have hks : k ∉ s.keys := hfresh (k, v) (List.mem_cons_self _ _)
      have h1 : s'.toList.Perm (rest ++ (Shape.ins t.heap.length k v s).toList) := by
        refine hperm hnd.2 ?_
        intro p hp hmem
        rcases (Shape.mem_keys_ins _ _ _ _ _).1 hmem with h | h
        · exact hnd.1 (h ▸ List.mem_map_of_mem Prod.fst hp)
        · exact hfresh p (List.mem_cons_of_mem _ hp) h
      refine h1.trans ?_
      refine (List.Perm.append_left _ (Shape.toList_ins_perm (Shape.find_eq_none hks))).trans ?_
      simp

theorem reach_of_insertAll {l : List (Int × Int)} {t : TreeState}
    (h : AVLTree.insertAll AVLTree.empty l = some t) :
    ∃ s, Reach t s ∧ (∀ y, y ∈ s.keys ↔ y ∈ l.map Prod.fst) ∧
      ((l.map Prod.fst).Nodup → s.toList.Perm l) := by
  obtain ⟨t', s', e, hR, hk, hp⟩ := insertAll_reach reach_empty l
  rw [h] at e
  cases e
  refine ⟨s', hR, fun y => by simpa using hk y, fun hnd => ?_⟩
  simpa using hp hnd (by simp)

theorem internalFind_models {t : TreeState} {s : Shape} (hm : Models t s) (k : Int) :
    BinarySearchTree.internalFind t k = some ((s.find k).map (·.1)) := by
  unfold BinarySearchTree.internalFind
  rw [hm.1]
  exact Shape.getNode_rep k hm.2.1
    (le_trans (Shape.height_le_heap hm.2.1 hm.2.2) (Nat.le_succ _))

theorem inorder_models {t : TreeState} {s : Shape} (hm : Models t s) :
    inorder t = some s.toList := by
  unfold inorder
  rw [hm.1]
  exact Shape.inorderFrom_rep hm.2.1
    (le_trans (Shape.height_le_heap hm.2.1 hm.2.2) (Nat.le_succ _))

theorem rep_children_parent {h : Heap} {par : Ptr} {s : Shape} (hr : Shape.Rep h par s)
    {n : Nat} (hn : n ∈ s.addrs) {nd : AVLNode} (e : deref h n = some nd) {m : Nat}
    (hm : nd.left_ = some m ∨ nd.right_ = some m) :
    ∃ md, deref h m = some md ∧ md.parent_ = some n := by
  induction s generalizing par with
  | nil => simp at hn
  | node l a k v r ihl ihr =>
    obtain ⟨⟨b, hb⟩, hl, hr'⟩ := hr
    simp only [Shape.addrs_node, List.mem_append, List.mem_cons] at hn
    rcases hn with hn | rfl | hn
    · exact ihl hl hn
    · rw [hb] at e
      cases e
      rcases hm with hm | hm
      · obtain ⟨l1, k1, v1, r1, rfl⟩ := Shape.ptr_eq_some hm
        obtain ⟨⟨b1, hb1⟩, _, _⟩ := hl
        exact ⟨_, hb1, rfl⟩
      · obtain ⟨l1, k1, v1, r1, rfl⟩ := Shape.ptr_eq_some hm
        obtain ⟨⟨b1, hb1⟩, _, _⟩ := hr'
        exact ⟨_, hb1, rfl⟩
    · exact ihr hr' hn

theorem reach_parentSymmetric {t : TreeState} {s : Shape} (hR : Reach t s) :
    ParentSymmetric t := by
  obtain ⟨⟨hroot, hrep, hnd⟩, _, hc⟩ := hR
  refine ⟨fun n nd m e hm => ?_, fun r hr => ?_⟩
  · exact rep_children_parent hrep (hc n (deref_lt e)) e hm
  · rw [hroot] at hr
    obtain ⟨l1, k1, v1, r1, rfl⟩ := Shape.ptr_eq_some hr
    obtain ⟨⟨b1, hb1⟩, _, _⟩ := hrep
    exact ⟨_, hb1, rfl⟩

/-! ## Claims -/

/-- C1 (fails on the code): `AVLTree::insert` never rotates, so inserting 1, 2, 3 in increasing
order leaves a right spine that `isBalanced()` rejects, and inserting 1..7 in increasing order
leaves a tree of height 7 whose root holds key 1 (not a complete tree of height 3 rooted
at 4). -/
theorem C1_insert_leaves_tree_unbalanced :
    (AVLTree.insertAll AVLTree.empty [(1, 1), (2, 2), (3, 3)]).bind BinarySearchTree.isBalanced
      = some false ∧
    ((AVLTree.insertAll AVLTree.empty
        [(1, 1), (2, 2), (3, 3), (4, 4), (5, 5), (6, 6), (7, 7)]).bind fun t =>
      (derefPtr t.heap t.root_).bind fun nd =>
        (BinarySearchTree.getHeight t.heap (t.heap.length + 1) t.root_).map fun hgt =>
          (nd.key, hgt)) = some (1, 7) := by
  constructor <;> decide

/-- C2: every finite sequence of `insert` calls from the empty tree returns, and the resulting
state is a well-formed tree whose shape satisfies the BST order invariant (at every node, all
keys of the left subtree are smaller and all keys of the right subtree are greater); its
in-order key sequence is strictly increasing and has no duplicate. -/
theorem C2_insert_preserves_order (l : List (Int × Int)) :
    ∃ t s, AVLTree.insertAll AVLTree.empty l = some t ∧ Models t s ∧ s.Ordered ∧
      inorder t = some s.toList ∧
      (s.toList.map Prod.fst).Pairwise (· < ·) ∧ (s.toList.map Prod.fst).Nodup := by
  obtain ⟨t, s, e, hR, _, _⟩ := insertAll_reach reach_empty l
  have hsorted := Shape.keys_sorted hR.ordered
  rw [Shape.keys_eq_toList] at hsorted
  refine ⟨t, s, e, hR.models, hR.ordered, inorder_models hR.models, hsorted, ?_⟩
  exact hsorted.imp (fun h => ne_of_lt h)

/-- C3: every finite sequence of `insert` calls from the empty tree returns, and in the
resulting state every child link is mirrored by the child's parent pointer and the root has a
null parent pointer. -/
theorem C3_insert_preserves_parent_symmetry (l : List (Int × Int)) :
    ∃ t, AVLTree.insertAll AVLTree.empty l = some t ∧ ParentSymmetric t := by
  obtain ⟨t, s, e, hR, _, _⟩ := insertAll_reach reach_empty l
  exact ⟨t, e, reach_parentSymmetric hR⟩

/-- C4: on a tree built from empty by inserts, `insert((k, v))` returns; afterwards the lookup
of `k` finds a node holding key `k` and value `v`, and for every other key the lookup returns
the same node (or absent) as before, with the same key and value stored in it. -/
theorem C4_insert_then_lookup (l : List (Int × Int)) (t : TreeState) (k v : Int)
    (h : AVLTree.insertAll AVLTree.empty l = some t) :
    ∃ t', AVLTree.insert t (k, v) = some t' ∧
      (∃ a nd, BinarySearchTree.internalFind t' k = some (some a) ∧
        deref t'.heap a = some nd ∧ nd.key = k ∧ nd.value = v) ∧
      ∀ k', k' ≠ k →
        BinarySearchTree.internalFind t' k' = BinarySearchTree.internalFind t k' ∧
        ∀ a, BinarySearchTree.internalFind t k' = some (some a) →
          ∃ nd nd', deref t.heap a = some nd ∧ deref t'.heap a = some nd' ∧
            nd'.key = nd.key ∧ nd'.value = nd.value := by
  obtain ⟨s, hR, _, _⟩ := reach_of_insertAll h
  obtain ⟨t', e, hR', _⟩ := insert_reach hR k v
  refine ⟨t', e, ?_, ?_⟩
  · obtain ⟨a, ha⟩ := Shape.find_ins_self t.heap.length k v s
    obtain ⟨nd, e1, e2, e3⟩ := Shape.rep_nodes hR'.models.2.1 (Shape.find_mem ha)
    refine ⟨a, nd, ?_, e1, e2, e3⟩
    rw [internalFind_models hR'.models, ha]; rfl
  · intro k' hne
    have hfe := Shape.find_ins_ne t.heap.length k v s k' hne
    refine ⟨?_, ?_⟩
    · rw [internalFind_models hR'.models, internalFind_models hR.models, hfe]
    · intro a ha
      rw [internalFind_models hR.models] at ha
      cases hf : s.find k' with
      | none => rw [hf] at ha; cases ha
      | some aw =>
        obtain ⟨a', w⟩ := aw
        rw [hf] at ha
        cases ha
        obtain ⟨nd, e1, e2, e3⟩ := Shape.rep_nodes hR.models.2.1 (Shape.find_mem hf)
        rw [← hfe] at hf
        obtain ⟨nd', e1', e2', e3'⟩ := Shape.rep_nodes hR'.models.2.1 (Shape.find_mem hf)
        exact ⟨nd, nd', e1, e1', by rw [e2, e2'], by rw [e3, e3']⟩

/-- Witness of C4: inserting `(2, 7)` into the tree built by inserting keys 2, 1, 3. -/
theorem C4_insert_then_lookup_witness :
    ∃ t', AVLTree.insert exampleTree (2, 7) = some t' ∧
      (∃ a nd, BinarySearchTree.internalFind t' 2 = some (some a) ∧
        deref t'.heap a = some nd ∧ nd.key = 2 ∧ nd.value = 7) ∧
      ∀ k', k' ≠ 2 →
        BinarySearchTree.internalFind t' k' = BinarySearchTree.internalFind exampleTree k' ∧
        ∀ a, BinarySearchTree.internalFind exampleTree k' = some (some a) →
          ∃ nd nd', deref exampleTree.heap a = some nd ∧ deref t'.heap a = some nd' ∧
            nd'.key = nd.key ∧ nd'.value = nd.value :=
  C4_insert_then_lookup [(2, 20), (1, 10), (3, 30)] exampleTree 2 7 (by decide)

/-- C5: for a list of pairs with pairwise distinct keys and any reordering of it, both insertion
sequences return and yield the same in-order sequence of (key, value) pairs, which is a
rearrangement of the inserted pairs in strictly increasing key order. -/
theorem C5_insert_order_independent (l1 l2 : List (Int × Int))
    (hnd : (l1.map Prod.fst).Nodup) (hperm : l1.Perm l2) :
    ∃ t1 t2 io, AVLTree.insertAll AVLTree.empty l1 = some t1 ∧
      AVLTree.insertAll AVLTree.empty l2 = some t2 ∧
      inorder t1 = some io ∧ inorder t2 = some io ∧
      io.Perm l1 ∧ io.Pairwise (fun p q => p.1 < q.1) := by
  obtain ⟨t1, s1, e1, hR1, _, hp1⟩ := insertAll_reach reach_empty l1
  obtain ⟨t2, s2, e2, hR2, _, hp2⟩ := insertAll_reach reach_empty l2
  have hnd2 : (l2.map Prod.fst).Nodup := (hperm.map Prod.fst).nodup_iff.1 hnd
  have q1 : s1.toList.Perm l1 := by simpa using hp1 hnd (by simp)
  have q2 : s2.toList.Perm l2 := by simpa using hp2 hnd2 (by simp)
  have srt : ∀ s : Shape, s.Ordered → s.toList.Pairwise (fun p q => p.1 < q.1) := by
    intro s hs
    have := Shape.keys_sorted hs
    rw [Shape.keys_eq_toList, List.pairwise_map] at this
    exact this
  haveI : IsAntisymm (Int × Int) (fun p q => p.1 < q.1) :=
    ⟨fun a b h1 h2 => absurd h1 (not_lt.2 h2.le)⟩
  have heq : s1.toList = s2.toList :=
    List.eq_of_perm_of_sorted (q1.trans (hperm.trans q2.symm)) (srt s1 hR1.ordered)
      (srt s2 hR2.ordered)
  refine ⟨t1, t2, s1.toList, e1, e2, inorder_models hR1.models, ?_, q1, srt s1 hR1.ordered⟩
  rw [heq]
  exact inorder_models hR2.models

/-- Witness of C5: the pairs with keys 2, 1, 3 inserted in two different orders. -/
theorem C5_insert_order_independent_witness :
    ∃ t1 t2 io, AVLTree.insertAll AVLTree.empty [(2, 20), (1, 10), (3, 30)] = some t1 ∧
      AVLTree.insertAll AVLTree.empty [(1, 10), (2, 20), (3, 30)] = some t2 ∧
      inorder t1 = some io ∧ inorder t2 = some io ∧
      io.Perm [(2, 20), (1, 10), (3, 30)] ∧ io.Pairwise (fun p q => p.1 < q.1) :=
  C5_insert_order_independent [(2, 20), (1, 10), (3, 30)] [(1, 10), (2, 20), (3, 30)]
    (by decide) (List.Perm.swap _ _ _)

/-- C6: on a tree built from empty by inserts that already holds key `k`, `insert((k, v))`
returns a state with the same root pointer and a store of the same size (no node allocated),
in which the node holding `k` differs from before only in its value, now `v`, and every other
cell of the store is unchanged. -/
theorem C6_insert_existing_key_overwrites (l : List (Int × Int)) (t : TreeState) (k v : Int)
    (h : AVLTree.insertAll AVLTree.empty l = some t) (hk : k ∈ l.map Prod.fst) :
    ∃ t' a nd, AVLTree.insert t (k, v) = some t' ∧ deref t.heap a = some nd ∧ nd.key = k ∧
      t'.root_ = t.root_ ∧ t'.heap.length = t.heap.length ∧
      deref t'.heap a = some { nd with value := v } ∧
      ∀ c, c ≠ a → deref t'.heap c = deref t.heap c := by
  obtain ⟨s, hR, hkeys, _⟩ := reach_of_insertAll h
  have hks : k ∈ s.keys := (hkeys k).2 hk
  obtain ⟨⟨a, k0, w⟩, hmem, hk0⟩ := List.mem_map.1 hks
  simp only at hk0
  subst hk0
  have hfind := Shape.find_of_mem hR.ordered hmem
  obtain ⟨nd, e1, e2, e3, _⟩ := insert_found hR.models v hfind 0
  refine ⟨_, a, nd, e3, e1, e2, rfl, length_store _ _ _, deref_store_self e1 _, ?_⟩
  intro c hc
  exact deref_store_ne _ _ (Ne.symm hc)

/-- Witness of C6: overwriting key 1 in the tree built by inserting keys 2, 1, 3. -/
theorem C6_insert_existing_key_overwrites_witness :
    ∃ t' a nd, AVLTree.insert exampleTree (1, 5) = some t' ∧
      deref exampleTree.heap a = some nd ∧ nd.key = 1 ∧
      t'.root_ = exampleTree.root_ ∧ t'.heap.length = exampleTree.heap.length ∧
      deref t'.heap a = some { nd with value := 5 } ∧
      ∀ c, c ≠ a → deref t'.heap c = deref exampleTree.heap c :=
  C6_insert_existing_key_overwrites [(2, 20), (1, 10), (3, 30)] exampleTree 1 5
    (by decide) (by decide)

/-- C7 (fails on the code): the body of `AVLTree::remove` is empty, so after inserting key 1
and calling `remove(1)` the state is unchanged, key 1 is still found at the root and the
in-order sequence still contains it. -/
theorem C7_remove_leaves_key_present :
    ((AVLTree.insert AVLTree.empty (1, 10)).bind fun t => AVLTree.remove t 1)
      = AVLTree.insert AVLTree.empty (1, 10) ∧
    ((AVLTree.insert AVLTree.empty (1, 10)).bind fun t =>
      (AVLTree.remove t 1).bind fun t' => BinarySearchTree.internalFind t' 1) = some (some 0) ∧
    ((AVLTree.insert AVLTree.empty (1, 10)).bind fun t =>
      (AVLTree.remove t 1).bind inorder) = some [(1, 10)] := by
  decide

/-- C8: on a well-formed tree that holds no node with key `k`, both
`BinarySearchTree::remove(k)` and `AVLTree::remove(k)` return and leave the whole state (root
pointer and every cell of the store) unchanged, hence also the in-order sequence. -/
theorem C8_remove_absent_key_is_noop (t : TreeState) (s : Shape) (k : Int)
    (hm : Models t s) (hk : k ∉ s.keys) :
    BinarySearchTree.remove t k = some t ∧ AVLTree.remove t k = some t ∧
      (BinarySearchTree.remove t k).bind inorder = inorder t := by
  have hf : BinarySearchTree.internalFind t k = some none := by
    rw [internalFind_models hm, Shape.find_eq_none hk]; rfl
  have hr : BinarySearchTree.remove t k = some t := by
    simp only [BinarySearchTree.remove, hf]
  exact ⟨hr, rfl, by rw [hr]; rfl⟩

/-- Witness of C8: removing the absent key 5 from the tree holding keys 2, 1, 3. -/
theorem C8_remove_absent_key_is_noop_witness :
    BinarySearchTree.remove exampleTree 5 = some exampleTree ∧
      AVLTree.remove exampleTree 5 = some exampleTree ∧
      (BinarySearchTree.remove exampleTree 5).bind inorder = inorder exampleTree :=
  C8_remove_absent_key_is_noop exampleTree exampleShape 5
    ⟨rfl, ⟨⟨2, rfl⟩, ⟨⟨1, rfl⟩, trivial, trivial⟩, ⟨⟨1, rfl⟩, trivial, trivial⟩⟩, by decide⟩
    (by decide)

/-- C9 (fails on the code): `AVLTree::remove` does nothing, so inserting key 1 into the empty
tree and removing it again leaves the in-order sequence `[(1, 10)]` instead of restoring the
empty sequence. -/
theorem C9_insert_remove_does_not_restore :
    inorder AVLTree.empty = some [] ∧
    ((AVLTree.insert AVLTree.empty (1, 10)).bind fun t =>
      (AVLTree.remove t 1).bind inorder) = some [(1, 10)] := by
  decide

/-- C10: on a well-formed tree satisfying the BST order invariant, `find(k)` returns, leaves the
state unchanged, and yields the node whose key is `k` when the tree has one and the end
iterator (null) when no node of the tree has key `k`; on a tree whose root is null it yields
the end iterator for every key. -/
theorem C10_find_correct (t : TreeState) (s : Shape) (k : Int)
    (hm : Models t s) (ho : s.Ordered) :
    (∀ a nd, a ∈ s.addrs → deref t.heap a = some nd → nd.key = k →
        BinarySearchTree.find t k = some (some a, t)) ∧
    ((∀ a nd, a ∈ s.addrs → deref t.heap a = some nd → nd.key ≠ k) →
        BinarySearchTree.find t k = some (none, t)) ∧
    (∀ (h : Heap) (k' : Int),
        BinarySearchTree.find { root_ := none, heap := h } k'
          = some (none, { root_ := none, heap := h })) := by
  refine ⟨?_, ?_, ?_⟩
  · intro a nd ha e hkey
    obtain ⟨⟨a', k', v'⟩, hmem, rfl⟩ := List.mem_map.1 ha
    obtain ⟨nd', e', hk', _⟩ := Shape.rep_nodes hm.2.1 hmem
    rw [e] at e'
    cases e'
    have hkk : k' = k := hk'.symm.trans hkey
    subst hkk
    simp only [BinarySearchTree.find, internalFind_models hm, Shape.find_of_mem ho hmem]
    rfl
  · intro hno
    have hk : k ∉ s.keys := by
      intro hmem
      obtain ⟨⟨a', k', v'⟩, hmem', hkk⟩ := List.mem_map.1 hmem
      simp only at hkk
      subst hkk
      obtain ⟨nd', e', hk', _⟩ := Shape.rep_nodes hm.2.1 hmem'
      exact hno a' nd' (Shape.mem_addrs_of_mem_nodes hmem') e' hk'
    simp only [BinarySearchTree.find, internalFind_models hm, Shape.find_eq_none hk]
    rfl
  · intro h k'
    rfl

/-- Witness of C10: lookups in the tree holding keys 2, 1, 3. -/
theorem C10_find_correct_witness :
    (∀ a nd, a ∈ exampleShape.addrs → deref exampleTree.heap a = some nd → nd.key = 3 →
        BinarySearchTree.find exampleTree 3 = some (some a, exampleTree)) ∧
    ((∀ a nd, a ∈ exampleShape.addrs → deref exampleTree.heap a = some nd → nd.key ≠ 3) →
        BinarySearchTree.find exampleTree 3 = some (none, exampleTree)) ∧
    (∀ (h : Heap) (k' : Int),
        BinarySearchTree.find { root_ := none, heap := h } k'
          = some (none, { root_ := none, heap := h })) :=
  C10_find_correct exampleTree exampleShape 3
    ⟨rfl, ⟨⟨2, rfl⟩, ⟨⟨1, rfl⟩, trivial, trivial⟩, ⟨⟨1, rfl⟩, trivial, trivial⟩⟩, by decide⟩
    (by decide)

/-! ## Child-pointer representation -/

namespace Shape

theorem rep_crep {h : Heap} {par : Ptr} {s : Shape} (hr : Rep h par s) : CRep h s := by
  induction s generalizing par with
  | nil => trivial
  | node l a k v r ihl ihr =>
    obtain ⟨⟨b, hb⟩, hl, hr'⟩ := hr
    exact ⟨⟨_, hb, rfl, rfl, rfl, rfl⟩, ihl hl, ihr hr'⟩

theorem crep_addr_lt {h : Heap} {s : Shape} (hr : CRep h s) {a : Nat} (hm : a ∈ s.addrs) :
    a < h.length := by
  induction s with
  | nil => simp at hm
  | node l a0 k v r ihl ihr =>
    obtain ⟨⟨nd, hb, _⟩, hl, hr'⟩ := hr
    simp only [addrs_node, List.mem_append, List.mem_cons] at hm
    rcases hm with hm | rfl | hm
    · exact ihl hl hm
    · exact deref_lt hb
    · exact ihr hr' hm

theorem crep_height_le {h : Heap} {s : Shape} (hr : CRep h s) (hnd : s.addrs.Nodup) :
    s.height ≤ h.length := by
  have hsub : s.addrs ⊆ List.range h.length := fun a ha =>
    List.mem_range.2 (crep_addr_lt hr ha)
  have := (List.subperm_of_subset hnd hsub).length_le
  have h2 := height_le_length s
  simp only [length_addrs, List.length_range] at this
  omega

theorem crep_frame {h h' : Heap} {s : Shape} (hr : CRep h s)
    (hf : ∀ c ∈ s.addrs, deref h' c = deref h c) : CRep h' s := by
  induction s with
  | nil => trivial
  | node l a k v r ihl ihr =>
    obtain ⟨⟨nd, hb, h1⟩, hl, hr'⟩ := hr
    refine ⟨⟨nd, ?_, h1⟩, ihl hl fun c hc => hf c ?_, ihr hr' fun c hc => hf c ?_⟩
    · rw [hf a (by simp)]; exact hb
    · simp [hc]
    · simp [hc]

theorem bst_getHeight_crep {h : Heap} {s : Shape} (hr : CRep h s) {fuel : Nat}
    (hf : s.height ≤ fuel) :
    BinarySearchTree.getHeight h fuel s.ptr = some (s.height : Int) := by
  induction s generalizing fuel with
  | nil => cases fuel <;> rfl
  | node l a key v r ihl ihr =>
    obtain ⟨⟨nd, hb, _, _, hnl, hnr⟩, hl, hr'⟩ := hr
    cases fuel with
    | zero => simp [height] at hf
    | succ fuel =>
      simp only [height] at hf
      have e1 := ihl hl (show l.height ≤ fuel by omega)
      have e2 := ihr hr' (show r.height ≤ fuel by omega)
      show BinarySearchTree.getHeight h (fuel + 1) (some a) = _
      simp only [BinarySearchTree.getHeight, hb, hnl, hnr, e1, e2, height]
      congr 1
      push_cast
      rfl

theorem avl_getHeight_crep {h : Heap} {s : Shape} (hr : CRep h s) {fuel : Nat}
    (hf : s.height ≤ fuel) :
    AVLTree.getHeight h fuel s.ptr = some (s.height : Int) := by
  induction s generalizing fuel with
  | nil => cases fuel <;> rfl
  | node l a key v r ihl ihr =>
    obtain ⟨⟨nd, hb, _, _, hnl, hnr⟩, hl, hr'⟩ := hr
    cases fuel with
    | zero => simp [height] at hf
    | succ fuel =>
      simp only [height] at hf
      have e1 := ihl hl (show l.height ≤ fuel by omega)
      have e2 := ihr hr' (show r.height ≤ fuel by omega)
      show AVLTree.getHeight h (fuel + 1) (some a) = _
      simp only [AVLTree.getHeight, hb, hnl, hnr, e1, e2, height]
      congr 1
      push_cast
      rfl

theorem inorderFrom_crep {h : Heap} {s : Shape} (hr : CRep h s) {fuel : Nat}
    (hf : s.height ≤ fuel) : inorderFrom h fuel s.ptr = some s.toList := by
  induction s generalizing fuel with
  | nil => cases fuel <;> rfl
  | node l a key v r ihl ihr =>
    obtain ⟨⟨nd, hb, hk, hv, hnl, hnr⟩, hl, hr'⟩ := hr
    cases fuel with
    | zero => simp [height] at hf
    | succ fuel =>
      simp only [height] at hf
      have e1 := ihl hl (show l.height ≤ fuel by omega)
      have e2 := ihr hr' (show r.height ≤ fuel by omega)
      show inorderFrom h (fuel + 1) (some a) = _
      simp only [inorderFrom, hb, hnl, hnr, e1, e2, toList_node, hk, hv]

theorem checkBalance_crep {h : Heap} {s : Shape} (hr : CRep h s) {fuel : Nat}
    (hf : s.height ≤ fuel) (hH : s.height ≤ h.length + 1) :
    BinarySearchTree.checkBalance h fuel s.ptr = some (decide s.Balanced) := by
  induction s generalizing fuel with
  | nil => cases fuel <;> simp [BinarySearchTree.checkBalance, ptr, Balanced]
  | node l a key v r ihl ihr =>
    obtain ⟨⟨nd, hb, _, _, hnl, hnr⟩, hl, hr'⟩ := hr
    cases fuel with
    | zero => simp [height] at hf
    | succ fuel =>
      simp only [height] at hf hH
      have e1 := ihl hl (show l.height ≤ fuel by omega) (by omega)
      have e2 := ihr hr' (show r.height ≤ fuel by omega) (by omega)
      have g1 := bst_getHeight_crep hl (show l.height ≤ h.length + 1 by omega)
      have g2 := bst_getHeight_crep hr' (show r.height ≤ h.length + 1 by omega)
      show BinarySearchTree.checkBalance h (fuel + 1) (some a) = _
      simp only [BinarySearchTree.checkBalance, hb, hnl, hnr, g1, g2, e1, e2, Balanced]
      by_cases hd : |(l.height : Int) - (r.height : Int)| ≥ 2
      · rw [if_pos hd]
        have : ¬ ((r.height : Int) - l.height ≤ 1 ∧ (l.height : Int) - r.height ≤ 1) := by
          intro hc
          have := abs_le.2 ⟨by omega, hc.2⟩
          omega
        have hn : ¬ (((r.height : Int) - l.height ≤ 1 ∧ (l.height : Int) - r.height ≤ 1) ∧
            l.Balanced ∧ r.Balanced) := fun hc => this hc.1
        rw [decide_eq_false hn]
      · rw [if_neg hd]
        have hd' : (r.height : Int) - l.height ≤ 1 ∧ (l.height : Int) - r.height ≤ 1 := by
          have h1 := le_abs_self ((l.height : Int) - r.height)
          have h2 := neg_abs_le ((l.height : Int) - r.height)
          constructor <;> omega
        by_cases hbl : l.Balanced <;> by_cases hbr : r.Balanced <;> simp [hd', hbl, hbr]

end Shape

/-- C13: for a finite binary tree laid out in the store (root pointer, child pointers, no
address used twice), `isBalanced()` returns, and it returns true exactly when at every node
the heights of the two subtrees differ by at most 1 (height of an absent subtree 0, of a leaf
1); on a tree with a null root it returns true. -/
theorem C13_isBalanced_iff (t : TreeState) (s : Shape)
    (hroot : t.root_ = s.ptr) (hrep : s.CRep t.heap) (hnd : s.addrs.Nodup) :
    (∃ b, BinarySearchTree.isBalanced t = some b ∧ (b = true ↔ s.Balanced)) ∧
    (∀ h : Heap, BinarySearchTree.isBalanced { root_ := none, heap := h } = some true) := by
  refine ⟨⟨decide s.Balanced, ?_, by simp⟩, fun h => rfl⟩
  unfold BinarySearchTree.isBalanced
  rw [hroot]
  have := Shape.crep_height_le hrep hnd
  exact Shape.checkBalance_crep hrep (by omega) (by omega)

/-- Witness of C13: the tree holding keys 2, 1, 3. -/
theorem C13_isBalanced_iff_witness :
    (∃ b, BinarySearchTree.isBalanced exampleTree = some b ∧
      (b = true ↔ exampleShape.Balanced)) ∧
    (∀ h : Heap, BinarySearchTree.isBalanced { root_ := none, heap := h } = some true) :=
  C13_isBalanced_iff exampleTree exampleShape rfl
    ⟨⟨_, rfl, rfl, rfl, rfl, rfl⟩, ⟨⟨_, rfl, rfl, rfl, rfl, rfl⟩, trivial, trivial⟩,
      ⟨⟨_, rfl, rfl, rfl, rfl, rfl⟩, trivial, trivial⟩⟩ (by decide)

/-! ## Rotations on child pointers -/

theorem setBalanceFromHeights_crep {h : Heap} {m : Nat} {nd : AVLNode}
    (e : deref h m = some nd) (sl sr : Shape) (hl : nd.left_ = sl.ptr) (hr : nd.right_ = sr.ptr)
    (cl : sl.CRep h) (cr : sr.CRep h) (bl : sl.height ≤ h.length + 1)
    (br : sr.height ≤ h.length + 1) :
    AVLTree.setBalanceFromHeights h m =
      some (store h m { nd with balance_ := wrap8 (max (sl.height : Int) sr.height + 1) }) := by
  have g1 := Shape.avl_getHeight_crep cl bl
  have g2 := Shape.avl_getHeight_crep cr br
  simp only [AVLTree.setBalanceFromHeights, e, hl, hr, g1, g2, setBalance, Option.bind_eq_bind,
    Option.some_bind, Option.map_some']

namespace Shape

theorem rightRotation_crep {h : Heap} {ll lr r : Shape} {la a : Nat} {lk lv k v : Int}
    (hrep : CRep h (node (node ll la lk lv lr) a k v r))
    (hnd : (node (node ll la lk lv lr) a k v r).addrs.Nodup) :
    ∃ h', AVLTree.rightRotation h (some a) = some h' ∧ h'.length = h.length ∧
      CRep h' (node ll la lk lv (node lr a k v r)) ∧
      ∀ c, c ≠ a → c ≠ la → deref h' c = deref h c := by
  have hH := crep_height_le hrep hnd
  simp only [height] at hH
  obtain ⟨⟨nd, ea, hk, hv, hnl, hnr⟩, ⟨⟨cl, ela, hlk, hlv, hll, hlr⟩, cll, clr⟩, cr⟩ := hrep
  obtain ⟨ndl, ndr, nal, nar, ndis⟩ := nodup_node hnd
  obtain ⟨ndll, ndlr, nlall, nlalr, ndisl⟩ := nodup_node ndl
  have hne : a ≠ la := fun e => nal (by simp [e])
  have hall : a ∉ ll.addrs := fun hm => nal (by simp [hm])
  have halr : a ∉ lr.addrs := fun hm => nal (by simp [hm])
  have hlar : la ∉ r.addrs := ndis la (by simp)
  -- the four stores
  set h1 := store h la { cl with right_ := some a } with hh1
  have e1a : deref h1 a = some nd := by rw [hh1, deref_store_ne _ _ (Ne.symm hne)]; exact ea
  set nd2 : AVLNode := { nd with left_ := lr.ptr } with hnd2
  set h2 := store h1 a nd2 with hh2
  have e2a : deref h2 a = some nd2 := deref_store_self e1a _
  have fr2 : ∀ c, c ≠ a → c ≠ la → deref h2 c = deref h c := by
    intro c h1' h2'
    rw [hh2, deref_store_ne _ _ (Ne.symm h1'), hh1, deref_store_ne _ _ (Ne.symm h2')]
  have len2 : h2.length = h.length := by simp [hh2, hh1, length_store]
  have c2lr : CRep h2 lr := crep_frame clr fun c hc =>
    fr2 c (fun e => halr (e ▸ hc)) (fun e => nlalr (e ▸ hc))
  have c2r : CRep h2 r := crep_frame cr fun c hc =>
    fr2 c (fun e => nar (e ▸ hc)) (fun e => hlar (e ▸ hc))
  have s3 := setBalanceFromHeights_crep e2a lr r rfl hnr c2lr c2r
    (by rw [len2]; omega) (by rw [len2]; omega)
  set nd3 : AVLNode := { nd2 with balance_ := wrap8 (max (lr.height : Int) r.height + 1) }
    with hnd3
  set h3 := store h2 a nd3 with hh3
  have e3a : deref h3 a = some nd3 := deref_store_self e2a _
  have e3la : deref h3 la = some { cl with right_ := some a } := by
    rw [hh3, deref_store_ne _ _ hne, hh2, deref_store_ne _ _ hne, hh1]
    exact deref_store_self ela _
  have fr3 : ∀ c, c ≠ a → c ≠ la → deref h3 c = deref h c := by
    intro c h1' h2'
    rw [hh3, deref_store_ne _ _ (Ne.symm h1')]
    exact fr2 c h1' h2'
  have len3 : h3.length = h.length := by rw [hh3, length_store, len2]
  have c3ll : CRep h3 ll := crep_frame cll fun c hc =>
    fr3 c (fun e => hall (e ▸ hc)) (fun e => nlall (e ▸ hc))
  have c3lr : CRep h3 lr := crep_frame clr fun c hc =>
    fr3 c (fun e => halr (e ▸ hc)) (fun e => nlalr (e ▸ hc))
  have c3r : CRep h3 r := crep_frame cr fun c hc =>
    fr3 c (fun e => nar (e ▸ hc)) (fun e => hlar (e ▸ hc))
  have c3n : CRep h3 (node lr a k v r) := ⟨⟨nd3, e3a, hk, hv, rfl, hnr⟩, c3lr, c3r⟩
  have s4 := setBalanceFromHeights_crep e3la ll (node lr a k v r) hll rfl
    c3ll c3n (by rw [len3]; omega) (by rw [len3]; simp only [height]; omega)
  set nd4 : AVLNode := { ({ cl with right_ := some a } : AVLNode) with
    balance_ := wrap8 (max (ll.height : Int) (node lr a k v r).height + 1) } with hnd4
  set h4 := store h3 la nd4 with hh4
  have fr4 : ∀ c, c ≠ a → c ≠ la → deref h4 c = deref h c := by
    intro c h1' h2'
    rw [hh4, deref_store_ne _ _ (Ne.symm h2')]
    exact fr3 c h1' h2'
  refine ⟨h4, ?_, by rw [hh4, length_store, len3], ?_, fr4⟩
  · simp only [AVLTree.rightRotation, Option.bind_eq_bind, Option.some_bind, ea, hnl, ptr, ela,
      setRight, setLeft, Option.map_some', e1a, ← hh1]
    rw [hlr, ← hnd2, ← hh2, s3]
    simp only [Option.some_bind]
    exact s4
  · refine ⟨⟨nd4, deref_store_self e3la _, hlk, hlv, hll, rfl⟩, ?_, ?_⟩
    · exact crep_frame cll fun c hc =>
        fr4 c (fun e => hall (e ▸ hc)) (fun e => nlall (e ▸ hc))
    · refine ⟨⟨nd3, ?_, hk, hv, rfl, hnr⟩, ?_, ?_⟩
      · rw [hh4, deref_store_ne _ _ (Ne.symm hne)]; exact e3a
      · exact crep_frame clr fun c hc =>
          fr4 c (fun e => halr (e ▸ hc)) (fun e => nlalr (e ▸ hc))
      · exact crep_frame cr fun c hc =>
          fr4 c (fun e => nar (e ▸ hc)) (fun e => hlar (e ▸ hc))

theorem leftRotation_crep {h : Heap} {l rl rr : Shape} {ra a : Nat} {rk rv k v : Int}
    (hrep : CRep h (node l a k v (node rl ra rk rv rr)))
    (hnd : (node l a k v (node rl ra rk rv rr)).addrs.Nodup) :
    ∃ h', AVLTree.leftRotation h (some a) = some h' ∧ h'.length = h.length ∧
      CRep h' (node (node l a k v rl) ra rk rv rr) ∧
      ∀ c, c ≠ a → c ≠ ra → deref h' c = deref h c := by
  have hH := crep_height_le hrep hnd
  simp only [height] at hH
  obtain ⟨⟨nd, ea, hk, hv, hnl, hnr⟩, cl, ⟨⟨cr, era, hrk, hrv, hrl, hrr⟩, crl, crr⟩⟩ := hrep
  obtain ⟨ndl, ndr, nal, nar, ndis⟩ := nodup_node hnd
  obtain ⟨ndrl, ndrr, nrarl, nrarr, ndisr⟩ := nodup_node ndr
  have hne : a ≠ ra := fun e => nar (by simp [e])
  have harl : a ∉ rl.addrs := fun hm => nar (by simp [hm])
  have harr : a ∉ rr.addrs := fun hm => nar (by simp [hm])
  have hral : ra ∉ l.addrs := fun hm => ndis ra hm (by simp)
  set h1 := store h ra { cr with left_ := some a } with hh1
  have e1a : deref h1 a = some nd := by rw [hh1, deref_store_ne _ _ (Ne.symm hne)]; exact ea
  set nd2 : AVLNode := { nd with right_ := rl.ptr } with hnd2
  set h2 := store h1 a nd2 with hh2
  have e2a : deref h2 a = some nd2 := deref_store_self e1a _
  have fr2 : ∀ c, c ≠ a → c ≠ ra → deref h2 c = deref h c := by
    intro c h1' h2'
    rw [hh2, deref_store_ne _ _ (Ne.symm h1'), hh1, deref_store_ne _ _ (Ne.symm h2')]
  have len2 : h2.length = h.length := by simp [hh2, hh1, length_store]
  have c2l : CRep h2 l := crep_frame cl fun c hc =>
    fr2 c (fun e => nal (e ▸ hc)) (fun e => hral (e ▸ hc))
  have c2rl : CRep h2 rl := crep_frame crl fun c hc =>
    fr2 c (fun e => harl (e ▸ hc)) (fun e => nrarl (e ▸ hc))
  have s3 := setBalanceFromHeights_crep e2a l rl hnl rfl c2l c2rl
    (by rw [len2]; omega) (by rw [len2]; omega)
  set nd3 : AVLNode := { nd2 with balance_ := wrap8 (max (l.height : Int) rl.height + 1) }
    with hnd3
  set h3 := store h2 a nd3 with hh3
  have e3a : deref h3 a = some nd3 := deref_store_self e2a _
  have e3ra : deref h3 ra = some { cr with left_ := some a } := by
    rw [hh3, deref_store_ne _ _ hne, hh2, deref_store_ne _ _ hne, hh1]
    exact deref_store_self era _
  have fr3 : ∀ c, c ≠ a → c ≠ ra → deref h3 c = deref h c := by
    intro c h1' h2'
    rw [hh3, deref_store_ne _ _ (Ne.symm h1')]
    exact fr2 c h1' h2'
  have len3 : h3.length = h.length := by rw [hh3, length_store, len2]
  have c3l : CRep h3 l := crep_frame cl fun c hc =>
    fr3 c (fun e => nal (e ▸ hc)) (fun e => hral (e ▸ hc))
  have c3rl : CRep h3 rl := crep_frame crl fun c hc =>
    fr3 c (fun e => harl (e ▸ hc)) (fun e => nrarl (e ▸ hc))
  have c3rr : CRep h3 rr := crep_frame crr fun c hc =>
    fr3 c (fun e => harr (e ▸ hc)) (fun e => nrarr (e ▸ hc))
  have c3n : CRep h3 (node l a k v rl) := ⟨⟨nd3, e3a, hk, hv, hnl, rfl⟩, c3l, c3rl⟩
  have s4 := setBalanceFromHeights_crep e3ra (node l a k v rl) rr rfl hrr
    c3n c3rr (by rw [len3]; simp only [height]; omega) (by rw [len3]; omega)
  set nd4 : AVLNode := { ({ cr with left_ := some a } : AVLNode) with
    balance_ := wrap8 (max ((node l a k v rl).height : Int) rr.height + 1) } with hnd4
  set h4 := store h3 ra nd4 with hh4
  have fr4 : ∀ c, c ≠ a → c ≠ ra → deref h4 c = deref h c := by
    intro c h1' h2'
    rw [hh4, deref_store_ne _ _ (Ne.symm h2')]
    exact fr3 c h1' h2'
  refine ⟨h4, ?_, by rw [hh4, length_store, len3], ?_, fr4⟩
  · simp only [AVLTree.leftRotation, Option.bind_eq_bind, Option.some_bind, ea, hnr, ptr, era,
      setRight, setLeft, Option.map_some', e1a, ← hh1]
    rw [hrl, ← hnd2, ← hh2, s3]
    simp only [Option.some_bind]
    exact s4
  · refine ⟨⟨nd4, deref_store_self e3ra _, hrk, hrv, rfl, hrr⟩, ?_, ?_⟩
    · refine ⟨⟨nd3, ?_, hk, hv, hnl, rfl⟩, ?_, ?_⟩
      · rw [hh4, deref_store_ne _ _ (Ne.symm hne)]; exact e3a
      · exact crep_frame cl fun c hc =>
          fr4 c (fun e => nal (e ▸ hc)) (fun e => hral (e ▸ hc))
      · exact crep_frame crl fun c hc =>
          fr4 c (fun e => harl (e ▸ hc)) (fun e => nrarl (e ▸ hc))
    · exact crep_frame crr fun c hc =>
        fr4 c (fun e => harr (e ▸ hc)) (fun e => nrarr (e ▸ hc))

theorem inorderFrom_crep_heap {h : Heap} {s : Shape} (hr : CRep h s) (hnd : s.addrs.Nodup) :
    inorderFrom h (h.length + 1) s.ptr = some s.toList :=
  inorderFrom_crep hr (le_trans (crep_height_le hr hnd) (Nat.le_succ _))

end Shape

/-- C19: for a node `n` (address `a`) of a tree laid out in the store whose left child `L`
(address `la`) exists, `rightRotation(n)` returns, and the in-order (key, value) sequence read
from `L` through child pointers afterwards equals the sequence read from `n` before; the
mirror statement holds for `leftRotation(n)` and the right child of `n`. -/
theorem C19_rotation_preserves_inorder (h : Heap) (s : Shape) (a : Nat)
    (hp : s.ptr = some a) (hrep : s.CRep h) (hnd : s.addrs.Nodup) :
    (∀ la nd, deref h a = some nd → nd.left_ = some la →
      ∃ h', AVLTree.rightRotation h (some a) = some h' ∧
        inorderFrom h' (h'.length + 1) (some la) = inorderFrom h (h.length + 1) (some a) ∧
        inorderFrom h (h.length + 1) (some a) = some s.toList) ∧
    (∀ ra nd, deref h a = some nd → nd.right_ = some ra →
      ∃ h', AVLTree.leftRotation h (some a) = some h' ∧
        inorderFrom h' (h'.length + 1) (some ra) = inorderFrom h (h.length + 1) (some a) ∧
        inorderFrom h (h.length + 1) (some a) = some s.toList) := by
  obtain ⟨l, k, v, r, rfl⟩ := Shape.ptr_eq_some hp
  have hbefore : inorderFrom h (h.length + 1) (some a) = some (Shape.node l a k v r).toList :=
    Shape.inorderFrom_crep_heap hrep hnd
  have hnode := hrep.1
  obtain ⟨nd0, e0, _, _, hl0, hr0⟩ := hnode
  constructor
  · intro la nd e hleft
    rw [e0] at e
    cases e
    obtain ⟨ll, lk, lv, lr, rfl⟩ := Shape.ptr_eq_some (hl0.symm.trans hleft)
    obtain ⟨h', e1, _, c', _⟩ := Shape.rightRotation_crep hrep hnd
    refine ⟨h', e1, ?_, hbefore⟩
    have hnd' : (Shape.node ll la lk lv (Shape.node lr a k v r)).addrs.Nodup := by
      simpa using hnd
    have hafter : inorderFrom h' (h'.length + 1) (some la) = some _ :=
      Shape.inorderFrom_crep_heap c' hnd'
    rw [hbefore, hafter]
    simp
  · intro ra nd e hright
    rw [e0] at e
    cases e
    obtain ⟨rl, rk, rv, rr, rfl⟩ := Shape.ptr_eq_some (hr0.symm.trans hright)
    obtain ⟨h', e1, _, c', _⟩ := Shape.leftRotation_crep hrep hnd
    refine ⟨h', e1, ?_, hbefore⟩
    have hnd' : (Shape.node (Shape.node l a k v rl) ra rk rv rr).addrs.Nodup := by
      simpa using hnd
    have hafter : inorderFrom h' (h'.length + 1) (some ra) = some _ :=
      Shape.inorderFrom_crep_heap c' hnd'
    rw [hbefore, hafter]
    simp

/-- Witness of C19: rotating at the root of the tree 4(2(1, 3), 5) and of its mirror image. -/
theorem C19_rotation_preserves_inorder_witness :
    (∀ la nd, deref rotationHeap 0 = some nd → nd.left_ = some la →
      ∃ h', AVLTree.rightRotation rotationHeap (some 0) = some h' ∧
        inorderFrom h' (h'.length + 1) (some la)
          = inorderFrom rotationHeap (rotationHeap.length + 1) (some 0) ∧
        inorderFrom rotationHeap (rotationHeap.length + 1) (some 0)
          = some rotationShape.toList) ∧
    (∀ ra nd, deref rotationHeap 0 = some nd → nd.right_ = some ra →
      ∃ h', AVLTree.leftRotation rotationHeap (some 0) = some h' ∧
        inorderFrom h' (h'.length + 1) (some ra)
          = inorderFrom rotationHeap (rotationHeap.length + 1) (some 0) ∧
        inorderFrom rotationHeap (rotationHeap.length + 1) (some 0)
          = some rotationShape.toList) :=
  C19_rotation_preserves_inorder rotationHeap rotationShape 0 rfl
    ⟨⟨_, rfl, rfl, rfl, rfl, rfl⟩,
      ⟨⟨_, rfl, rfl, rfl, rfl, rfl⟩, ⟨⟨_, rfl, rfl, rfl, rfl, rfl⟩, trivial, trivial⟩,
        ⟨⟨_, rfl, rfl, rfl, rfl, rfl⟩, trivial, trivial⟩⟩,
      ⟨⟨_, rfl, rfl, rfl, rfl, rfl⟩, trivial, trivial⟩⟩ (by decide)

/-- C15 (fails on the code): in the two-children branch of `BinarySearchTree::remove` the
remaining child is selected by `n->getLeft() == NULL ? n->getLeft() : n->getRight()`, which is
null whenever the swapped node still has a left child; `c->setParent(predParent)` then
dereferences null. Removing 20 from the tree built from 20, 10, 30, 5 does not return, while
removing 20 from the tree built from 20, 10, 30 (the predecessor is a leaf) yields root 10
with right child 30. -/
theorem C15_remove_two_children_null_dereference :
    (AVLTree.insertAll AVLTree.empty [(20, 0), (10, 0), (30, 0), (5, 0)]).map
        (fun t => BinarySearchTree.remove t 20) = some none ∧
    ((AVLTree.insertAll AVLTree.empty [(20, 0), (10, 0), (30, 0)]).bind fun t =>
      (BinarySearchTree.remove t 20).bind fun t' =>
        (derefPtr t'.heap t'.root_).bind fun nd =>
          (derefPtr t'.heap nd.right_).map fun rd => (nd.key, nd.left_, rd.key))
      = some (10, none, 30) := by
  constructor <;> decide

/-- C16 (fails on the code): `AVLTree::insert` never rotates and stores subtree heights in the
balance field. Inserting 10, 20, 30 leaves 10 at the root (not the median 20) with stored
balances 3, 2, 1; inserting 30, 10, 20 leaves 30 at the root; even for the order 20, 10, 30
the stored balances are 2, 1, 1 instead of 0, 0, 0. -/
theorem C16_three_keys_not_rebalanced :
    ((AVLTree.insertAll AVLTree.empty [(10, 0), (20, 0), (30, 0)]).map fun t =>
        ((derefPtr t.heap t.root_).map (·.key),
          t.heap.map (Option.map fun nd => (nd.key, nd.balance_))))
      = some (some 10, [some (10, 3), some (20, 2), some (30, 1)]) ∧
    ((AVLTree.insertAll AVLTree.empty [(30, 0), (10, 0), (20, 0)]).map fun t =>
        (derefPtr t.heap t.root_).map (·.key)) = some (some 30) ∧
    ((AVLTree.insertAll AVLTree.empty [(20, 0), (10, 0), (30, 0)]).map fun t =>
        t.heap.map (Option.map fun nd => (nd.key, nd.balance_)))
      = some [some (20, 2), some (10, 1), some (30, 1)] := by
  refine ⟨?_, ?_, ?_⟩ <;> decide

/-- C17 (fails on the code): after inserting 1 and then 2 the root's stored balance is 2, which
is outside {-1, 0, 1} and differs from right-height minus left-height (1, as computed by
`calculateBalance`); the new leaf stores 1 although both its subtrees are empty. -/
theorem C17_stored_balance_is_not_balance_factor :
    ((AVLTree.insertAll AVLTree.empty [(1, 0), (2, 0)]).bind fun t =>
        (derefPtr t.heap t.root_).bind fun nd =>
          (AVLTree.calculateBalance t.heap t.root_).map fun b => (nd.balance_, b))
      = some (2, 1) ∧
    ((AVLTree.insertAll AVLTree.empty [(1, 0), (2, 0)]).bind fun t =>
        (derefPtr t.heap (some 1)).bind fun nd =>
          (AVLTree.calculateBalance t.heap (some 1)).map fun b => (nd.key, nd.balance_, b))
      = some (2, 1, 0) := by
  constructor <;> decide

/-- C18 (fails on the code): `rightRotation` and `leftRotation` only rewrite two child
pointers. On the tree 4(2(1, 3), 5) stored at addresses 0(1(2, 3), 4), after
`rightRotation(n)` with `n` at address 0 the node `L` at address 1 still has parent `n`
(instead of `n`'s former parent, null), `n` still has a null parent (instead of `L`), and
`L`'s former right child at address 3 still has parent `L` (instead of `n`); the mirror image
holds for `leftRotation`. -/
theorem C18_rotation_leaves_parent_pointers_stale :
    ((AVLTree.rightRotation rotationHeap (some 0)).map fun h =>
        h.map (Option.map fun nd => (nd.parent_, nd.left_, nd.right_)))
      = some [some (none, some 3, some 4), some (some 0, some 2, some 0),
              some (some 1, none, none), some (some 1, none, none),
              some (some 0, none, none)] ∧
    ((AVLTree.leftRotation rotationHeapMirror (some 0)).map fun h =>
        h.map (Option.map fun nd => (nd.parent_, nd.left_, nd.right_)))
      = some [some (none, some 4, some 3), some (some 0, some 0, some 2),
              some (some 1, none, none), some (some 1, none, none),
              some (some 0, none, none)] := by
  constructor <;> decide

/-- C20 (fails on the code): with a left-heavy ancestor `a` (key 30, address 0) whose left
child `L` (key 20, address 1) received the new node `x` (key 10, address 2) on its left,
`rebalanceTree` rotates right at `L` instead of at `a`: `a` keeps `L` as its left child and
`L` ends up as the right child of `x`, whereas a right rotation at `a` makes `a` the right
child of `L`. With `x` (key 20) on the right of `L` (key 10) the code calls
`rightRotation(a.left)` instead of a left rotation, which dereferences the null left child of
`L` and does not return. -/
theorem C20_rebalance_rotates_wrong_node :
    ((AVLTree.rebalanceTree leftLeftHeap (some 0) (some 2) (some 0)).map fun h =>
        h.map (Option.map fun nd => (nd.key, nd.left_, nd.right_)))
      = some [some (30, some 1, none), some (20, none, none), some (10, none, some 1)] ∧
    ((AVLTree.rightRotation leftLeftHeap (some 0)).map fun h =>
        h.map (Option.map fun nd => (nd.key, nd.left_, nd.right_)))
      = some [some (30, none, none), some (20, some 2, some 0), some (10, none, none)] ∧
    AVLTree.rebalanceTree leftRightHeap (some 0) (some 2) (some 0) = none := by
  refine ⟨?_, ?_, ?_⟩ <;> decide

/-! ## In-order iteration -/

theorem firstOr_append_cons (l1 : List Nat) (a : Nat) (l2 : List Nat) (N : Ptr) :
    firstOr (l1 ++ a :: l2) N = firstOr l1 (some a) := by
  cases l1 <;> rfl

theorem firstOr_none (l : List Nat) : firstOr l none = l.head? := by
  cases l <;> rfl

theorem iterChain_append {h : Heap} {l1 : List Nat} {a : Nat} {l2 : List Nat} {N : Ptr}
    (h1 : IterChain h l1 (some a)) (h2 : IterChain h (a :: l2) N) :
    IterChain h (l1 ++ a :: l2) N := by
  induction l1 with
  | nil => exact h2
  | cons x rest ih =>
    obtain ⟨e, hrest⟩ := h1
    refine ⟨?_, ih hrest⟩
    rw [e]
    exact congrArg some (firstOr_append_cons rest a l2 N).symm

theorem iterChain_advance {h : Heap} {l : List Nat} {N : Ptr} (hc : IterChain h l N)
    (i : Nat) (hi : i ≤ l.length) :
    advance h i (firstOr l N) = some (firstOr (l.drop i) N) := by
  induction i generalizing l with
  | zero => rfl
  | succ i ih =>
    cases l with
    | nil => simp at hi
    | cons x rest =>
      obtain ⟨e, hrest⟩ := hc
      simp only [List.length_cons, Nat.add_le_add_iff_right] at hi
      show (BinarySearchTree.increment h (some x)).bind (advance h i) = _
      rw [e, Option.some_bind, ih hrest hi]
      rfl

theorem climb_mono {h : Heap} {f : Nat} {c : Nat} {N : Ptr}
    (e : BinarySearchTree.climb h f c = some N) {f' : Nat} (hf : f ≤ f') :
    BinarySearchTree.climb h f' c = some N := by
  induction f generalizing c f' with
  | zero => cases e
  | succ f ih =>
    cases f' with
    | zero => omega
    | succ f' =>
      simp only [BinarySearchTree.climb] at e ⊢
      cases hd : deref h c with
      | none => rw [hd] at e; cases e
      | some nd =>
        rw [hd] at e
        simp only at e ⊢
        cases hp : nd.parent_ with
        | none => rw [hp] at e; exact e
        | some p =>
          rw [hp] at e
          simp only at e ⊢
          cases hdp : deref h p with
          | none => rw [hdp] at e; cases e
          | some pnd =>
            rw [hdp] at e
            simp only at e ⊢
            split_ifs at e ⊢ with hc
            · exact ih e (by omega)
            · exact e

namespace Shape

theorem addrs_of_ptr {s : Shape} {a : Nat} (hp : s.ptr = some a) : a ∈ s.addrs := by
  obtain ⟨l, k, v, r, rfl⟩ := ptr_eq_some hp
  simp

theorem leftmost_crep {h : Heap} {s : Shape} (hr : CRep h s) {a : Nat} (hp : s.ptr = some a)
    {fuel : Nat} (hf : s.height ≤ fuel) :
    ∃ x rest, s.addrs = x :: rest ∧ BinarySearchTree.leftmost h fuel a = some x := by
  induction s generalizing a fuel with
  | nil => cases hp
  | node l a0 k v r ihl ihr =>
    cases hp
    obtain ⟨⟨nd, hb, _, _, hnl, hnr⟩, hl, hr'⟩ := hr
    cases fuel with
    | zero => simp [height] at hf
    | succ fuel =>
      simp only [height] at hf
      cases hlp : l.ptr with
      | none =>
        have := ptr_eq_none hlp
        subst this
        refine ⟨a0, r.addrs, by simp, ?_⟩
        simp only [BinarySearchTree.leftmost, hb, hnl, ptr]
      | some la =>
        obtain ⟨x, rest, e1, e2⟩ := ihl hl hlp (show l.height ≤ fuel by omega)
        refine ⟨x, rest ++ a0 :: r.addrs, by simp [e1], ?_⟩
        simp only [BinarySearchTree.leftmost, hb, hnl, hlp, e2]

theorem iterChain_rep {h : Heap} {par : Ptr} {s : Shape} (hr : Rep h par s)
    (hnd : s.addrs.Nodup) {d : Nat} {N : Ptr}
    (hclimb : ∀ a, s.ptr = some a → BinarySearchTree.climb h d a = some N)
    (hd : d + s.height ≤ h.length + 1) : IterChain h s.addrs N := by
  induction s generalizing par d N with
  | nil => trivial
  | node l a k v r ihl ihr =>
    have hc := hclimb a rfl
    have hd1 : 1 ≤ d := by
      cases d with
      | zero => cases hc
      | succ d => omega
    obtain ⟨⟨b, hb⟩, hl, hr'⟩ := hr
    obtain ⟨ndl, ndr, nal, nar, ndis⟩ := nodup_node hnd
    simp only [height] at hd
    rw [addrs_node]
    refine iterChain_append ?_ ⟨?_, ?_⟩
    · refine ihl hl ndl (d := 1) ?_ (by omega)
      intro la hla
      obtain ⟨l1, k1, v1, r1, rfl⟩ := ptr_eq_some hla
      obtain ⟨⟨b1, hb1⟩, _, _⟩ := hl
      have hne : r.ptr ≠ some la := fun e => ndis la (by simp) (addrs_of_ptr e)
      simp only [BinarySearchTree.climb, hb1, hb]
      rw [if_neg hne]
    · cases hrp : r.ptr with
      | none =>
        have := ptr_eq_none hrp
        subst this
        simp only [BinarySearchTree.increment, hb, ptr]
        exact climb_mono hc (by omega)
      | some ra =>
        obtain ⟨x, rest, e1, e2⟩ := leftmost_crep (rep_crep hr') hrp
          (show r.height ≤ h.length + 1 by omega)
        simp only [BinarySearchTree.increment, hb, hrp, e2, e1]
        rfl
    · refine ihr hr' ndr (d := d + 1) ?_ (by omega)
      intro ra hra
      obtain ⟨l1, k1, v1, r1, rfl⟩ := ptr_eq_some hra
      obtain ⟨⟨b1, hb1⟩, _, _⟩ := hr'
      simp only [BinarySearchTree.climb, hb1, hb, ptr, if_true]
      exact hc

end Shape

theorem models_iterChain {t : TreeState} {s : Shape} (hm : Models t s) :
    IterChain t.heap s.addrs none := by
  refine Shape.iterChain_rep hm.2.1 hm.2.2 (d := 1) ?_ ?_
  · intro a ha
    obtain ⟨l1, k1, v1, r1, rfl⟩ := Shape.ptr_eq_some ha
    obtain ⟨⟨b1, hb1⟩, _, _⟩ := hm.2.1
    simp only [BinarySearchTree.climb, hb1]
  · have := Shape.height_le_heap hm.2.1 hm.2.2
    omega

theorem begin_models {t : TreeState} {s : Shape} (hm : Models t s) :
    BinarySearchTree.begin t = some s.addrs.head? := by
  unfold BinarySearchTree.begin BinarySearchTree.getSmallestNode
  rw [hm.1]
  cases hp : s.ptr with
  | none =>
    have := Shape.ptr_eq_none hp
    subst this
    rfl
  | some a =>
    obtain ⟨x, rest, e1, e2⟩ := Shape.leftmost_crep (Shape.rep_crep hm.2.1) hp
      (le_trans (Shape.height_le_heap hm.2.1 hm.2.2) (Nat.le_succ _))
    simp only [e2, e1, Option.map_some', List.head?_cons]

theorem advance_models {t : TreeState} {s : Shape} (hm : Models t s) (i : Nat)
    (hi : i ≤ s.addrs.length) :
    advance t.heap i s.addrs.head? = some s.addrs[i]? := by
  have := iterChain_advance (models_iterChain hm) i hi
  rw [firstOr_none, firstOr_none, List.head?_drop] at this
  exact this

theorem iterChain_mem {h : Heap} {l : List Nat} {N : Ptr} (hc : IterChain h l N) {a : Nat}
    (ha : a ∈ l) : ∃ q, BinarySearchTree.increment h (some a) = some q := by
  induction l with
  | nil => simp at ha
  | cons x rest ih =>
    obtain ⟨e, hrest⟩ := hc
    rcases List.mem_cons.1 ha with rfl | ha
    · exact ⟨_, e⟩
    · exact ih hrest ha

/-- C11: on a well-formed tree satisfying the BST order invariant, `operator[](k)` returns or
throws; it throws `out_of_range` exactly when no node of the tree holds `k`, and otherwise
yields the value stored with `k`. The other lookup and iteration operations (`find`, `begin`,
`operator++` at any node of the tree or at the end iterator) return normally. -/
theorem C11_subscript_throws_iff_absent (t : TreeState) (s : Shape) (k : Int)
    (hm : Models t s) (ho : s.Ordered) :
    (BinarySearchTree.subscript t k = some BinarySearchTree.Lookup.out_of_range ↔
        k ∉ s.keys) ∧
    (∀ a nd, a ∈ s.addrs → deref t.heap a = some nd → nd.key = k →
        BinarySearchTree.subscript t k = some (BinarySearchTree.Lookup.value nd.value)) ∧
    (∃ r, BinarySearchTree.subscript t k = some r) ∧
    (∃ p, BinarySearchTree.find t k = some (p, t)) ∧
    (∃ p, BinarySearchTree.begin t = some p) ∧
    (∀ a, a ∈ s.addrs → ∃ q, BinarySearchTree.increment t.heap (some a) = some q) ∧
    BinarySearchTree.increment t.heap none = some none := by
  have hfind := internalFind_models hm k
  have hpresent : ∀ a k' v, (a, k', v) ∈ s.nodes → k' = k →
      BinarySearchTree.subscript t k = some (BinarySearchTree.Lookup.value v) := by
    intro a k' v hmem hk
    subst hk
    obtain ⟨nd, e, _, hv⟩ := Shape.rep_nodes hm.2.1 hmem
    simp only [BinarySearchTree.subscript, hfind, Shape.find_of_mem ho hmem, Option.map_some',
      e, hv]
  have habsent : k ∉ s.keys →
      BinarySearchTree.subscript t k = some BinarySearchTree.Lookup.out_of_range := by
    intro hk
    simp only [BinarySearchTree.subscript, hfind, Shape.find_eq_none hk, Option.map_none']
  refine ⟨⟨?_, habsent⟩, ?_, ?_, ?_, ⟨_, begin_models hm⟩, ?_, rfl⟩
  · intro hthrow hk
    obtain ⟨⟨a, k', v⟩, hmem, hkk⟩ := List.mem_map.1 hk
    rw [hpresent a k' v hmem hkk] at hthrow
    cases hthrow
  · intro a nd ha e hkey
    obtain ⟨⟨a', k', v'⟩, hmem, rfl⟩ := List.mem_map.1 ha
    obtain ⟨nd', e', hk', hv'⟩ := Shape.rep_nodes hm.2.1 hmem
    rw [e] at e'
    cases e'
    subst hv'
    exact hpresent _ _ _ hmem (hk'.symm.trans hkey)
  · by_cases hk : k ∈ s.keys
    · obtain ⟨⟨a, k', v⟩, hmem, hkk⟩ := List.mem_map.1 hk
      exact ⟨_, hpresent a k' v hmem hkk⟩
    · exact ⟨_, habsent hk⟩
  · refine ⟨(s.find k).map (·.1), ?_⟩
    simp only [BinarySearchTree.find, hfind, Option.map_some']
  · intro a ha
    exact iterChain_mem (models_iterChain hm) ha

/-- Witness of C11: subscripting the tree holding keys 2, 1, 3 with the absent key 5. -/
theorem C11_subscript_throws_iff_absent_witness :
    (BinarySearchTree.subscript exampleTree 5 = some BinarySearchTree.Lookup.out_of_range ↔
        (5 : Int) ∉ exampleShape.keys) ∧
    (∀ a nd, a ∈ exampleShape.addrs → deref exampleTree.heap a = some nd → nd.key = 5 →
        BinarySearchTree.subscript exampleTree 5
          = some (BinarySearchTree.Lookup.value nd.value)) ∧
    (∃ r, BinarySearchTree.subscript exampleTree 5 = some r) ∧
    (∃ p, BinarySearchTree.find exampleTree 5 = some (p, exampleTree)) ∧
    (∃ p, BinarySearchTree.begin exampleTree = some p) ∧
    (∀ a, a ∈ exampleShape.addrs →
        ∃ q, BinarySearchTree.increment exampleTree.heap (some a) = some q) ∧
    BinarySearchTree.increment exampleTree.heap none = some none :=
  C11_subscript_throws_iff_absent exampleTree exampleShape 5
    ⟨rfl, ⟨⟨2, rfl⟩, ⟨⟨1, rfl⟩, trivial, trivial⟩, ⟨⟨1, rfl⟩, trivial, trivial⟩⟩, by decide⟩
    (by decide)

/-- C12: for every sequence of inserts from the empty tree, the resulting tree holds exactly
the inserted keys, one node per distinct key; `begin()` is the first node of the in-order
address list (the node with the minimum key, or null when the tree is empty); `i`
applications of `operator++` from `begin()` reach the `i`-th node of that list, whose keys
are strictly increasing, and after exactly `n` applications (`n` the number of nodes) the
iterator equals `end()`. -/
theorem C12_iteration_in_order (l : List (Int × Int)) :
    ∃ t s, AVLTree.insertAll AVLTree.empty l = some t ∧ Models t s ∧
      (∀ a, (∃ nd, deref t.heap a = some nd) ↔ a ∈ s.addrs) ∧ s.addrs.Nodup ∧
      s.addrs.length = (l.map Prod.fst).dedup.length ∧
      s.keys.Pairwise (· < ·) ∧
      (∀ i a, s.addrs[i]? = some a →
        ∃ nd, deref t.heap a = some nd ∧ s.keys.get? i = some nd.key) ∧
      BinarySearchTree.begin t = some s.addrs.head? ∧
      (∀ i, i ≤ s.addrs.length →
        (BinarySearchTree.begin t).bind (advance t.heap i) = some s.addrs[i]?) ∧
      (BinarySearchTree.begin t).bind (advance t.heap s.addrs.length)
        = BinarySearchTree.end_ t := by
  obtain ⟨t, s, e, hR, hk, _⟩ := insertAll_reach reach_empty l
  have hm := hR.models
  have hsorted := Shape.keys_sorted hR.ordered
  have hadv : ∀ i, i ≤ s.addrs.length →
      (BinarySearchTree.begin t).bind (advance t.heap i) = some s.addrs[i]? := by
    intro i hi
    rw [begin_models hm, Option.some_bind]
    exact advance_models hm i hi
  refine ⟨t, s, e, hm, ?_, hm.2.2, ?_, hsorted, ?_, begin_models hm, hadv, ?_⟩
  · intro a
    constructor
    · rintro ⟨nd, hnd⟩
      exact hR.cover a (deref_lt hnd)
    · intro ha
      exact Shape.rep_addr_live hm.2.1 ha
  · have hkn : s.keys.Nodup := hsorted.imp (fun h => ne_of_lt h)
    have hperm : s.keys.Perm (l.map Prod.fst).dedup :=
      (List.perm_ext_iff_of_nodup hkn (List.nodup_dedup _)).2 fun y => by
        rw [List.mem_dedup]
        simpa using hk y
    have := hperm.length_eq
    simpa [Shape.keys, Shape.addrs] using this
  · intro i a hia
    simp only [Shape.addrs, List.getElem?_map] at hia
    cases hn : s.nodes[i]? with
    | none => rw [hn] at hia; cases hia
    | some akv =>
      obtain ⟨a', k', v'⟩ := akv
      rw [hn] at hia
      cases hia
      obtain ⟨nd, e1, e2, _⟩ := Shape.rep_nodes hm.2.1 (List.getElem?_mem hn)
      refine ⟨nd, e1, ?_⟩
      simp only [Shape.keys, List.get?_eq_getElem?, List.getElem?_map, hn, Option.map_some', e2]
  · rw [hadv _ (le_refl _)]
    simp [BinarySearchTree.end_]

/-! ## Structural removal of a node with at most one child -/

theorem deref_free_self (h : Heap) (a : Nat) : deref (free h a) a = none := by
  unfold deref free
  simp only [List.getD_eq_getElem?_getD, List.getElem?_set]
  by_cases hl : a < h.length
  · simp [hl]
  · simp [hl, List.getElem?_eq_none (not_lt.mp hl)]

theorem deref_free_ne (h : Heap) {a c : Nat} (hne : a ≠ c) : deref (free h a) c = deref h c := by
  unfold deref free
  simp only [List.getD_eq_getElem?_getD, List.getElem?_set]
  simp [hne]

theorem length_free (h : Heap) (a : Nat) : (free h a).length = h.length := by
  simp [free]

namespace Shape

theorem ptr_spliceOut_ne {k : Int} {l : Shape} {a : Nat} {key val : Int} {r : Shape}
    (hne : key ≠ k) : (spliceOut k (node l a key val r)).ptr = some a := by
  simp only [spliceOut]
  split_ifs with h1 h2
  · rfl
  · rfl
  · exact absurd (show key = k by omega) hne

theorem nodes_spliceOut {k : Int} {s : Shape} (ho : s.Ordered) (hf : s.FewChildren k) :
    (spliceOut k s).nodes = s.nodes.filter (fun x => decide (x.2.1 ≠ k)) := by
  induction s with
  | nil => rfl
  | node l a key val r ihl ihr =>
    obtain ⟨hl, hr, ol, or_⟩ := ho
    have keepl : ∀ x ∈ l.nodes, x.2.1 < key := fun x hx =>
      hl _ (List.mem_map.2 ⟨x, hx, rfl⟩)
    have keepr : ∀ x ∈ r.nodes, key < x.2.1 := fun x hx =>
      hr _ (List.mem_map.2 ⟨x, hx, rfl⟩)
    have el : ∀ {y : Int}, key ≤ y → l.nodes.filter (fun x => decide (x.2.1 ≠ y)) = l.nodes :=
      fun {y} hy => List.filter_eq_self.2 fun x hx => by
        have := keepl x hx
        exact decide_eq_true (by omega)
    have er : ∀ {y : Int}, y ≤ key → r.nodes.filter (fun x => decide (x.2.1 ≠ y)) = r.nodes :=
      fun {y} hy => List.filter_eq_self.2 fun x hx => by
        have := keepr x hx
        exact decide_eq_true (by omega)
    simp only [FewChildren] at hf
    simp only [spliceOut]
    rcases lt_trichotomy k key with h1 | h1 | h1
    · rw [if_pos h1] at hf ⊢
      simp only [nodes_node, List.filter_append]
      rw [List.filter_cons_of_pos (p := fun x : Nat × Int × Int => decide (x.2.1 ≠ k))
          (decide_eq_true (show key ≠ k by omega)), ihl ol hf,
        er (le_of_lt h1)]
    · subst h1
      rw [if_neg (lt_irrefl _), if_neg (lt_irrefl _)] at hf ⊢
      simp only [nodes_node, List.filter_append]
      rw [List.filter_cons_of_neg (p := fun x : Nat × Int × Int => decide (x.2.1 ≠ k))
          (by simp), el (le_refl _), er (le_refl _)]
      rcases hf with rfl | rfl
      · simp
      · cases l <;> simp
    · rw [if_neg (not_lt.2 h1.le), if_pos h1] at hf ⊢
      simp only [nodes_node, List.filter_append]
      rw [List.filter_cons_of_pos (p := fun x : Nat × Int × Int => decide (x.2.1 ≠ k))
          (decide_eq_true (show key ≠ k by omega)), ihr or_ hf,
        el (le_of_lt h1)]

theorem mem_nodes_spliceOut {k : Int} {s : Shape} (ho : s.Ordered) (hf : s.FewChildren k)
    {x : Nat × Int × Int} (hx : x ∈ (spliceOut k s).nodes) : x ∈ s.nodes := by
  rw [nodes_spliceOut ho hf] at hx
  exact (List.mem_filter.1 hx).1

theorem mem_keys_spliceOut {k : Int} {s : Shape} (ho : s.Ordered) (hf : s.FewChildren k)
    {y : Int} (hy : y ∈ (spliceOut k s).keys) : y ∈ s.keys := by
  obtain ⟨x, hx, rfl⟩ := List.mem_map.1 hy
  exact List.mem_map.2 ⟨x, mem_nodes_spliceOut ho hf hx, rfl⟩

theorem ordered_spliceOut {k : Int} {s : Shape} (ho : s.Ordered) (hf : s.FewChildren k) :
    (spliceOut k s).Ordered := by
  induction s with
  | nil => trivial
  | node l a key val r ihl ihr =>
    have ho' := ho
    obtain ⟨hl, hr, ol, or_⟩ := ho
    simp only [FewChildren] at hf
    simp only [spliceOut]
    rcases lt_trichotomy k key with h1 | h1 | h1
    · rw [if_pos h1] at hf ⊢
      exact ⟨fun y hy => hl y (mem_keys_spliceOut ol hf hy), hr, ihl ol hf, or_⟩
    · subst h1
      rw [if_neg (lt_irrefl _), if_neg (lt_irrefl _)] at hf ⊢
      rcases hf with rfl | rfl
      · simpa using or_
      · cases l with
        | nil => simpa using or_
        | node _ _ _ _ _ => simpa using ol
    · rw [if_neg (not_lt.2 h1.le), if_pos h1] at hf ⊢
      exact ⟨hl, fun y hy => hr y (mem_keys_spliceOut or_ hf hy), ol, ihr or_ hf⟩

theorem nodup_spliceOut {k : Int} {s : Shape} (ho : s.Ordered) (hf : s.FewChildren k)
    (hnd : s.addrs.Nodup) : (spliceOut k s).addrs.Nodup := by
  unfold addrs at hnd ⊢
  rw [nodes_spliceOut ho hf]
  exact hnd.sublist ((List.filter_sublist _).map _)

theorem find_root {k : Int} {l : Shape} {a : Nat} {key val : Int} {r : Shape} {v : Int}
    (hnd : (node l a key val r).addrs.Nodup)
    (hfind : (node l a key val r).find k = some (a, v)) : key = k := by
  obtain ⟨_, _, nal, nar, _⟩ := nodup_node hnd
  simp only [find] at hfind
  split_ifs at hfind with h1 h2
  · exact h1
  · exact absurd (mem_addrs_of_mem_nodes (find_mem hfind)) nal
  · exact absurd (mem_addrs_of_mem_nodes (find_mem hfind)) nar

theorem ptr_spliceOut_root (k : Int) (l : Shape) (a : Nat) (val : Int) (r : Shape)
    (hc : l.ptr = none ∨ r.ptr = none) :
    (spliceOut k (node l a k val r)).ptr = if l.ptr ≠ none then l.ptr else r.ptr := by
  simp only [spliceOut, lt_irrefl, if_false, gt_iff_lt]
  cases l with
  | nil => simp [ptr]
  | node ll la lk lv lr =>
    cases r with
    | nil => simp [ptr]
    | node rl ra rk rv rr => simp [ptr] at hc

theorem fewChildren_of_rep {h : Heap} {par : Ptr} {s : Shape} (hr : Rep h par s) {k : Int}
    {n : Nat} {v : Int} (hfind : s.find k = some (n, v)) {nd : AVLNode}
    (e : deref h n = some nd) (hc : nd.left_ = none ∨ nd.right_ = none) :
    s.FewChildren k := by
  induction s generalizing par with
  | nil => trivial
  | node l a key val r ihl ihr =>
    obtain ⟨⟨b, hb⟩, hl, hr'⟩ := hr
    simp only [find] at hfind
    simp only [FewChildren]
    split_ifs at hfind with h1 h2
    · cases hfind
      subst h1
      rw [hb] at e
      cases e
      rw [if_neg (lt_irrefl _), if_neg (lt_irrefl _)]
      rcases hc with hc | hc
      · exact Or.inl (ptr_eq_none hc)
      · exact Or.inr (ptr_eq_none hc)
    · rw [if_pos (by omega)]
      exact ihl hl hfind
    · rw [if_neg (by omega), if_pos (by omega)]
      exact ihr hr' hfind

theorem rep_child_mem {h : Heap} {par : Ptr} {s : Shape} (hr : Rep h par s) {n : Nat}
    (hn : n ∈ s.addrs) {nd : AVLNode} (e : deref h n = some nd) {ca : Nat}
    (hc : nd.left_ = some ca ∨ nd.right_ = some ca) : ca ∈ s.addrs := by
  induction s generalizing par with
  | nil => simp at hn
  | node l a key val r ihl ihr =>
    obtain ⟨⟨b, hb⟩, hl, hr'⟩ := hr
    simp only [addrs_node, List.mem_append, List.mem_cons] at hn ⊢
    rcases hn with hn | rfl | hn
    · exact Or.inl (ihl hl hn)
    · rw [hb] at e
      cases e
      rcases hc with hc | hc
      · exact Or.inl (addrs_of_ptr hc)
      · exact Or.inr (Or.inr (addrs_of_ptr hc))
    · exact Or.inr (Or.inr (ihr hr' hn))

theorem parent_of_found {h : Heap} {par : Ptr} {s : Shape} (hr : Rep h par s)
    (hnd : s.addrs.Nodup) {k : Int} {n : Nat} {v : Int} (hfind : s.find k = some (n, v))
    {nd : AVLNode} (e : deref h n = some nd) :
    (s.ptr = some n ∧ nd.parent_ = par) ∨
    (s.ptr ≠ some n ∧ ∃ pa pnd, nd.parent_ = some pa ∧ pa ∈ s.addrs ∧ pa ≠ n ∧
      deref h pa = some pnd ∧
      ((pnd.left_ = some n ∧ pnd.right_ ≠ some n) ∨
        (pnd.left_ ≠ some n ∧ pnd.right_ = some n))) := by
  induction s generalizing par with
  | nil => cases hfind
  | node l a key val r ihl ihr =>
    obtain ⟨⟨b, hb⟩, hl, hr'⟩ := hr
    obtain ⟨ndl, ndr, nal, nar, ndis⟩ := nodup_node hnd
    simp only [find] at hfind
    split_ifs at hfind with h1 h2
    · cases hfind
      rw [hb] at e
      cases e
      exact Or.inl ⟨rfl, rfl⟩
    · have hn : n ∈ l.addrs := mem_addrs_of_mem_nodes (find_mem hfind)
      have hna : a ≠ n := fun e' => nal (e' ▸ hn)
      refine Or.inr ⟨fun e' => hna (Option.some.inj e'), ?_⟩
      rcases ihl hl ndl hfind with ⟨h3, h4⟩ | ⟨_, pa, pnd, h3, h4, h5, h6, h7⟩
      · refine ⟨a, _, h4, by simp, hna, hb, Or.inl ⟨h3, ?_⟩⟩
        intro e'
        exact ndis n hn (addrs_of_ptr e')
      · exact ⟨pa, pnd, h3, by simp [h4], h5, h6, h7⟩
    · have hn : n ∈ r.addrs := mem_addrs_of_mem_nodes (find_mem hfind)
      have hna : a ≠ n := fun e' => nar (e' ▸ hn)
      refine Or.inr ⟨fun e' => hna (Option.some.inj e'), ?_⟩
      rcases ihr hr' ndr hfind with ⟨h3, h4⟩ | ⟨_, pa, pnd, h3, h4, h5, h6, h7⟩
      · refine ⟨a, _, h4, by simp, hna, hb, Or.inr ⟨?_, h3⟩⟩
        intro e'
        exact ndis n (addrs_of_ptr e') hn
      · exact ⟨pa, pnd, h3, by simp [h4], h5, h6, h7⟩

end Shape

namespace Shape

set_option maxHeartbeats 2000000 in
theorem rep_detach {h h' : Heap} {par : Ptr} {s : Shape} (hr : Rep h par s)
    (hnd : s.addrs.Nodup) (hpar : ∀ pa, par = some pa → pa ∉ s.addrs)
    {k : Int} {n : Nat} {v : Int} (hfind : s.find k = some (n, v)) {nd : AVLNode}
    (e : deref h n = some nd) (hc : nd.left_ = none ∨ nd.right_ = none)
    (hd : Detached h h' n nd.parent_ (if nd.left_ ≠ none then nd.left_ else nd.right_)) :
    Rep h' par (spliceOut k s) := by
  induction s generalizing par with
  | nil => cases hfind
  | node l a key val r ihl ihr =>
    obtain ⟨⟨b, hb⟩, hl, hr'⟩ := hr
    obtain ⟨ndl, ndr, nal, nar, ndis⟩ := nodup_node hnd
    have hd0 := hd
    obtain ⟨hlen, hdn, hdc, hdp, hdf⟩ := hd
    have hxpar : ∀ x, x ∈ (node l a key val r).addrs → some x ≠ par := by
      intro x hx e'
      exact hpar x e'.symm hx
    simp only [find] at hfind
    split_ifs at hfind with h1 h2
    · -- the root of this subtree is the node removed
      simp only [Option.some.injEq, Prod.mk.injEq] at hfind
      obtain ⟨han, hval⟩ := hfind
      subst han hval h1
      rw [hb] at e
      cases e
      simp only at hc hdc hdp hdf
      cases l with
      | nil =>
        simp only [ptr, ne_eq, not_true_eq_false, if_false] at hdc hdf
        cases r with
        | nil => simp only [spliceOut, lt_irrefl, if_false, gt_iff_lt]; trivial
        | node rl ra rk rv rr =>
          simp only [spliceOut, lt_irrefl, if_false, gt_iff_lt]
          obtain ⟨⟨b', hb'⟩, hrl, hrr⟩ := hr'
          obtain ⟨ndrl, ndrr, nrarl, nrarr, _⟩ := nodup_node ndr
          obtain ⟨cnd, e1, e2⟩ := hdc ra rfl
          rw [hb'] at e1
          cases e1
          have hfr : ∀ x, x ∈ rl.addrs ∨ x ∈ rr.addrs → deref h' x = deref h x := by
            intro x hx
            have hxr : x ∈ (node rl ra rk rv rr).addrs := by
              simp only [addrs_node, List.mem_append, List.mem_cons]
              tauto
            refine hdf x (fun e' => nar (e' ▸ hxr)) (hxpar x (by rw [addrs_node]; exact List.mem_append_right _ (List.mem_cons_of_mem _ hxr))) ?_
            intro e'
            have : x = ra := Option.some.inj e'
            subst this
            rcases hx with hx | hx
            · exact nrarl hx
            · exact nrarr hx
          exact ⟨⟨b', e2⟩, rep_frame hrl fun x hx => hfr x (Or.inl hx),
            rep_frame hrr fun x hx => hfr x (Or.inr hx)⟩
      | node ll la lk lv lr =>
        have hrn : r = nil := by
          rcases hc with hc | hc
          · cases hc
          · exact ptr_eq_none hc
        subst hrn
        simp only [ptr, ne_eq, not_false_eq_true, if_true, reduceCtorEq] at hdc hdf
        simp only [spliceOut, lt_irrefl, if_false, gt_iff_lt]
        obtain ⟨⟨b', hb'⟩, hll, hlr⟩ := hl
        obtain ⟨ndll, ndlr, nlall, nlalr, _⟩ := nodup_node ndl
        obtain ⟨cnd, e1, e2⟩ := hdc la rfl
        rw [hb'] at e1
        cases e1
        have hfr : ∀ x, x ∈ ll.addrs ∨ x ∈ lr.addrs → deref h' x = deref h x := by
          intro x hx
          have hxl : x ∈ (node ll la lk lv lr).addrs := by
            simp only [addrs_node, List.mem_append, List.mem_cons]
            tauto
          refine hdf x (fun e' => nal (e' ▸ hxl)) (hxpar x (by rw [addrs_node]; exact List.mem_append_left _ hxl)) ?_
          intro e'
          have : x = la := Option.some.inj e'
          subst this
          rcases hx with hx | hx
          · exact nlall hx
          · exact nlalr hx
        exact ⟨⟨b', e2⟩, rep_frame hll fun x hx => hfr x (Or.inl hx),
          rep_frame hlr fun x hx => hfr x (Or.inr hx)⟩
    · -- the node removed lies in the left subtree
      have hk : k < key := by omega
      have hn : n ∈ l.addrs := mem_addrs_of_mem_nodes (find_mem hfind)
      have hna : a ≠ n := fun e' => nal (e' ▸ hn)
      have IH := ihl hl ndl (fun pa hpa => by cases hpa; exact nal) hfind
      have hcl : ∀ ca, (if nd.left_ ≠ none then nd.left_ else nd.right_) = some ca →
          ca ∈ l.addrs := by
        intro ca hca
        refine rep_child_mem hl hn e ?_
        split_ifs at hca
        · exact Or.inl hca
        · exact Or.inr hca
      have hpl := parent_of_found hl ndl hfind e
      simp only [spliceOut]
      rw [if_pos hk]
      refine ⟨⟨b, ?_⟩, IH, rep_frame hr' ?_⟩
      · obtain ⟨la, hla⟩ := find_isSome_ptr hfind
        obtain ⟨ll, lk, lv, lr, rfl⟩ := ptr_eq_some hla
        rcases hpl with ⟨h3, h4⟩ | ⟨h3, pa, pnd, h4, h5, _⟩
        · cases h3
          have hlk := find_root ndl hfind
          subst hlk
          obtain ⟨pnd, e1, e2⟩ := hdp a h4
          rw [hb] at e1
          cases e1
          have hc' : ll.ptr = none ∨ lr.ptr = none := by
            obtain ⟨⟨bl, hbl⟩, _, _⟩ := hl
            rw [hbl] at e
            cases e
            exact hc
          have hcval : (if nd.left_ ≠ none then nd.left_ else nd.right_)
              = if ll.ptr ≠ none then ll.ptr else lr.ptr := by
            obtain ⟨⟨bl, hbl⟩, _, _⟩ := hl
            rw [hbl] at e
            cases e
            rfl
          rw [e2, ptr_spliceOut_root _ _ _ _ _ hc', hcval]
          have hrn : r.ptr ≠ some n := fun e' => ndis n hn (addrs_of_ptr e')
          show some (AVLNode.mk key val par (if some n = some n then _ else _)
            (if r.ptr = some n then _ else r.ptr) b) = _
          rw [if_neg hrn, if_pos rfl]
        · have hlk : lk ≠ k := by
            intro hlk
            subst hlk
            simp [find] at hfind
            exact h3 (by rw [hfind.1]; rfl)
          rw [ptr_spliceOut_ne hlk]
          rw [hdf a hna (fun e' => nal ((Option.some.inj (e'.trans h4)) ▸ h5))
            (fun e' => nal (hcl a e'.symm))]
          exact hb
      · intro x hx
        refine hdf x (fun e' => ndis n hn (e' ▸ hx)) ?_ ?_
        · intro e'
          rcases hpl with ⟨_, h4⟩ | ⟨_, pa, pnd, h4, h5, _⟩
          · have : x = a := Option.some.inj (e'.trans h4)
            exact nar (this ▸ hx)
          · have : x = pa := Option.some.inj (e'.trans h4)
            exact ndis pa h5 (this ▸ hx)
        · intro e'
          exact ndis x (hcl x e'.symm) hx
    · -- the node removed lies in the right subtree
      have hk : key < k := by omega
      have hn : n ∈ r.addrs := mem_addrs_of_mem_nodes (find_mem hfind)
      have hna : a ≠ n := fun e' => nar (e' ▸ hn)
      have IH := ihr hr' ndr (fun pa hpa => by cases hpa; exact nar) hfind
      have hcl : ∀ ca, (if nd.left_ ≠ none then nd.left_ else nd.right_) = some ca →
          ca ∈ r.addrs := by
        intro ca hca
        refine rep_child_mem hr' hn e ?_
        split_ifs at hca
        · exact Or.inl hca
        · exact Or.inr hca
      have hpl := parent_of_found hr' ndr hfind e
      simp only [spliceOut]
      rw [if_neg (not_lt.2 hk.le), if_pos (show k > key from hk)]
      refine ⟨⟨b, ?_⟩, rep_frame hl ?_, IH⟩
      · obtain ⟨ra, hra⟩ := find_isSome_ptr hfind
        obtain ⟨rl, rk, rv, rr, rfl⟩ := ptr_eq_some hra
        rcases hpl with ⟨h3, h4⟩ | ⟨h3, pa, pnd, h4, h5, _⟩
        · cases h3
          have hrk := find_root ndr hfind
          subst hrk
          obtain ⟨pnd, e1, e2⟩ := hdp a h4
          rw [hb] at e1
          cases e1
          have hc' : rl.ptr = none ∨ rr.ptr = none := by
            obtain ⟨⟨bl, hbl⟩, _, _⟩ := hr'
            rw [hbl] at e
            cases e
            exact hc
          have hcval : (if nd.left_ ≠ none then nd.left_ else nd.right_)
              = if rl.ptr ≠ none then rl.ptr else rr.ptr := by
            obtain ⟨⟨bl, hbl⟩, _, _⟩ := hr'
            rw [hbl] at e
            cases e
            rfl
          rw [e2, ptr_spliceOut_root _ _ _ _ _ hc', hcval]
          have hln : l.ptr ≠ some n := fun e' => ndis n (addrs_of_ptr e') hn
          show some (AVLNode.mk key val par (if l.ptr = some n then _ else l.ptr)
            (if some n = some n then _ else _) b) = _
          rw [if_neg hln, if_pos rfl]
        · have hrk : rk ≠ k := by
            intro hrk
            subst hrk
            simp [find] at hfind
            exact h3 (by rw [hfind.1]; rfl)
          rw [ptr_spliceOut_ne hrk]
          rw [hdf a hna (fun e' => nar ((Option.some.inj (e'.trans h4)) ▸ h5))
            (fun e' => nar (hcl a e'.symm))]
          exact hb
      · intro x hx
        refine hdf x (fun e' => ndis x hx (e' ▸ hn)) ?_ ?_
        · intro e'
          rcases hpl with ⟨_, h4⟩ | ⟨_, pa, pnd, h4, h5, _⟩
          · have : x = a := Option.some.inj (e'.trans h4)
            exact nal (this ▸ hx)
          · have : x = pa := Option.some.inj (e'.trans h4)
            exact ndis x hx (this ▸ h5)
        · intro e'
          exact ndis x hx (hcl x e'.symm)

end Shape

theorem deref_free (h : Heap) (a c : Nat) :
    deref (free h a) c = if a = c then none else deref h c := by
  by_cases hac : a = c
  · subst hac; rw [if_pos rfl]; exact deref_free_self h a
  · rw [if_neg hac]; exact deref_free_ne h hac

namespace Shape

theorem child_fresh {h : Heap} {par : Ptr} {s : Shape} (hr : Rep h par s)
    (hnd : s.addrs.Nodup) (hpar : ∀ pa, par = some pa → pa ∉ s.addrs) {n : Nat}
    (hn : n ∈ s.addrs) {nd : AVLNode} (e : deref h n = some nd) {ca : Nat}
    (hc : nd.left_ = some ca ∨ nd.right_ = some ca) :
    ca ≠ n ∧ ∀ pa, nd.parent_ = some pa → ca ≠ pa := by
  induction s generalizing par with
  | nil => simp at hn
  | node l a key val r ihl ihr =>
    obtain ⟨⟨b, hb⟩, hl, hr'⟩ := hr
    obtain ⟨ndl, ndr, nal, nar, ndis⟩ := nodup_node hnd
    simp only [addrs_node, List.mem_append, List.mem_cons] at hn
    rcases hn with hn | rfl | hn
    · exact ihl hl ndl (fun pa hpa => by cases hpa; exact nal) hn
    · rw [hb] at e
      cases e
      have hca : ca ∈ l.addrs ∨ ca ∈ r.addrs := by
        rcases hc with hc | hc
        · exact Or.inl (addrs_of_ptr hc)
        · exact Or.inr (addrs_of_ptr hc)
      refine ⟨?_, ?_⟩
      · rintro rfl
        rcases hca with hca | hca
        · exact nal hca
        · exact nar hca
      · rintro pa hpa rfl
        refine hpar ca hpa ?_
        simp only [addrs_node, List.mem_append, List.mem_cons]
        tauto
    · exact ihr hr' ndr (fun pa hpa => by cases hpa; exact nar) hn

end Shape

theorem remove_detached {t : TreeState} {s : Shape} (hm : Models t s) {k : Int} {n : Nat}
    {v : Int} (hfind : s.find k = some (n, v)) {nd : AVLNode} (e : deref t.heap n = some nd)
    (hc : nd.left_ = none ∨ nd.right_ = none) :
    ∃ t', BinarySearchTree.remove t k = some t' ∧
      Detached t.heap t'.heap n nd.parent_ (if nd.left_ ≠ none then nd.left_ else nd.right_) ∧
      t'.root_ = (if nd.parent_ = none then (if nd.left_ ≠ none then nd.left_ else nd.right_)
        else t.root_) := by
  have hif : BinarySearchTree.internalFind t k = some (some n) := by
    rw [internalFind_models hm, hfind]; rfl
  have hn : n ∈ s.addrs := Shape.mem_addrs_of_mem_nodes (Shape.find_mem hfind)
  have hpar := Shape.parent_of_found hm.2.1 hm.2.2 hfind e
  have hchild : ∀ ca, nd.left_ = some ca ∨ nd.right_ = some ca →
      ∃ cnd, deref t.heap ca = some cnd ∧ ca ≠ n ∧ ∀ pa, nd.parent_ = some pa → ca ≠ pa := by
    intro ca hca
    obtain ⟨cnd, hcnd⟩ := Shape.rep_addr_live hm.2.1 (Shape.rep_child_mem hm.2.1 hn e hca)
    obtain ⟨h1, h2⟩ := Shape.child_fresh hm.2.1 hm.2.2 (fun pa hpa => by cases hpa) hn e hca
    exact ⟨cnd, hcnd, h1, h2⟩
  simp only [BinarySearchTree.remove, hif, e]
  by_cases hleaf : nd.left_ = none ∧ nd.right_ = none
  · -- leaf
    rw [if_pos hleaf]
    obtain ⟨hl0, hr0⟩ := hleaf
    rcases hpar with ⟨_, hp⟩ | ⟨_, pa, pnd, hp, _, hpn, hdp, hslot⟩
    · refine ⟨_, by rw [hp]; rfl, ⟨length_free _ _, deref_free_self _ _, ?_, ?_, ?_⟩, ?_⟩
      · intro ca hca; simp [hl0, hr0] at hca
      · intro pa hpa; rw [hp] at hpa; cases hpa
      · intro x hx _ _; exact deref_free_ne _ (Ne.symm hx)
      · simp [hp, hl0, hr0]
    · have hstep : (if pnd.left_ = some n then setLeft t.heap pa none
          else setRight t.heap pa none) = some (store t.heap pa
            { pnd with left_ := if pnd.left_ = some n then none else pnd.left_,
                       right_ := if pnd.right_ = some n then none else pnd.right_ }) := by
        rcases hslot with ⟨h1, h2⟩ | ⟨h1, h2⟩
        · simp [h1, h2, setLeft, hdp]
        · simp [h1, h2, setRight, hdp]
      refine ⟨_, by rw [hp]; simp only [BinarySearchTree.removeLeaf, getLeft, hdp,
        Option.map_some', Option.some_bind, hstep]; rfl, ⟨?_, ?_, ?_, ?_, ?_⟩, ?_⟩
      · simp [length_free, length_store]
      · exact deref_free_self _ _
      · intro ca hca; simp [hl0, hr0] at hca
      · intro pa' hpa'
        rw [hp] at hpa'
        cases hpa'
        refine ⟨pnd, hdp, ?_⟩
        rw [deref_free_ne _ (Ne.symm hpn), deref_store_self hdp]
        simp [hl0, hr0]
      · intro x hx hxp _
        rw [deref_free_ne _ (Ne.symm hx), deref_store_ne]
        intro e'
        exact hxp (by rw [hp, e'])
      · simp [hp]
  · -- one child
    rw [if_neg hleaf]
    have hone : (nd.left_ = none ∧ nd.right_ ≠ none) ∨ (nd.left_ ≠ none ∧ nd.right_ = none) := by
      rcases hc with h1 | h1
      · exact Or.inl ⟨h1, fun h2 => hleaf ⟨h1, h2⟩⟩
      · exact Or.inr ⟨fun h2 => hleaf ⟨h2, h1⟩, h1⟩
    rw [if_pos hone]
    obtain ⟨ca, hca, hcside⟩ : ∃ ca, (if nd.left_ ≠ none then nd.left_ else nd.right_) = some ca ∧
        (nd.left_ = some ca ∨ nd.right_ = some ca) := by
      rcases hone with ⟨h1, h2⟩ | ⟨h1, h2⟩
      · obtain ⟨ca, hca⟩ := Option.ne_none_iff_exists'.1 h2
        exact ⟨ca, by simp [h1, hca], Or.inr hca⟩
      · obtain ⟨ca, hca⟩ := Option.ne_none_iff_exists'.1 h1
        exact ⟨ca, by simp [hca], Or.inl hca⟩
    obtain ⟨cnd, hdc, hcn, hcp⟩ := hchild ca hcside
    rw [hca]
    rcases hpar with ⟨_, hp⟩ | ⟨_, pa, pnd, hp, _, hpn, hdp, hslot⟩
    · rw [hp]
      refine ⟨_, by simp only [BinarySearchTree.removeOneChild, hca, setParentAt, setParent, hdc,
        Option.map_some']; rfl, ⟨?_, ?_, ?_, ?_, ?_⟩, ?_⟩
      · simp [length_free, length_store]
      · exact deref_free_self _ _
      · intro ca' hca'
        cases hca'
        refine ⟨cnd, hdc, ?_⟩
        rw [deref_free_ne _ (Ne.symm hcn), deref_store_self hdc]
      · intro pa hpa; cases hpa
      · intro x hx _ hxc
        rw [deref_free_ne _ (Ne.symm hx), deref_store_ne]
        intro e'
        exact hxc (by rw [e'])
      · simp
    · have hcpa : ca ≠ pa := hcp pa hp
      have hd1 : deref (free t.heap n) pa = some pnd := by
        rw [deref_free_ne _ (Ne.symm hpn)]; exact hdp
      have hstep : (if pnd.right_ = some n then setRight (free t.heap n) pa (some ca)
          else setLeft (free t.heap n) pa (some ca)) = some (store (free t.heap n) pa
            { pnd with left_ := if pnd.left_ = some n then some ca else pnd.left_,
                       right_ := if pnd.right_ = some n then some ca else pnd.right_ }) := by
        rcases hslot with ⟨h1, h2⟩ | ⟨h1, h2⟩
        · simp [h1, h2, setLeft, hd1]
        · simp [h1, h2, setRight, hd1]
      have hd2 : deref (store (free t.heap n) pa
            { pnd with left_ := if pnd.left_ = some n then some ca else pnd.left_,
                       right_ := if pnd.right_ = some n then some ca else pnd.right_ }) ca
          = some cnd := by
        rw [deref_store_ne _ _ (Ne.symm hcpa), deref_free_ne _ (Ne.symm hcn)]; exact hdc
      rw [hp]
      refine ⟨_, by simp only [BinarySearchTree.removeOneChild, hca, getRight, hdp,
        Option.map_some', Option.some_bind, hstep, setParentAt, setParent, hd2]; rfl,
        ⟨?_, ?_, ?_, ?_, ?_⟩, ?_⟩
      · simp [length_free, length_store]
      · rw [deref_store_ne _ _ hcn, deref_store_ne _ _ hpn]; exact deref_free_self _ _
      · intro ca' hca'
        cases hca'
        exact ⟨cnd, hdc, deref_store_self hd2 _⟩
      · intro pa' hpa'
        cases hpa'
        refine ⟨pnd, hdp, ?_⟩
        rw [deref_store_ne _ _ hcpa]
        exact deref_store_self hd1 _
      · intro x hx hxp hxc
        rw [deref_store_ne, deref_store_ne, deref_free_ne _ (Ne.symm hx)]
        · intro e'; exact hxp (by rw [e'])
        · intro e'; exact hxc (by rw [e'])
      · simp

/-- C14: on a well-formed BST, for a key `k` held by a node `n` with at most one child,
`BinarySearchTree::remove(k)` returns; node `n` is released; the result is again a well-formed
tree satisfying the order invariant, whose shape is the old one with `n` replaced by its only
child (or by nothing); the root pointer becomes that child when `n` was the root and is
unchanged otherwise; the child's parent pointer is `n`'s former parent; and the in-order
sequence is the previous one with `k` deleted. -/
theorem C14_remove_leaf_or_one_child (t : TreeState) (s : Shape) (k : Int) (n : Nat)
    (nd : AVLNode) (hm : Models t s) (ho : s.Ordered) (hn : n ∈ s.addrs)
    (e : deref t.heap n = some nd) (hk : nd.key = k)
    (hc : nd.left_ = none ∨ nd.right_ = none) :
    ∃ t', BinarySearchTree.remove t k = some t' ∧
      Models t' (s.spliceOut k) ∧ (s.spliceOut k).Ordered ∧
      deref t'.heap n = none ∧
      t'.root_ = (if nd.parent_ = none then (if nd.left_ ≠ none then nd.left_ else nd.right_)
        else t.root_) ∧
      (∀ ca, (if nd.left_ ≠ none then nd.left_ else nd.right_) = some ca →
        ∃ cd, deref t'.heap ca = some cd ∧ cd.parent_ = nd.parent_) ∧
      inorder t = some s.toList ∧
      inorder t' = some (s.toList.filter fun p => decide (p.1 ≠ k)) := by
  -- the node found by the search is `n`
  obtain ⟨⟨n', k', v⟩, hmem, hn'⟩ := List.mem_map.1 hn
  simp only at hn'
  subst hn'
  obtain ⟨nd', e', hk', _⟩ := Shape.rep_nodes hm.2.1 hmem
  rw [e] at e'
  cases e'
  have hkk : k' = k := hk'.symm.trans hk
  subst hkk
  have hfind := Shape.find_of_mem ho hmem
  have hfew := Shape.fewChildren_of_rep hm.2.1 hfind e hc
  obtain ⟨t', hrem, hdet, hroot⟩ := remove_detached hm hfind e hc
  have hrep := Shape.rep_detach hm.2.1 hm.2.2 (fun pa hpa => by cases hpa) hfind e hc hdet
  have hnd' := Shape.nodup_spliceOut ho hfew hm.2.2
  have hroot' : t'.root_ = (s.spliceOut k').ptr := by
    rw [hroot]
    rcases Shape.parent_of_found hm.2.1 hm.2.2 hfind e with ⟨h1, h2⟩ | ⟨h1, pa, _, h2, _⟩
    · obtain ⟨l, key, val, r, rfl⟩ := Shape.ptr_eq_some h1
      have hkey := Shape.find_root hm.2.2 hfind
      subst hkey
      obtain ⟨⟨b, hb⟩, _, _⟩ := hm.2.1
      rw [e] at hb
      cases hb
      rw [if_pos h2, Shape.ptr_spliceOut_root _ _ _ _ _ hc]
    · rw [h2, if_neg (by simp), hm.1]
      obtain ⟨a, ha⟩ := Shape.find_isSome_ptr hfind
      obtain ⟨l, key, val, r, rfl⟩ := Shape.ptr_eq_some ha
      have hkey : key ≠ k' := by
        intro hkey
        subst hkey
        simp [Shape.find] at hfind
        exact h1 (by rw [hfind.1]; rfl)
      rw [Shape.ptr_spliceOut_ne hkey]
      rfl
  have hm' : Models t' (s.spliceOut k') := ⟨hroot', hrep, hnd'⟩
  refine ⟨t', hrem, hm', Shape.ordered_spliceOut ho hfew, hdet.2.1, hroot, ?_,
    inorder_models hm, ?_⟩
  · intro ca hca
    obtain ⟨cnd, _, h2⟩ := hdet.2.2.1 ca hca
    exact ⟨_, h2, rfl⟩
  · rw [inorder_models hm']
    simp only [Shape.toList, Shape.nodes_spliceOut ho hfew, List.filter_map]
    rfl

/-- Witness of C14: removing the leaf holding key 1 from the tree holding keys 2, 1, 3. -/
theorem C14_remove_leaf_or_one_child_witness :
    ∃ t', BinarySearchTree.remove exampleTree 1 = some t' ∧
      Models t' (exampleShape.spliceOut 1) ∧ (exampleShape.spliceOut 1).Ordered ∧
      deref t'.heap 1 = none ∧
      t'.root_ = (if (AVLNode.mk 1 10 (some 0) none none 1).parent_ = none then
          (if (AVLNode.mk 1 10 (some 0) none none 1).left_ ≠ none then
            (AVLNode.mk 1 10 (some 0) none none 1).left_
           else (AVLNode.mk 1 10 (some 0) none none 1).right_)
        else exampleTree.root_) ∧
      (∀ ca, (if (AVLNode.mk 1 10 (some 0) none none 1).left_ ≠ none then
            (AVLNode.mk 1 10 (some 0) none none 1).left_
           else (AVLNode.mk 1 10 (some 0) none none 1).right_) = some ca →
        ∃ cd, deref t'.heap ca = some cd ∧
          cd.parent_ = (AVLNode.mk 1 10 (some 0) none none 1).parent_) ∧
      inorder exampleTree = some exampleShape.toList ∧
      inorder t' = some (exampleShape.toList.filter fun p => decide (p.1 ≠ 1)) :=
  C14_remove_leaf_or_one_child exampleTree exampleShape 1 1 ⟨1, 10, some 0, none, none, 1⟩
    ⟨rfl, ⟨⟨2, rfl⟩, ⟨⟨1, rfl⟩, trivial, trivial⟩, ⟨⟨1, rfl⟩, trivial, trivial⟩⟩, by decide⟩
    (by decide) (by decide) rfl rfl (Or.inl rfl)

/-! ## Predecessor -/

namespace Shape

theorem rightmost_crep {h : Heap} {s : Shape} (hr : CRep h s) {a : Nat} (hp : s.ptr = some a)
    {fuel : Nat} (hf : s.height ≤ fuel) :
    ∃ x k v nd, BinarySearchTree.rightmost h fuel a = some x ∧ (x, k, v) ∈ s.nodes ∧
      deref h x = some nd ∧ nd.key = k ∧ nd.right_ = none ∧
      (s.Ordered → ∀ y ∈ s.keys, y ≤ k) := by
  induction s generalizing a fuel with
  | nil => cases hp
  | node l a0 key val r ihl ihr =>
    cases hp
    obtain ⟨⟨nd, hb, hk, hv, hnl, hnr⟩, hl, hr'⟩ := hr
    cases fuel with
    | zero => simp [height] at hf
    | succ fuel =>
      simp only [height] at hf
      cases hrp : r.ptr with
      | none =>
        have := ptr_eq_none hrp
        subst this
        refine ⟨a0, key, val, nd, ?_, by simp, hb, hk, by rw [hnr]; rfl, ?_⟩
        · simp only [BinarySearchTree.rightmost, hb, hnr, ptr]
        · rintro ⟨hlt, _, _, _⟩ y hy
          simp only [keys_node, keys_nil, List.mem_append, List.mem_cons, List.mem_nil_iff,
            or_false] at hy
          rcases hy with hy | rfl
          · exact le_of_lt (hlt y hy)
          · exact le_refl _
      | some ra =>
        obtain ⟨x, k, v, xd, e1, e2, e3, e4, e5, e6⟩ :=
          ihr hr' hrp (show r.height ≤ fuel by omega)
        refine ⟨x, k, v, xd, ?_, by simp [e2], e3, e4, e5, ?_⟩
        · simp only [BinarySearchTree.rightmost, hb, hnr, hrp, e1]
        · rintro ⟨hlt, hgt, _, or_⟩ y hy
          have hkx : key < k := hgt k (mem_keys_of_mem_nodes e2)
          simp only [keys_node, List.mem_append, List.mem_cons] at hy
          rcases hy with hy | rfl | hy
          · exact le_of_lt (lt_trans (hlt y hy) hkx)
          · exact le_of_lt hkx
          · exact e6 or_ y hy

end Shape

/-- C23: for a node `n` whose subtree is laid out in the store and satisfies the BST order
invariant, `predecessor(n)` returns null when `n` has no left child; otherwise it returns a
node of the subtree that has no right child and whose key is smaller than `n`'s key and at
least as large as every key of the subtree that is smaller than `n`'s key (the maximum of the
left subtree). -/
theorem C23_predecessor_is_max_of_left (h : Heap) (s : Shape) (n : Nat)
    (hp : s.ptr = some n) (hrep : s.CRep h) (hnd : s.addrs.Nodup) (ho : s.Ordered) :
    ∃ nd, deref h n = some nd ∧
      (nd.left_ = none → BinarySearchTree.predecessor h n = some none) ∧
      (∀ c, nd.left_ = some c →
        ∃ p pd, BinarySearchTree.predecessor h n = some (some p) ∧ p ∈ s.addrs ∧
          deref h p = some pd ∧ pd.right_ = none ∧ pd.key ∈ s.keys ∧ pd.key < nd.key ∧
          ∀ y ∈ s.keys, y < nd.key → y ≤ pd.key) := by
  obtain ⟨l, k, v, r, rfl⟩ := Shape.ptr_eq_some hp
  have hH := Shape.crep_height_le hrep hnd
  simp only [Shape.height] at hH
  obtain ⟨⟨nd, hb, hk, hv, hnl, hnr⟩, hl, hr'⟩ := hrep
  obtain ⟨hlt, hgt, ol, or_⟩ := ho
  refine ⟨nd, hb, ?_, ?_⟩
  · intro hnone
    simp only [BinarySearchTree.predecessor, hb, hnone]
  · intro c hc
    have hlp : l.ptr = some c := hnl.symm.trans hc
    obtain ⟨x, kx, vx, xd, e1, e2, e3, e4, e5, e6⟩ :=
      Shape.rightmost_crep hl hlp (show l.height ≤ h.length + 1 by omega)
    have hxk : kx ∈ l.keys := Shape.mem_keys_of_mem_nodes e2
    refine ⟨x, xd, ?_, ?_, e3, e5, ?_, ?_, ?_⟩
    · simp only [BinarySearchTree.predecessor, hb, hc, e1, Option.map_some']
    · simp [Shape.mem_addrs_of_mem_nodes e2]
    · rw [e4]; simp [hxk]
    · rw [e4, hk]; exact hlt kx hxk
    · intro y hy hyk
      rw [e4]
      simp only [Shape.keys_node, List.mem_append, List.mem_cons] at hy
      rcases hy with hy | rfl | hy
      · exact e6 ol y hy
      · rw [hk] at hyk; exact absurd hyk (lt_irrefl _)
      · rw [hk] at hyk; exact absurd (hgt y hy) (not_lt.2 hyk.le)

/-- Witness of C23: the predecessor of the root of the tree 4(2(1, 3), 5). -/
theorem C23_predecessor_is_max_of_left_witness :
    ∃ nd, deref rotationHeap 0 = some nd ∧
      (nd.left_ = none → BinarySearchTree.predecessor rotationHeap 0 = some none) ∧
      (∀ c, nd.left_ = some c →
        ∃ p pd, BinarySearchTree.predecessor rotationHeap 0 = some (some p) ∧
          p ∈ rotationShape.addrs ∧
          deref rotationHeap p = some pd ∧ pd.right_ = none ∧ pd.key ∈ rotationShape.keys ∧
          pd.key < nd.key ∧
          ∀ y ∈ rotationShape.keys, y < nd.key → y ≤ pd.key) :=
  C23_predecessor_is_max_of_left rotationHeap rotationShape 0 rfl
    ⟨⟨_, rfl, rfl, rfl, rfl, rfl⟩,
      ⟨⟨_, rfl, rfl, rfl, rfl, rfl⟩, ⟨⟨_, rfl, rfl, rfl, rfl, rfl⟩, trivial, trivial⟩,
        ⟨⟨_, rfl, rfl, rfl, rfl, rfl⟩, trivial, trivial⟩⟩,
      ⟨⟨_, rfl, rfl, rfl, rfl, rfl⟩, trivial, trivial⟩⟩ (by decide) (by decide)

/-! ## Refinement of plain BST insertion -/

theorem descendToInsert_eq (h : Heap) (k : Int) (fuel n : Nat) :
    PlainBST.descendToInsert h k fuel n = AVLTree.insertLoop h k fuel n := by
  induction fuel generalizing n with
  | zero => rfl
  | succ fuel ih =>
    simp only [PlainBST.descendToInsert, AVLTree.insertLoop]
    cases deref h n with
    | none => rfl
    | some nd =>
      simp only
      rcases lt_trichotomy k nd.key with h1 | h1 | h1
      · rw [if_neg (ne_of_lt h1), if_pos h1, if_pos h1]
        cases nd.left_ with
        | none => rfl
        | some l => exact ih l
      · rw [if_pos h1, if_neg (by omega), if_neg (by omega), if_pos h1]
      · rw [if_neg (ne_of_gt h1), if_neg (not_lt.2 h1.le), if_neg (not_lt.2 h1.le), if_pos h1]
        cases nd.right_ with
        | none => rfl
        | some r => exact ih r

theorem updateBalances_sameShape {fuel : Nat} {h : Heap} {p : Ptr} {h' : Heap}
    (e : AVLTree.updateBalances fuel h p = some h') : SameShape h h' := by
  induction fuel generalizing h p with
  | zero =>
    cases p with
    | none => cases e; exact SameShape.refl _
    | some a => cases e
  | succ fuel ih =>
    cases p with
    | none => cases e; exact SameShape.refl _
    | some a =>
      simp only [AVLTree.updateBalances] at e
      cases hd : deref h a with
      | none => rw [hd] at e; cases e
      | some nd =>
        rw [hd] at e
        simp only at e
        split at e
        · exact (sameShape_setBalance hd _).trans (ih e)
        · cases e

theorem rebalanceTree_none_sameShape {h : Heap} {newNode root : Ptr} {h' : Heap}
    (e : AVLTree.rebalanceTree h none newNode root = some h') : SameShape h h' := by
  simp only [AVLTree.rebalanceTree] at e
  split at e
  · rename_i nnd rnd r hn hr
    simp only [setBalance, derefPtr] at e hr
    rw [hr] at e
    simp only [Option.map_some', Option.some_bind] at e
    exact (sameShape_setBalance hr _).trans (updateBalances_sameShape e)
  · cases e

theorem insert_attach_steps {t : TreeState} {s : Shape} (hm : Models t s) {k : Int} (v : Int)
    (hfind : s.find k = none) {a : Nat} (hp : s.ptr = some a) :
    ∃ p b nd h3 rnd xnd h5,
      AVLTree.insertLoop t.heap k (t.heap.length + 1) a = some (.attach p b) ∧
      deref t.heap p = some nd ∧ p ∈ s.addrs ∧
      Shape.Rep (attachHeap t.heap k v p b nd) none (s.ins t.heap.length k v) ∧
      AVLTree.updateBalances ((attachHeap t.heap k v p b nd).length + 1)
        (attachHeap t.heap k v p b nd) (some p) = some h3 ∧
      deref h3 a = some rnd ∧ deref h3 t.heap.length = some xnd ∧
      AVLTree.updateBalances (h3.length + 1)
        (store h3 a { rnd with balance_ := if xnd.key < rnd.key then -1 else 1 })
        (some t.heap.length) = some h5 ∧
      AVLTree.insert t (k, v) = some { root_ := t.root_, heap := h5 } := by
  obtain ⟨hroot, hrep, hnd⟩ := hm
  have hfuel : s.height ≤ t.heap.length + 1 :=
    le_trans (Shape.height_le_heap hrep hnd) (Nat.le_succ _)
  obtain ⟨p, b, nd, e1, e2, e3, e4⟩ := Shape.insertLoop_attach v hrep hp hfuel hnd hfind
  have hh2 : attachHeap t.heap k v p b nd = store (t.heap ++ [some (AVLNode.new k v (some p))]) p
      (if b then { nd with left_ := some t.heap.length }
       else { nd with right_ := some t.heap.length }) := rfl
  have hplt : p < t.heap.length := deref_lt e2
  have hd1 : deref (t.heap ++ [some (AVLNode.new k v (some p))]) p = some nd := by
    rw [deref_append_lt _ _ hplt]; exact e2
  have hperm := Shape.addrs_ins_perm (x := t.heap.length) (v := v) hfind
  have hxs : t.heap.length ∉ s.addrs := fun hmem => lt_irrefl _ (Shape.rep_addr_lt hrep hmem)
  have hnd' : (s.ins t.heap.length k v).addrs.Nodup :=
    hperm.nodup_iff.2 (List.nodup_cons.2 ⟨hxs, hnd⟩)
  have hps' : p ∈ (s.ins t.heap.length k v).addrs := hperm.mem_iff.2 (List.mem_cons_of_mem _ e3)
  have hxs' : t.heap.length ∈ (s.ins t.heap.length k v).addrs :=
    hperm.mem_iff.2 (List.mem_cons_self _ _)
  have has' : a ∈ (s.ins t.heap.length k v).addrs :=
    hperm.mem_iff.2 (List.mem_cons_of_mem _ (Shape.addrs_of_ptr hp))
  have hd2x : deref (attachHeap t.heap k v p b nd) t.heap.length
      = some (AVLNode.new k v (some p)) := by
    rw [hh2, deref_store_ne _ _ (by omega), deref_append_length]
  obtain ⟨n1, hn1, hu1⟩ := rep_upOK e4 hnd' hps'
  obtain ⟨h3, e5, hs3⟩ := updateBalances_ok hu1 hn1
  have hr3 := Shape.rep_sameShape hs3 e4
  obtain ⟨xnd, hx3⟩ := Shape.rep_addr_live hr3 hxs'
  obtain ⟨rnd, ha3⟩ := Shape.rep_addr_live hr3 has'
  have hs4 := sameShape_setBalance ha3 (if xnd.key < rnd.key then -1 else 1)
  have hr4 := Shape.rep_sameShape hs4 hr3
  obtain ⟨n2, hn2, hu2⟩ := rep_upOK hr4 hnd' hxs'
  obtain ⟨h5, e6, hs5⟩ := updateBalances_ok hu2 hn2
  have hlen3 : h3.length = (attachHeap t.heap k v p b nd).length := hs3.1
  rw [hs4.1] at e6
  refine ⟨p, b, nd, h3, rnd, xnd, h5, e1, e2, e3, e4, e5, ha3, hx3, e6, ?_⟩
  have hset : (if (!b) = true then
        setRight (t.heap ++ [some (AVLNode.new k v (some p))]) p (some t.heap.length)
      else setLeft (t.heap ++ [some (AVLNode.new k v (some p))]) p (some t.heap.length))
      = some (attachHeap t.heap k v p b nd) := by
    cases b <;> simp [setRight, setLeft, hd1, hh2]
  rw [hp] at hroot
  simp only [AVLTree.insert, hroot, e1, alloc]
  rw [hset]
  simp only [Option.some_bind, getParent, hd2x, Option.map_some', AVLNode.new]
  have e5' : AVLTree.updateBalances ((attachHeap t.heap k v p b nd).length + 1)
      (attachHeap t.heap k v p b nd) (some p) = some h3 := e5
  rw [e5']
  simp only [Option.some_bind, AVLTree.rebalanceTree, derefPtr, hx3, ha3, setBalance,
    Option.map_some', length_store]
  rw [e6]
  rfl

theorem plain_insert_reach {t : TreeState} {s : Shape} (hR : Reach t s) (k v : Int) :
    ∃ t', PlainBST.insert t (k, v) = some t' ∧ Reach t' (s.ins t.heap.length k v) := by
  obtain ⟨hm, ho, hc⟩ := hR
  have ho' := Shape.ordered_ins t.heap.length k v s ho
  obtain ⟨hroot, hrep, hnd⟩ := hm
  have hfuel : s.height ≤ t.heap.length + 1 :=
    le_trans (Shape.height_le_heap hrep hnd) (Nat.le_succ _)
  cases hp : s.ptr with
  | none =>
    have hs : s = Shape.nil := Shape.ptr_eq_none hp
    subst hs
    have hlen : t.heap.length = 0 := by
      by_contra hne
      have := hc 0 (by omega)
      simp at this
    have hroot' : t.root_ = none := hroot
    refine ⟨{ root_ := some t.heap.length, heap := t.heap ++ [some (AVLNode.new k v none)] },
      by simp only [PlainBST.insert, hroot'], ⟨⟨rfl, ?_, ?_⟩, ho', ?_⟩⟩
    · refine ⟨⟨0, ?_⟩, trivial, trivial⟩
      show deref (t.heap ++ _) t.heap.length = _
      rw [deref_append_length]; rfl
    · simp [Shape.ins]
    · intro a ha
      simp [hlen] at ha
      simp [Shape.ins, hlen, ha]
  | some a =>
    rw [hp] at hroot
    cases hfind : s.find k with
    | some nw =>
      obtain ⟨n, w⟩ := nw
      obtain ⟨e1, nd, e2, e3, e4⟩ :=
        Shape.insertLoop_found t.heap.length v hrep hp hfuel hnd hfind
      refine ⟨{ root_ := t.root_, heap := store t.heap n { nd with value := v } }, ?_,
        ⟨⟨?_, e4, ?_⟩, ho', ?_⟩⟩
      · simp [PlainBST.insert, hroot, descendToInsert_eq, e1, setValue, e2]
      · obtain ⟨l1, k1, v1, r1, rfl⟩ := Shape.ptr_eq_some hp
        rw [Shape.ptr_ins]; exact hroot
      · rw [Shape.nodes_ins_of_find hfind]; exact hnd
      · intro c hc'
        rw [Shape.nodes_ins_of_find hfind]
        exact hc c (by simpa [length_store] using hc')
    | none =>
      obtain ⟨p, b, nd, e1, e2, e3, e4⟩ := Shape.insertLoop_attach v hrep hp hfuel hnd hfind
      have hplt : p < t.heap.length := deref_lt e2
      have hd1 : deref (t.heap ++ [some (AVLNode.new k v (some p))]) p = some nd := by
        rw [deref_append_lt _ _ hplt]; exact e2
      have hperm := Shape.addrs_ins_perm (x := t.heap.length) (v := v) hfind
      have hxs : t.heap.length ∉ s.addrs := fun hmem => lt_irrefl _ (Shape.rep_addr_lt hrep hmem)
      refine ⟨{ root_ := t.root_, heap := attachHeap t.heap k v p b nd }, ?_,
        ⟨⟨?_, e4, ?_⟩, ho', ?_⟩⟩
      · cases b <;>
          simp [PlainBST.insert, hroot, descendToInsert_eq, e1, setLeft, setRight, hd1,
            attachHeap]
      · obtain ⟨l1, k1, v1, r1, rfl⟩ := Shape.ptr_eq_some hp
        rw [Shape.ptr_ins]; exact hroot
      · exact hperm.nodup_iff.2 (List.nodup_cons.2 ⟨hxs, hnd⟩)
      · intro c hc'
        rw [hperm.mem_iff]
        simp only [attachHeap, length_store, List.length_append, List.length_singleton] at hc'
        by_cases hcl : c < t.heap.length
        · exact List.mem_cons_of_mem _ (hc c hcl)
        · have : c = t.heap.length := by omega
          subst this; exact List.mem_cons_self _ _

theorem reach_length_eq {t t' : TreeState} {s : Shape} (hR : Reach t s) (hR' : Reach t' s) :
    t.heap.length = t'.heap.length := by
  rcases lt_trichotomy t.heap.length t'.heap.length with h | h | h
  · exact absurd (Shape.rep_addr_lt hR.models.2.1 (hR'.cover _ h)) (lt_irrefl _)
  · exact h
  · exact absurd (Shape.rep_addr_lt hR'.models.2.1 (hR.cover _ h)) (lt_irrefl _)

namespace Shape

theorem rep_agree {h h' : Heap} {par : Ptr} {s : Shape} (hr : Rep h par s) (hr' : Rep h' par s)
    {c : Nat} (hc : c ∈ s.addrs) :
    (deref h' c).map AVLNode.strip = (deref h c).map AVLNode.strip := by
  induction s generalizing par with
  | nil => simp at hc
  | node l a k v r ihl ihr =>
    obtain ⟨⟨b, hb⟩, hl, hr0⟩ := hr
    obtain ⟨⟨b', hb'⟩, hl', hr0'⟩ := hr'
    rw [addrs_node] at hc
    rcases List.mem_append.1 hc with hc | hc
    · exact ihl hl hl' hc
    · rcases List.mem_cons.1 hc with hc | hc
      · subst hc
        rw [hb, hb']; rfl
      · exact ihr hr0 hr0' hc

end Shape

theorem reach_sameShape {t t' : TreeState} {s : Shape} (hR : Reach t s) (hR' : Reach t' s) :
    t.root_ = t'.root_ ∧ SameShape t.heap t'.heap := by
  refine ⟨hR.models.1.trans hR'.models.1.symm, (reach_length_eq hR hR').symm, fun c => ?_⟩
  by_cases hc : c < t.heap.length
  · exact Shape.rep_agree hR.models.2.1 hR'.models.2.1 (hR.cover c hc)
  · have h1 : deref t.heap c = none := by
      cases hd : deref t.heap c with
      | none => rfl
      | some nd => exact absurd (deref_lt hd) hc
    have h2 : deref t'.heap c = none := by
      cases hd : deref t'.heap c with
      | none => rfl
      | some nd => exact absurd (deref_lt hd) (by rw [← reach_length_eq hR hR']; exact hc)
    rw [h1, h2]

theorem plain_insertAll_reach {t t' : TreeState} {s : Shape} (hR : Reach t s)
    (hR' : Reach t' s) (l : List (Int × Int)) :
    ∃ u u' s', AVLTree.insertAll t l = some u ∧ PlainBST.insertAll t' l = some u' ∧
      Reach u s' ∧ Reach u' s' := by
  induction l generalizing t t' s with
  | nil => exact ⟨t, t', s, rfl, rfl, hR, hR'⟩
  | cons kv rest ih =>
    obtain ⟨k, v⟩ := kv
    obtain ⟨t1, e1, hR1, _⟩ := insert_reach hR k v
    obtain ⟨t1', e1', hR1'⟩ := plain_insert_reach hR' k v
    rw [← reach_length_eq hR hR'] at hR1'
    obtain ⟨u, u', s', e2, e2', hU, hU'⟩ := ih hR1 hR1'
    exact ⟨u, u', s', by simp only [AVLTree.insertAll, e1, Option.some_bind, e2],
      by simp only [PlainBST.insertAll, e1', Option.some_bind, e2'], hU, hU'⟩

/-- C25: for every sequence of inserts into the empty tree, `AVLTree::insert` (which enters
`rebalanceTree` with a null ancestor, where no rotation is performed and the store changes in
balance fields only) and plain unbalanced BST insertion both return, yield the same root, and
yield stores of the same size whose nodes agree on key, value, parent, left and right. -/
theorem C25_insert_refines_plain_insert (l : List (Int × Int)) :
    (∀ (h : Heap) (newNode root : Ptr) (h' : Heap),
        AVLTree.rebalanceTree h none newNode root = some h' → SameShape h h') ∧
    ∃ t t', AVLTree.insertAll AVLTree.empty l = some t ∧
      PlainBST.insertAll AVLTree.empty l = some t' ∧
      t.root_ = t'.root_ ∧ t.heap.length = t'.heap.length ∧
      ∀ c, (deref t.heap c).map AVLNode.strip = (deref t'.heap c).map AVLNode.strip := by
  refine ⟨fun h newNode root h' e => rebalanceTree_none_sameShape e, ?_⟩
  obtain ⟨u, u', s', e, e', hU, hU'⟩ := plain_insertAll_reach reach_empty reach_empty l
  obtain ⟨h1, h2, h3⟩ := reach_sameShape hU' hU
  exact ⟨u, u', e, e', h1.symm, h2, h3⟩

/-- Witness of C25: the Case 1 run on the tree of keys 2, 1, 3 changes balance fields only, and
the three inserts agree with plain insertion. -/
theorem C25_insert_refines_plain_insert_witness :
    SameShape exampleTree.heap
        [some ⟨2, 20, none, some 1, some 2, 2⟩, some ⟨1, 10, some 0, none, none, 1⟩,
          some ⟨3, 30, some 0, none, none, 1⟩] ∧
    ∃ t t', AVLTree.insertAll AVLTree.empty [(2, 20), (1, 10), (3, 30)] = some t ∧
      PlainBST.insertAll AVLTree.empty [(2, 20), (1, 10), (3, 30)] = some t' ∧
      t.root_ = t'.root_ ∧ t.heap.length = t'.heap.length ∧
      ∀ c, (deref t.heap c).map AVLNode.strip = (deref t'.heap c).map AVLNode.strip :=
  ⟨(C25_insert_refines_plain_insert [(2, 20), (1, 10), (3, 30)]).1 exampleTree.heap (some 2)
      (some 0) _ (by decide),
    (C25_insert_refines_plain_insert [(2, 20), (1, 10), (3, 30)]).2⟩

/-! ## Balance propagation -/

theorem wrap8_of_le {z : Int} (h0 : 0 ≤ z) (h1 : z ≤ 127) : wrap8 z = z := by
  unfold wrap8; omega

theorem updateBalances_null (fuel : Nat) (h : Heap) :
    AVLTree.updateBalances fuel h none = some h := by
  cases fuel <;> rfl

theorem updateBalances_step {h : Heap} {n : Nat} {nd : AVLNode} (e : deref h n = some nd)
    (hl : ∀ l, nd.left_ = some l → ∃ c, deref h l = some c)
    (hr : ∀ r, nd.right_ = some r → ∃ c, deref h r = some c) (fuel : Nat) :
    AVLTree.updateBalances (fuel + 1) h (some n) =
      AVLTree.updateBalances fuel
        (store h n
          { nd with
            balance_ := wrap8 (max (storedBalance h nd.left_) (storedBalance h nd.right_) + 1) })
        nd.parent_ := by
  obtain ⟨k, v, par, l, r, b⟩ := nd
  rcases l with _ | l <;> rcases r with _ | r
  · simp only [AVLTree.updateBalances, e, storedBalance]
  · obtain ⟨c, hc⟩ := hr r rfl
    simp only [AVLTree.updateBalances, e, storedBalance, hc, Option.map_some']
  · obtain ⟨c, hc⟩ := hl l rfl
    simp only [AVLTree.updateBalances, e, storedBalance, hc, Option.map_some']
  · obtain ⟨c, hc⟩ := hl l rfl
    obtain ⟨c', hc'⟩ := hr r rfl
    simp only [AVLTree.updateBalances, e, storedBalance, hc, hc', Option.map_some']

theorem storedBalance_store_ne {h : Heap} {a : Nat} {nd : AVLNode} {p : Ptr}
    (hp : p ≠ some a) : storedBalance (store h a nd) p = storedBalance h p := by
  cases p with
  | none => rfl
  | some c =>
    have : a ≠ c := fun e => hp (by rw [e])
    simp only [storedBalance, deref_store_ne _ _ this]

namespace Shape

theorem path_subset (k : Int) (s : Shape) : s.path k ⊆ s.addrs := by
  induction s with
  | nil => simp [path]
  | node l a key v r ihl ihr =>
    intro c hc
    simp only [path, List.mem_cons] at hc
    simp only [addrs_node, List.mem_append, List.mem_cons]
    rcases hc with rfl | hc
    · exact Or.inr (Or.inl rfl)
    · split_ifs at hc with h1 h2
      · exact Or.inl (ihl hc)
      · exact Or.inr (Or.inr (ihr hc))
      · simp at hc

theorem ptr_mem_path (k : Int) {s : Shape} {a : Nat} (hp : s.ptr = some a) : a ∈ s.path k := by
  obtain ⟨l, key, v, r, rfl⟩ := ptr_eq_some hp
  simp [path]

theorem find_mem_path {k : Int} {s : Shape} {x : Nat} {w : Int}
    (hf : s.find k = some (x, w)) : x ∈ s.path k := by
  induction s with
  | nil => cases hf
  | node l a key v r ihl ihr =>
    simp only [find] at hf
    simp only [path, List.mem_cons]
    split_ifs at hf with h1 h2
    · simp only [Option.some.injEq, Prod.mk.injEq] at hf
      exact Or.inl hf.1.symm
    · right; rw [if_pos (show k < key from h2)]; exact ihl hf
    · right
      have h3 : key < k := lt_of_le_of_ne (not_lt.1 h2) h1
      rw [if_neg (not_lt.2 h3.le), if_pos (show k > key from h3)]; exact ihr hf

theorem ptr_ne_of_not_mem {s : Shape} {a : Nat} (h : a ∉ s.addrs) : s.ptr ≠ some a :=
  fun e => h (addrs_of_ptr e)

end Shape

namespace Shape

theorem walk {k : Int} {s : Shape} {h : Heap} {par : Ptr} (hr : Rep h par s)
    (hnd : s.addrs.Nodup) {y : Nat} (hy : y ∈ s.path k) :
    ∃ d h1, d ≤ s.height ∧
      (∀ f, AVLTree.updateBalances (f + d) h (some y) = AVLTree.updateBalances f h1 par) ∧
      SameShape h h1 ∧ (∀ c, c ∉ s.path k → deref h1 c = deref h c) ∧
      (∀ w, s.find k = some (y, w) → ∀ m ∈ s.path k, BalanceStep h1 m) := by
  induction s generalizing par with
  | nil => simp [path] at hy
  | node l a key v r ihl ihr =>
    obtain ⟨ndl, ndr, nal, nar, ndis⟩ := nodup_node hnd
    -- one iteration of the loop at the root of this subtree, in any store of the same shape
    have hstep : ∀ g, SameShape h g → ∃ g',
        (∀ f, AVLTree.updateBalances (f + 1) g (some a) = AVLTree.updateBalances f g' par) ∧
        SameShape g g' ∧ (∀ c, c ≠ a → deref g' c = deref g c) ∧
        (∀ p, p ≠ some a → storedBalance g' p = storedBalance g p) ∧ BalanceStep g' a := by
      intro g hg
      obtain ⟨⟨b, hb⟩, hl, hr'⟩ := rep_sameShape hg hr
      refine ⟨_, fun f => updateBalances_step hb (fun c hc => rep_ptr_live hl hc)
        (fun c hc => rep_ptr_live hr' hc) f, sameShape_setBalance hb _,
        fun c hc => deref_store_ne _ _ (Ne.symm hc), fun p hp => storedBalance_store_ne hp,
        _, deref_store_self hb _, ?_⟩
      show wrap8 _ = wrap8 _
      rw [storedBalance_store_ne (ptr_ne_of_not_mem nal),
        storedBalance_store_ne (ptr_ne_of_not_mem nar)]
    obtain ⟨_, hl, hr'⟩ := id hr
    by_cases hya : y = a
    · subst hya
      obtain ⟨g', hc, hs, hfr, _, hrec⟩ := hstep h (SameShape.refl h)
      refine ⟨1, g', by simp [height], hc, hs, fun c hcp => hfr c fun e => hcp ?_, ?_⟩
      · simp [path, e]
      · intro w hf m hm
        have hkey := find_root hnd hf
        subst hkey
        simp [path] at hm
        subst hm
        exact hrec
    · simp only [path, List.mem_cons] at hy
      rcases hy with hy | hy
      · exact absurd hy hya
      · split_ifs at hy with h1 h2
        · obtain ⟨d, g1, hd, hc1, hs1, hfr1, hrec1⟩ := ihl hl ndl hy
          obtain ⟨g2, hc2, hs2, hfr2, hsb, hrec2⟩ := hstep g1 hs1
          have hdl : d + 1 ≤ (node l a key v r).height := by
            have := le_max_left l.height r.height
            simp only [height]; omega
          refine ⟨d + 1, g2, hdl, fun f => ?_, hs1.trans hs2, fun c hcp => ?_, ?_⟩
          · rw [show f + (d + 1) = (f + 1) + d by omega, hc1 (f + 1), hc2 f]
          · have hc' : c ≠ a ∧ c ∉ l.path k := by
              simpa [path, h1] using hcp
            rw [hfr2 c hc'.1, hfr1 c hc'.2]
          · intro w hf m hm
            have hf' : l.find k = some (y, w) := by
              simp only [find] at hf
              rw [if_neg (ne_of_gt h1), if_pos h1] at hf
              exact hf
            simp only [path, if_pos h1, List.mem_cons] at hm
            rcases hm with rfl | hm
            · exact hrec2
            · obtain ⟨md, e, hb⟩ := hrec1 w hf' m hm
              have hml := path_subset _ _ hm
              have hma : m ≠ a := fun e' => nal (e' ▸ hml)
              have hl1 := rep_sameShape hs1 hl
              refine ⟨md, by rw [hfr2 m hma]; exact e, ?_⟩
              rw [hsb md.left_ fun e' => nal (rep_child_mem hl1 hml e (Or.inl e')),
                hsb md.right_ fun e' => nal (rep_child_mem hl1 hml e (Or.inr e'))]
              exact hb
        · obtain ⟨d, g1, hd, hc1, hs1, hfr1, hrec1⟩ := ihr hr' ndr hy
          obtain ⟨g2, hc2, hs2, hfr2, hsb, hrec2⟩ := hstep g1 hs1
          have hdl : d + 1 ≤ (node l a key v r).height := by
            have := le_max_right l.height r.height
            simp only [height]; omega
          refine ⟨d + 1, g2, hdl, fun f => ?_, hs1.trans hs2, fun c hcp => ?_, ?_⟩
          · rw [show f + (d + 1) = (f + 1) + d by omega, hc1 (f + 1), hc2 f]
          · have hc' : c ≠ a ∧ c ∉ r.path k := by
              simpa [path, h1, h2] using hcp
            rw [hfr2 c hc'.1, hfr1 c hc'.2]
          · intro w hf m hm
            have hf' : r.find k = some (y, w) := by
              simp only [find] at hf
              rw [if_neg (ne_of_lt h2), if_neg (not_lt.2 (le_of_lt h2))] at hf
              exact hf
            simp only [path, if_neg h1, if_pos h2, List.mem_cons] at hm
            rcases hm with rfl | hm
            · exact hrec2
            · obtain ⟨md, e, hb⟩ := hrec1 w hf' m hm
              have hmr := path_subset _ _ hm
              have hma : m ≠ a := fun e' => nar (e' ▸ hmr)
              have hr1 := rep_sameShape hs1 hr'
              refine ⟨md, by rw [hfr2 m hma]; exact e, ?_⟩
              rw [hsb md.left_ fun e' => nar (rep_child_mem hr1 hmr e (Or.inl e')),
                hsb md.right_ fun e' => nar (rep_child_mem hr1 hmr e (Or.inr e'))]
              exact hb
        · simp at hy

end Shape

namespace Shape

theorem storedBalance_of_balOK {h : Heap} {s : Shape} (hb : BalOK h s) :
    storedBalance h s.ptr = (s.height : Int) := by
  cases s with
  | nil => rfl
  | node l a k v r =>
    obtain ⟨⟨nd, e, hbal⟩, _, _⟩ := hb
    simp only [ptr, storedBalance, e]
    exact hbal

theorem balOK_frame {h h' : Heap} {s : Shape} (hb : BalOK h s)
    (hf : ∀ c ∈ s.addrs, deref h' c = deref h c) : BalOK h' s := by
  induction s with
  | nil => trivial
  | node l a k v r ihl ihr =>
    obtain ⟨⟨nd, e, hbal⟩, hl, hr⟩ := hb
    refine ⟨⟨nd, ?_, hbal⟩, ihl hl fun c hc => hf c ?_, ihr hr fun c hc => hf c ?_⟩
    · rw [hf a (by simp)]; exact e
    · simp [hc]
    · simp [hc]

theorem offOK_of_balOK {h : Heap} (k : Int) {s : Shape} (hb : BalOK h s) : OffOK h k s := by
  induction s with
  | nil => trivial
  | node l a key v r ihl ihr =>
    obtain ⟨_, hl, hr⟩ := hb
    simp only [OffOK]
    split_ifs
    · exact ⟨ihl hl, hr⟩
    · exact ⟨hl, ihr hr⟩
    · exact ⟨hl, hr⟩

theorem offOK_frame {h h' : Heap} {k : Int} {s : Shape} (ho : OffOK h k s)
    (hnd : s.addrs.Nodup)
    (hf : ∀ c ∈ s.addrs, c ∉ s.path k → deref h' c = deref h c) : OffOK h' k s := by
  induction s with
  | nil => trivial
  | node l a key v r ihl ihr =>
    obtain ⟨ndl, ndr, nal, nar, ndis⟩ := nodup_node hnd
    simp only [OffOK] at ho ⊢
    split_ifs at ho ⊢ with h1 h2
    · refine ⟨ihl ho.1 ndl fun c hc hcp => hf c (by simp [hc]) ?_,
        balOK_frame ho.2 fun c hc => hf c (by simp [hc]) ?_⟩
      · simp only [path, if_pos h1, List.mem_cons, not_or]
        exact ⟨fun e => nal (e ▸ hc), hcp⟩
      · simp only [path, if_pos h1, List.mem_cons, not_or]
        exact ⟨fun e => nar (e ▸ hc), fun hm => ndis c (path_subset _ _ hm) hc⟩
    · refine ⟨balOK_frame ho.1 fun c hc => hf c (by simp [hc]) ?_,
        ihr ho.2 ndr fun c hc hcp => hf c (by simp [hc]) ?_⟩
      · simp only [path, if_neg h1, if_pos h2, List.mem_cons, not_or]
        exact ⟨fun e => nal (e ▸ hc), fun hm => ndis c hc (path_subset _ _ hm)⟩
      · simp only [path, if_neg h1, if_pos h2, List.mem_cons, not_or]
        exact ⟨fun e => nar (e ▸ hc), hcp⟩
    · refine ⟨balOK_frame ho.1 fun c hc => hf c (by simp [hc]) ?_,
        balOK_frame ho.2 fun c hc => hf c (by simp [hc]) ?_⟩
      · simp only [path, if_neg h1, if_neg h2, List.mem_cons, not_or]
        exact ⟨fun e => nal (e ▸ hc), by simp⟩
      · simp only [path, if_neg h1, if_neg h2, List.mem_cons, not_or]
        exact ⟨fun e => nar (e ▸ hc), by simp⟩

theorem offOK_ins {h : Heap} (x : Nat) (k v : Int) {s : Shape} (ho : OffOK h k s) :
    OffOK h k (ins x k v s) := by
  induction s with
  | nil => simp [ins, OffOK, BalOK]
  | node l a key val r ihl ihr =>
    simp only [ins]
    simp only [OffOK] at ho
    split_ifs at ho ⊢ with h1 h2
    · simp only [OffOK, if_pos h1]
      exact ⟨ihl ho.1, ho.2⟩
    · simp only [OffOK, if_neg h1, if_pos h2]
      exact ⟨ho.1, ihr ho.2⟩
    · simp only [OffOK, if_neg h1, if_neg h2]
      exact ho

theorem height_ins_le (x : Nat) (k v : Int) (s : Shape) : s.height ≤ (ins x k v s).height := by
  induction s with
  | nil => simp [height]
  | node l a key val r ihl ihr =>
    simp only [ins]
    split_ifs with h1 h2
    · simp only [height]; omega
    · simp only [height]; omega
    · simp only [height]; omega

theorem length_nodes_ins_le (x : Nat) (k v : Int) (s : Shape) :
    s.nodes.length ≤ (ins x k v s).nodes.length := by
  induction s with
  | nil => simp [nodes]
  | node l a key val r ihl ihr =>
    simp only [ins]
    split_ifs with h1 h2
    · simp only [nodes, List.length_append, List.length_cons]; omega
    · simp only [nodes, List.length_append, List.length_cons]; omega
    · simp only [nodes, List.length_append, List.length_cons]; omega

theorem height_ins_found {x : Nat} {k v : Int} {s : Shape} {n : Nat} {w : Int}
    (hf : s.find k = some (n, w)) : (ins x k v s).height = s.height := by
  induction s with
  | nil => cases hf
  | node l a key val r ihl ihr =>
    simp only [find] at hf
    simp only [ins]
    split_ifs at hf ⊢ with h1 h2 h3 h4 h5
    all_goals first
      | (exfalso; omega)
      | rfl
      | (simp only [height]; rw [ihl hf])
      | (simp only [height]; rw [ihr hf])

theorem balOK_ins_found {h h' : Heap} {x : Nat} {k v : Int} {s : Shape} {n : Nat} {w : Int}
    (hf : s.find k = some (n, w)) (hb : BalOK h s)
    (hh : ∀ c nd, deref h c = some nd → ∃ nd', deref h' c = some nd' ∧ nd'.balance_ = nd.balance_) :
    BalOK h' (ins x k v s) := by
  induction s with
  | nil => cases hf
  | node l a key val r ihl ihr =>
    have hh' : ∀ {s : Shape}, BalOK h s → BalOK h' s := by
      intro s
      induction s with
      | nil => exact fun _ => trivial
      | node l a k v r ihl ihr =>
        rintro ⟨⟨nd, e, hbal⟩, hl, hr⟩
        obtain ⟨nd', e', hb'⟩ := hh a nd e
        exact ⟨⟨nd', e', hb'.trans hbal⟩, ihl hl, ihr hr⟩
    have hgt := height_ins_found (x := x) (v := v) hf
    obtain ⟨⟨nd, e, hbal⟩, hl, hr⟩ := hb
    obtain ⟨nd', e', hb'⟩ := hh a nd e
    simp only [find] at hf
    simp only [ins] at hgt ⊢
    split_ifs at hf hgt ⊢ with h1 h2 h3 h4 h5
    all_goals first
      | (exfalso; omega)
      | exact ⟨⟨nd', e', by rw [hb', hbal, ← hgt]⟩, ihl hf hl, hh' hr⟩
      | exact ⟨⟨nd', e', by rw [hb', hbal, ← hgt]⟩, hh' hl, ihr hf hr⟩
      | exact ⟨⟨nd', e', by rw [hb', hbal, ← hgt]⟩, hh' hl, hh' hr⟩

theorem balOK_of_steps {h : Heap} {par : Ptr} {k : Int} {s : Shape} (hr : Rep h par s)
    (ho : OffOK h k s) (hrec : ∀ m ∈ s.path k, BalanceStep h m) (hgt : s.height ≤ 127) :
    BalOK h s := by
  induction s generalizing par with
  | nil => trivial
  | node l a key v r ihl ihr =>
    obtain ⟨⟨b, hb⟩, hl, hr'⟩ := hr
    have hgl : l.height ≤ 127 := by
      have := le_max_left l.height r.height
      simp only [height] at hgt; omega
    have hgr : r.height ≤ 127 := by
      have := le_max_right l.height r.height
      simp only [height] at hgt; omega
    have hbl : BalOK h l := by
      simp only [OffOK] at ho
      split_ifs at ho with h1 h2
      · exact ihl hl ho.1 (fun m hm => hrec m (by simp [path, h1, hm])) hgl
      · exact ho.1
      · exact ho.1
    have hbr : BalOK h r := by
      simp only [OffOK] at ho
      split_ifs at ho with h1 h2
      · exact ho.2
      · exact ihr hr' ho.2 (fun m hm => hrec m (by simp [path, h1, h2, hm])) hgr
      · exact ho.2
    obtain ⟨md, e, hm⟩ := hrec a (by simp [path])
    rw [hb] at e
    cases e
    refine ⟨⟨_, hb, ?_⟩, hbl, hbr⟩
    simp only at hm
    rw [hm, storedBalance_of_balOK hbl, storedBalance_of_balOK hbr]
    have hcast : ((node l a key v r).height : Int) = max (l.height : Int) (r.height : Int) + 1 := by
      simp only [height]; push_cast; rfl
    rw [hcast]
    apply wrap8_of_le
    · have : (0 : Int) ≤ max (l.height : Int) (r.height : Int) := le_max_of_le_left (by positivity)
      omega
    · rw [← hcast]; exact_mod_cast hgt

theorem parent_on_path {h : Heap} {par : Ptr} {k : Int} {s : Shape} (hr : Rep h par s)
    {x : Nat} {w : Int} (hf : s.find k = some (x, w)) {nd : AVLNode} (e : deref h x = some nd) :
    nd.parent_ = par ∨ ∃ pa, nd.parent_ = some pa ∧ pa ∈ s.path k := by
  induction s generalizing par with
  | nil => cases hf
  | node l a key v r ihl ihr =>
    obtain ⟨⟨b, hb⟩, hl, hr'⟩ := hr
    simp only [find] at hf
    split_ifs at hf with h1 h2
    · simp only [Option.some.injEq, Prod.mk.injEq] at hf
      obtain ⟨rfl, _⟩ := hf
      rw [hb] at e; cases e
      exact Or.inl rfl
    · right
      rcases ihl hl hf with hp | ⟨pa, hp, hpa⟩
      · exact ⟨a, hp, by simp [path]⟩
      · exact ⟨pa, hp, by simp [path, show k < key from h2, hpa]⟩
    · right
      have h3 : key < k := lt_of_le_of_ne (not_lt.1 h2) h1
      rcases ihr hr' hf with hp | ⟨pa, hp, hpa⟩
      · exact ⟨a, hp, by simp [path]⟩
      · exact ⟨pa, hp, by simp [path, not_lt.2 h3.le, h3, hpa]⟩

end Shape

namespace Shape

theorem find_ins_new (x : Nat) {k : Int} (v : Int) {s : Shape} (hf : s.find k = none) :
    (ins x k v s).find k = some (x, v) := by
  induction s with
  | nil => simp [ins, find]
  | node l a key val r ihl ihr =>
    rcases lt_trichotomy k key with h | h | h
    · have hne : key ≠ k := ne_of_gt h
      simp only [find, if_neg hne, if_pos (show key > k from h)] at hf
      simp only [ins, if_pos h, find, if_neg hne, if_pos (show key > k from h)]
      exact ihl hf
    · subst h; simp [find] at hf
    · have hne : key ≠ k := ne_of_lt h
      have hng : ¬ key > k := not_lt.2 h.le
      simp only [find, if_neg hne, if_neg hng] at hf
      simp only [ins, if_neg (not_lt.2 h.le : ¬ k < key), if_pos (show k > key from h), find,
        if_neg hne, if_neg hng]
      exact ihr hf

theorem offOK_of_small {h : Heap} (k : Int) {s : Shape} (hs : s.nodes.length ≤ 1) :
    OffOK h k s := by
  cases s with
  | nil => trivial
  | node l a key v r =>
    simp only [nodes, List.length_append, List.length_cons] at hs
    have hl : l = nil := by
      cases l with
      | nil => rfl
      | node _ _ _ _ _ =>
        exfalso; simp only [nodes, List.length_append, List.length_cons] at hs; omega
    have hr : r = nil := by
      cases r with
      | nil => rfl
      | node _ _ _ _ _ =>
        exfalso; simp only [nodes, List.length_append, List.length_cons] at hs; omega
    subst hl hr
    simp [OffOK, BalOK]

theorem parentChain_path {h : Heap} {par : Ptr} {k : Int} {s : Shape} (hr : Rep h par s)
    {n : Nat} {w : Int} (hf : s.find k = some (n, w)) :
    ∃ d, d ≤ s.height ∧
      ∀ f, parentChain h (f + d) (some n) = (s.path k).reverse ++ parentChain h f par := by
  induction s generalizing par with
  | nil => cases hf
  | node l a key v r ihl ihr =>
    obtain ⟨⟨b, hb⟩, hl, hr'⟩ := hr
    simp only [find] at hf
    split_ifs at hf with h1 h2
    · simp only [Option.some.injEq, Prod.mk.injEq] at hf
      obtain ⟨rfl, _⟩ := hf
      subst h1
      refine ⟨1, by simp [height], fun f => ?_⟩
      simp [path, parentChain, hb]
    · obtain ⟨d, hd, hc⟩ := ihl hl hf
      refine ⟨d + 1, ?_, fun f => ?_⟩
      · have := le_max_left l.height r.height
        simp only [height]; omega
      · rw [show f + (d + 1) = (f + 1) + d by omega, hc (f + 1)]
        simp [path, show k < key from h2, parentChain, hb]
    · have h3 : key < k := lt_of_le_of_ne (not_lt.1 h2) h1
      obtain ⟨d, hd, hc⟩ := ihr hr' hf
      refine ⟨d + 1, ?_, fun f => ?_⟩
      · have := le_max_right l.height r.height
        simp only [height]; omega
      · rw [show f + (d + 1) = (f + 1) + d by omega, hc (f + 1)]
        simp [path, not_lt.2 h3.le, h3, parentChain, hb]

theorem getHeight_balOK {h : Heap} {s : Shape} (hc : CRep h s) (hb : BalOK h s) {a : Nat}
    (ha : a ∈ s.addrs) {nd : AVLNode} (e : deref h a = some nd) {fuel : Nat}
    (hf : s.height ≤ fuel) : AVLTree.getHeight h fuel (some a) = some nd.balance_ := by
  induction s with
  | nil => simp at ha
  | node l a0 key v r ihl ihr =>
    have hc0 := hc
    obtain ⟨_, hcl, hcr⟩ := hc
    obtain ⟨⟨nd0, e0, hbal⟩, hbl, hbr⟩ := hb
    have hgl : l.height ≤ fuel := by
      have := le_max_left l.height r.height
      simp only [height] at hf; omega
    have hgr : r.height ≤ fuel := by
      have := le_max_right l.height r.height
      simp only [height] at hf; omega
    simp only [addrs_node, List.mem_append, List.mem_cons] at ha
    rcases ha with ha | rfl | ha
    · exact ihl hcl hbl ha hgl
    · rw [e0] at e; cases e
      rw [hbal]
      exact avl_getHeight_crep hc0 hf
    · exact ihr hcr hbr ha hgr

end Shape

theorem parentChain_null (h : Heap) (fuel : Nat) : parentChain h fuel none = [] := by
  cases fuel <;> rfl

theorem insert_balance_facts {t : TreeState} {s : Shape} (hR : Reach t s) {k : Int} (v : Int)
    (hfind : s.find k = none) {a : Nat} (hp : s.ptr = some a) (ho : s.OffOK t.heap k) :
    ∃ h4 h5, AVLTree.insert t (k, v) = some { root_ := t.root_, heap := h5 } ∧
      AVLTree.updateBalances (h4.length + 1) h4 (some t.heap.length) = some h5 ∧
      (s.ins t.heap.length k v).addrs.Nodup ∧
      Shape.Rep h4 none (s.ins t.heap.length k v) ∧
      Shape.Rep h5 none (s.ins t.heap.length k v) ∧
      (s.ins t.heap.length k v).OffOK h5 k ∧
      ∀ m ∈ (s.ins t.heap.length k v).path k, BalanceStep h5 m := by
  obtain ⟨p, b, nd, h3, rnd, xnd, h5, e1, e2, e3, e4, e5, ha3, hx3, e6, eins⟩ :=
    insert_attach_steps hR.models v hfind hp
  obtain ⟨hroot, hrep, hnd⟩ := hR.models
  have hperm := Shape.addrs_ins_perm (x := t.heap.length) (v := v) hfind
  have hxs : t.heap.length ∉ s.addrs := fun hmem => lt_irrefl _ (Shape.rep_addr_lt hrep hmem)
  have hnd' : (s.ins t.heap.length k v).addrs.Nodup :=
    hperm.nodup_iff.2 (List.nodup_cons.2 ⟨hxs, hnd⟩)
  have hfs := Shape.find_ins_new t.heap.length v hfind
  have hxpath := Shape.find_mem_path hfs
  have hapath : a ∈ (s.ins t.heap.length k v).path k := by
    obtain ⟨l1, k1, v1, r1, rfl⟩ := Shape.ptr_eq_some hp
    exact Shape.ptr_mem_path k (Shape.ptr_ins _ _ _ _ _ _ _ _)
  have hplt : p < t.heap.length := deref_lt e2
  have hd2x : deref (attachHeap t.heap k v p b nd) t.heap.length
      = some (AVLNode.new k v (some p)) := by
    unfold attachHeap
    rw [deref_store_ne _ _ (by omega), deref_append_length]
  have hppath : p ∈ (s.ins t.heap.length k v).path k := by
    rcases Shape.parent_on_path e4 hfs hd2x with hq | ⟨pa, hq, hpa⟩
    · cases hq
    · cases hq; exact hpa
  -- nodes off the comparison path are untouched by the allocation and the child link
  have hO2 : (s.ins t.heap.length k v).OffOK (attachHeap t.heap k v p b nd) k := by
    refine Shape.offOK_frame (Shape.offOK_ins _ k v ho) hnd' fun c hc hcp => ?_
    have hcp' : p ≠ c := fun e => hcp (e ▸ hppath)
    have hcx : c ≠ t.heap.length := fun e => hcp (e ▸ hxpath)
    have hcs : c ∈ s.addrs := by
      rcases List.mem_cons.1 (hperm.mem_iff.1 hc) with h | h
      · exact absurd h hcx
      · exact h
    unfold attachHeap
    rw [deref_store_ne _ _ hcp', deref_append_lt _ _ (Shape.rep_addr_lt hrep hcs)]
  -- first pass, from the parent of the new node
  obtain ⟨d1, g1, hd1, hc1, hs1, hfr1, _⟩ := Shape.walk e4 hnd' hppath
  have hh2 := Shape.height_le_heap e4 hnd'
  have hg1 : g1 = h3 := by
    have := hc1 ((attachHeap t.heap k v p b nd).length + 1 - d1)
    rw [Nat.sub_add_cancel (by omega), e5, updateBalances_null] at this
    exact (Option.some.inj this).symm
  subst hg1
  have hO3 : (s.ins t.heap.length k v).OffOK g1 k :=
    Shape.offOK_frame hO2 hnd' fun c _ hcp => hfr1 c hcp
  have hr3 := Shape.rep_sameShape hs1 e4
  -- Case 1 of rebalanceTree writes the balance of the root
  have hs4 := sameShape_setBalance ha3 (if xnd.key < rnd.key then -1 else 1)
  have hr4 := Shape.rep_sameShape hs4 hr3
  have hO4 : (s.ins t.heap.length k v).OffOK
      (store g1 a { rnd with balance_ := if xnd.key < rnd.key then -1 else 1 }) k :=
    Shape.offOK_frame hO3 hnd' fun c _ hcp =>
      deref_store_ne _ _ fun e => hcp (e ▸ hapath)
  -- second pass, from the new node
  obtain ⟨d2, g2, hd2, hc2, hs2, hfr2, hrec⟩ := Shape.walk hr4 hnd' hxpath
  have hh4 := Shape.height_le_heap hr4 hnd'
  have hg2 : g2 = h5 := by
    have := hc2 (g1.length + 1 - d2)
    rw [length_store] at hh4
    rw [Nat.sub_add_cancel (by omega), e6, updateBalances_null] at this
    exact (Option.some.inj this).symm
  subst hg2
  refine ⟨_, g2, eins, ?_, hnd', hr4, Shape.rep_sameShape hs2 hr4,
    Shape.offOK_frame hO4 hnd' fun c _ hcp => hfr2 c hcp, hrec v hfs⟩
  rw [length_store]
  exact e6

theorem insert_balOK {t : TreeState} {s : Shape} (hR : Reach t s) {k : Int} (v : Int)
    (hfind : s.find k = none) {a : Nat} (hp : s.ptr = some a) (ho : s.OffOK t.heap k)
    (hgt : (s.ins t.heap.length k v).height ≤ 127) {t' : TreeState}
    (ht' : AVLTree.insert t (k, v) = some t') : (s.ins t.heap.length k v).BalOK t'.heap := by
  obtain ⟨h4, h5, eins, _, _, _, hr5, ho5, hst⟩ := insert_balance_facts hR v hfind hp ho
  rw [eins] at ht'
  cases ht'
  exact Shape.balOK_of_steps hr5 ho5 hst hgt

theorem insert_bal_step {t : TreeState} {s : Shape} (hR : Reach t s)
    (hJ : s.height ≤ 127 → s.BalOK t.heap ∨ s.nodes.length ≤ 1) (k v : Int) :
    ∃ t', AVLTree.insert t (k, v) = some t' ∧ Reach t' (s.ins t.heap.length k v) ∧
      ((s.ins t.heap.length k v).height ≤ 127 →
        (s.ins t.heap.length k v).BalOK t'.heap ∨
          (s.ins t.heap.length k v).nodes.length ≤ 1) := by
  obtain ⟨t', e, hR', _⟩ := insert_reach hR k v
  refine ⟨t', e, hR', fun hg => ?_⟩
  have hJ' := hJ (le_trans (Shape.height_ins_le _ k v s) hg)
  cases hp : s.ptr with
  | none =>
    have hs : s = Shape.nil := Shape.ptr_eq_none hp
    subst hs
    right
    simp [Shape.ins, Shape.nodes]
  | some a =>
    cases hfind : s.find k with
    | some nw =>
      obtain ⟨n, w⟩ := nw
      obtain ⟨nd, e1, e2, e3, e4⟩ := insert_found hR.models v hfind t.heap.length
      rw [e3] at e
      cases e
      rcases hJ' with hb | hsmall
      · left
        refine Shape.balOK_ins_found hfind hb fun c nd0 hc => ?_
        show ∃ nd', deref (store t.heap n { nd with value := v }) c = some nd' ∧ _
        rw [deref_store]
        split_ifs with hcn
        · obtain ⟨rfl, _⟩ := hcn
          rw [e1] at hc
          cases hc
          exact ⟨_, rfl, rfl⟩
        · exact ⟨nd0, hc, rfl⟩
      · right
        rw [← Shape.length_addrs, Shape.nodes_ins_of_find hfind, Shape.length_addrs]
        exact hsmall
    | none =>
      left
      refine insert_balOK hR v hfind hp ?_ hg e
      rcases hJ' with hb | hsmall
      · exact Shape.offOK_of_balOK k hb
      · exact Shape.offOK_of_small k hsmall

theorem insertAll_bal {t : TreeState} {s : Shape} (hR : Reach t s)
    (hJ : s.height ≤ 127 → s.BalOK t.heap ∨ s.nodes.length ≤ 1) (l : List (Int × Int)) :
    ∃ t' s', AVLTree.insertAll t l = some t' ∧ Reach t' s' ∧
      (s'.height ≤ 127 → s'.BalOK t'.heap ∨ s'.nodes.length ≤ 1) := by
  induction l generalizing t s with
  | nil => exact ⟨t, s, rfl, hR, hJ⟩
  | cons kv rest ih =>
    obtain ⟨k, v⟩ := kv
    obtain ⟨t1, e1, hR1, hJ1⟩ := insert_bal_step hR hJ k v
    obtain ⟨t', s', e2, hR', hJ'⟩ := ih hR1 hJ1
    exact ⟨t', s', by simp only [AVLTree.insertAll, e1, Option.some_bind, e2], hR', hJ'⟩

theorem reach_length_le {t : TreeState} {s : Shape} (hR : Reach t s) :
    t.heap.length ≤ s.nodes.length := by
  have hsub : List.range t.heap.length ⊆ s.addrs := fun a ha =>
    hR.cover a (List.mem_range.1 ha)
  have := (List.subperm_of_subset (List.nodup_range _) hsub).length_le
  simpa [Shape.length_addrs] using this

/-- C24 (amended): (1) on a well-formed tree, `updateBalances(n)` returns, changes balance
fields only, leaves every node off the parent chain of `n` untouched, and leaves at every node
`m` of that chain the balance `max(lHeight, rHeight) + 1` of its children's stored balances
(0 for an absent child), converted to `int8_t`; (2) in every tree of at least two nodes and height at most 127
built from the empty tree by inserts, each node's balance field is the height of the subtree
rooted at it as computed by `getHeight` (a leaf has height 1); (3) the conversion to `int8_t`
is the identity on -128..127. -/
theorem C24_stored_balance_is_height :
    (∀ (t : TreeState) (s : Shape) (n : Nat), Models t s → s.Ordered → n ∈ s.addrs →
      ∃ h', AVLTree.updateBalances (t.heap.length + 1) t.heap (some n) = some h' ∧
        SameShape t.heap h' ∧
        (∀ m ∈ parentChain t.heap (t.heap.length + 1) (some n), BalanceStep h' m) ∧
        (∀ c, c ∉ parentChain t.heap (t.heap.length + 1) (some n) →
          deref h' c = deref t.heap c)) ∧
    (∀ (l : List (Int × Int)) (t : TreeState), AVLTree.insertAll AVLTree.empty l = some t →
      2 ≤ t.heap.length →
      (∀ hgt, AVLTree.getHeight t.heap (t.heap.length + 1) t.root_ = some hgt → hgt ≤ 127) →
      ∀ a nd, deref t.heap a = some nd →
        AVLTree.getHeight t.heap (t.heap.length + 1) (some a) = some nd.balance_) ∧
    (∀ z : Int, -128 ≤ z → z ≤ 127 → wrap8 z = z) := by
  refine ⟨?_, ?_, fun z h0 h1 => by unfold wrap8; omega⟩
  · intro t s n hm ho hn
    obtain ⟨hroot, hrep, hnd⟩ := hm
    obtain ⟨⟨n', k, w⟩, hmem, rfl⟩ := List.mem_map.1 hn
    have hf := Shape.find_of_mem ho hmem
    obtain ⟨d, h1, hd, hc, hs, hfr, hrec⟩ := Shape.walk hrep hnd (Shape.find_mem_path hf)
    have hh := Shape.height_le_heap hrep hnd
    obtain ⟨d', hd', hpc⟩ := Shape.parentChain_path hrep hf
    have hchain : parentChain t.heap (t.heap.length + 1) (some n') = (s.path k).reverse := by
      have := hpc (t.heap.length + 1 - d')
      rw [Nat.sub_add_cancel (by omega), parentChain_null, List.append_nil] at this
      exact this
    refine ⟨h1, ?_, hs, fun m hm => hrec w hf m ?_, fun c hcp => hfr c fun hp => hcp ?_⟩
    · have := hc (t.heap.length + 1 - d)
      rw [Nat.sub_add_cancel (by omega), updateBalances_null] at this
      exact this
    · rw [hchain] at hm; exact List.mem_reverse.1 hm
    · rw [hchain]; exact List.mem_reverse.2 hp
  · intro l t hl h2 hgt a nd e
    obtain ⟨t', s, e', hR, hJ⟩ := insertAll_bal reach_empty (fun _ => Or.inr (by simp [Shape.nodes])) l
    rw [hl] at e'
    cases e'
    obtain ⟨hroot, hrep, hnd⟩ := hR.models
    have hh := Shape.height_le_heap hrep hnd
    have hcr := Shape.rep_crep hrep
    have hroot_h : AVLTree.getHeight t.heap (t.heap.length + 1) t.root_ = some (s.height : Int) := by
      rw [hroot]; exact Shape.avl_getHeight_crep hcr (by omega)
    have hs127 : s.height ≤ 127 := by exact_mod_cast hgt _ hroot_h
    have hlen := reach_length_le hR
    rcases hJ hs127 with hb | hsmall
    · exact Shape.getHeight_balOK hcr hb (hR.cover a (deref_lt e)) e (by omega)
    · omega

/-- Witness of C24: `updateBalances` from the leaf holding key 1 of the tree holding keys
2, 1, 3, and the balance of the root of that tree after the three inserts. -/
theorem C24_stored_balance_is_height_witness :
    (∃ h', AVLTree.updateBalances (exampleTree.heap.length + 1) exampleTree.heap (some 1)
          = some h' ∧
        SameShape exampleTree.heap h' ∧
        (∀ m ∈ parentChain exampleTree.heap (exampleTree.heap.length + 1) (some 1),
          BalanceStep h' m) ∧
        (∀ c, c ∉ parentChain exampleTree.heap (exampleTree.heap.length + 1) (some 1) →
          deref h' c = deref exampleTree.heap c)) ∧
    AVLTree.getHeight exampleTree.heap (exampleTree.heap.length + 1) (some 0) = some 2 :=
  ⟨C24_stored_balance_is_height.1 exampleTree exampleShape 1
      ⟨rfl, ⟨⟨2, rfl⟩, ⟨⟨1, rfl⟩, trivial, trivial⟩, ⟨⟨1, rfl⟩, trivial, trivial⟩⟩, by decide⟩
      (by decide) (by decide),
    C24_stored_balance_is_height.2.1 [(2, 20), (1, 10), (3, 30)] exampleTree (by decide)
      (by decide)
      (fun hgt h => by
        have h2 : AVLTree.getHeight exampleTree.heap (exampleTree.heap.length + 1)
            exampleTree.root_ = some 2 := by decide
        rw [h2] at h
        cases h
        decide)
      0 ⟨2, 20, none, some 1, some 2, 2⟩ rfl⟩

/-! ## nodeSwap on pointer fields -/

theorem swapAddr_left (a b : Nat) : swapAddr a b a = b := by simp [swapAddr]

theorem swapAddr_right (a b : Nat) : swapAddr a b b = a := by
  simp only [swapAddr]; split_ifs with h <;> simp_all

theorem swapAddr_of_ne {a b x : Nat} (ha : x ≠ a) (hb : x ≠ b) : swapAddr a b x = x := by
  simp [swapAddr, ha, hb]

theorem swapAddr_invol (a b x : Nat) : swapAddr a b (swapAddr a b x) = x := by
  simp only [swapAddr]; split_ifs <;> simp_all

theorem swapAddr_comm (a b x : Nat) : swapAddr a b x = swapAddr b a x := by
  simp only [swapAddr]; split_ifs <;> simp_all

theorem swapPtr_left (a b : Nat) : swapPtr a b (some a) = some b := by
  simp [swapPtr, swapAddr_left]

theorem swapPtr_right (a b : Nat) : swapPtr a b (some b) = some a := by
  simp [swapPtr, swapAddr_right]

theorem swapPtr_of_ne {a b : Nat} {p : Ptr} (ha : p ≠ some a) (hb : p ≠ some b) :
    swapPtr a b p = p := by
  cases p with
  | none => rfl
  | some x =>
    simp only [swapPtr]
    rw [swapAddr_of_ne (fun e => ha (by rw [e])) (fun e => hb (by rw [e]))]

theorem swapPtr_invol (a b : Nat) (p : Ptr) : swapPtr a b (swapPtr a b p) = p := by
  cases p with
  | none => rfl
  | some x => simp [swapPtr, swapAddr_invol]

theorem swapPtr_comm (a b : Nat) (p : Ptr) : swapPtr a b p = swapPtr b a p := by
  cases p with
  | none => rfl
  | some x => simp [swapPtr, swapAddr_comm a b x]

namespace TreeLinks

variable {T : Nat → Prop} {P L R : Nat → Option Ptr}

theorem leftNoSelf (W : TreeLinks T P L R) {x : Nat} (hx : T x) : L x ≠ some (some x) :=
  fun e => W.noSelf x hx (W.downL x x hx e).2

theorem rightNoSelf (W : TreeLinks T P L R) {x : Nat} (hx : T x) : R x ≠ some (some x) :=
  fun e => W.noSelf x hx (W.downR x x hx e).2

end TreeLinks

theorem swap_parent_view {T : Nat → Prop} {P L R : Nat → Option Ptr} (W : TreeLinks T P L R)
    {a b : Nat} (hab : a ≠ b) (hTa : T a) (hTb : T b)
    {n1r n1lt n2r n2lt : Ptr}
    (hRa : R a = some n1r) (hLa : L a = some n1lt)
    (hRb : R b = some n2r) (hLb : L b = some n2lt) (x : Nat) (hx : T x) :
    relP a n2r n2lt (relP b n1r n1lt (fixP a b n1r n1lt n2r n2lt (exchView a b P))) x
      = (P (swapAddr a b x)).map (swapPtr a b) := by
  obtain ⟨px, hpx⟩ := W.liveP x hx
  obtain ⟨pa, hpa⟩ := W.liveP a hTa
  obtain ⟨pb, hpb⟩ := W.liveP b hTb
  have hba : b ≠ a := Ne.symm hab
  -- the children of a node are not the node itself
  have e1 : n1lt ≠ some a := fun e => W.leftNoSelf hTa (by rw [hLa, e])
  have e2 : n1r ≠ some a := fun e => W.rightNoSelf hTa (by rw [hRa, e])
  have e3 : n2lt ≠ some b := fun e => W.leftNoSelf hTb (by rw [hLb, e])
  have e4 : n2r ≠ some b := fun e => W.rightNoSelf hTb (by rw [hRb, e])
  have e5 : pa ≠ some a := fun e => W.noSelf a hTa (by rw [hpa, e])
  have e6 : pb ≠ some b := fun e => W.noSelf b hTb (by rw [hpb, e])
  -- adjacency
  have a1 : n1r = some b → pb = some a := fun e =>
    Option.some.inj (hpb.symm.trans (W.downR b a hTa (by rw [hRa, e])).2)
  have a2 : n1lt = some b → pb = some a := fun e =>
    Option.some.inj (hpb.symm.trans (W.downL b a hTa (by rw [hLa, e])).2)
  have a3 : n2r = some a → pa = some b := fun e =>
    Option.some.inj (hpa.symm.trans (W.downR a b hTb (by rw [hRb, e])).2)
  have a4 : n2lt = some a → pa = some b := fun e =>
    Option.some.inj (hpa.symm.trans (W.downL a b hTb (by rw [hLb, e])).2)
  have a5 : pb = some a → n1lt = some b ∨ n1r = some b := fun e => by
    rcases W.up b a hTb (by rw [hpb, e]) with h | h
    · left; rw [hLa] at h; exact Option.some.inj h
    · right; rw [hRa] at h; exact Option.some.inj h
  have a6 : pa = some b → n2lt = some a ∨ n2r = some a := fun e => by
    rcases W.up a b hTa (by rw [hpa, e]) with h | h
    · left; rw [hLb] at h; exact Option.some.inj h
    · right; rw [hRb] at h; exact Option.some.inj h
  have a7 : pb = some a → pa ≠ some b := fun e e' =>
    W.noTwo b a hTb (by rw [hpb, e]) (by rw [hpa, e'])
  by_cases hxa : x = a
  · have hxa' := hxa.symm
    subst hxa'
    simp only [relP, fixP, exchView, swapAddr_left, hpb, Option.map_some', ne_eq,
      not_true_eq_false, and_false, if_false, e1, e2, false_and, if_true]
    by_cases c1 : n1r = some b
    · simp [c1, a1 c1, swapPtr_left]
    · by_cases c3 : n1lt = some b
      · have := a7 (a2 c3)
        have c2 : n2r ≠ some a := fun e => this (a3 e)
        simp [c1, c2, c3, a2 c3, swapPtr_left]
      · have hpb' : pb ≠ some a := fun e => by
          rcases a5 e with h | h
          · exact c3 h
          · exact c1 h
        simp [c1, c3, hab, hba, swapPtr_of_ne hpb' e6]
  · by_cases hxb : x = b
    · have hxb' := hxb.symm
      subst hxb'
      simp only [relP, fixP, exchView, swapAddr_right, hpa, Option.map_some', ne_eq,
        not_true_eq_false, and_false, if_false, e3, e4, false_and, if_true, if_neg hba]
      by_cases c2 : n2r = some a
      · have c1 : n1r ≠ some b := fun e => a7 (a1 e) (a3 c2)
        simp [c1, c2, a3 c2, swapPtr_right]
      · by_cases c4 : n2lt = some a
        · have c1 : n1r ≠ some b := fun e => a7 (a1 e) (a4 c4)
          have c3 : n1lt ≠ some b := fun e => a7 (a2 e) (a4 c4)
          simp [c1, c2, c3, c4, a4 c4, swapPtr_right]
        · have hpa' : pa ≠ some b := fun e => by
            rcases a6 e with h | h
            · exact c4 h
            · exact c2 h
          simp [c2, c4, hab, hba, swapPtr_of_ne e5 hpa']
    · have hfix : fixP a b n1r n1lt n2r n2lt (exchView a b P) x = P x := by
        simp only [fixP, exchView, if_neg hxa, if_neg hxb]
        split_ifs <;> rfl
      simp only [relP, hfix, swapAddr_of_ne hxa hxb, hpx, Option.map_some', ne_eq, hxa, hxb,
        not_false_eq_true, and_true]
      by_cases d1 : n2lt = some x
      · have : px = some b :=
          Option.some.inj (hpx.symm.trans (W.downL x b hTb (by rw [hLb, d1])).2)
        simp [d1, this, swapPtr_right]
      · by_cases d2 : n2r = some x
        · have : px = some b :=
            Option.some.inj (hpx.symm.trans (W.downR x b hTb (by rw [hRb, d2])).2)
          simp [d1, d2, this, swapPtr_right]
        · by_cases d3 : n1lt = some x
          · have : px = some a :=
              Option.some.inj (hpx.symm.trans (W.downL x a hTa (by rw [hLa, d3])).2)
            simp [d1, d2, d3, this, swapPtr_left]
          · by_cases d4 : n1r = some x
            · have : px = some a :=
                Option.some.inj (hpx.symm.trans (W.downR x a hTa (by rw [hRa, d4])).2)
              simp [d1, d2, d3, d4, this, swapPtr_left]
            · have h1 : px ≠ some a := fun e => by
                rcases W.up x a hx (by rw [hpx, e]) with h | h
                · rw [hLa] at h; exact d3 (Option.some.inj h)
                · rw [hRa] at h; exact d4 (Option.some.inj h)
              have h2 : px ≠ some b := fun e => by
                rcases W.up x b hx (by rw [hpx, e]) with h | h
                · rw [hLb] at h; exact d1 (Option.some.inj h)
                · rw [hRb] at h; exact d2 (Option.some.inj h)
              simp [d1, d2, d3, d4, swapPtr_of_ne h1 h2]

theorem swap_left_view {T : Nat → Prop} {P L R : Nat → Option Ptr} (W : TreeLinks T P L R)
    {a b : Nat} (hab : a ≠ b) (hTa : T a) (hTb : T b)
    {n1p n1r n1lt n2p n2r n2lt : Ptr} {l1 l2 : Bool}
    (hPa : P a = some n1p) (hRa : R a = some n1r) (hLa : L a = some n1lt)
    (hPb : P b = some n2p) (hRb : R b = some n2r) (hLb : L b = some n2lt)
    (hl1 : ∀ p, n1p = some p → (l1 = true ↔ L p = some (some a)))
    (hl2 : ∀ p, n2p = some p → (l2 = true ↔ L p = some (some b))) (x : Nat) (hx : T x) :
    relL a n2p l2 (relL b n1p l1 (fixL a b n1r n1lt n2r n2lt (exchView a b L))) x
      = (L (swapAddr a b x)).map (swapPtr a b) := by
  obtain ⟨lx, hlx⟩ := W.liveL x hx
  have hba : b ≠ a := Ne.symm hab
  have e1 : n1lt ≠ some a := fun e => W.leftNoSelf hTa (by rw [hLa, e])
  have e3 : n2lt ≠ some b := fun e => W.leftNoSelf hTb (by rw [hLb, e])
  have e5 : n1p ≠ some a := fun e => W.noSelf a hTa (by rw [hPa, e])
  have e6 : n2p ≠ some b := fun e => W.noSelf b hTb (by rw [hPb, e])
  have a1 : n1r = some b → n2p = some a := fun e =>
    Option.some.inj (hPb.symm.trans (W.downR b a hTa (by rw [hRa, e])).2)
  have a2 : n1lt = some b → n2p = some a := fun e =>
    Option.some.inj (hPb.symm.trans (W.downL b a hTa (by rw [hLa, e])).2)
  have a3 : n2r = some a → n1p = some b := fun e =>
    Option.some.inj (hPa.symm.trans (W.downR a b hTb (by rw [hRb, e])).2)
  have a4 : n2lt = some a → n1p = some b := fun e =>
    Option.some.inj (hPa.symm.trans (W.downL a b hTb (by rw [hLb, e])).2)
  have a7 : n2p = some a → n1p ≠ some b := fun e e' =>
    W.noTwo b a hTb (by rw [hPb, e]) (by rw [hPa, e'])
  have a8 : n1lt = some b → n1r ≠ some b := fun e e' =>
    W.distinct a b hTa (by rw [hLa, e]) (by rw [hRa, e'])
  have a9 : n2lt = some a → n2r ≠ some a := fun e e' =>
    W.distinct b a hTb (by rw [hLb, e]) (by rw [hRb, e'])
  by_cases hxa : x = a
  · have hxa' := hxa.symm
    subst hxa'
    simp only [relL, fixL, exchView, swapAddr_left, hLb, Option.map_some', ne_eq,
      not_true_eq_false, false_and, and_false, if_false, e5, if_true, if_neg hab]
    by_cases c4 : n2lt = some a
    · have c1 : n1r ≠ some b := fun e => a7 (a1 e) (a4 c4)
      have c2 : n2r ≠ some a := a9 c4
      have c3 : n1lt ≠ some b := fun e => a7 (a2 e) (a4 c4)
      simp [c1, c2, c3, c4, swapPtr_left]
    · simp only [if_neg c4, ite_self, swapPtr_of_ne c4 e3]
  · by_cases hxb : x = b
    · have hxb' := hxb.symm
      subst hxb'
      simp only [relL, fixL, exchView, swapAddr_right, hLa, Option.map_some', ne_eq,
        not_true_eq_false, false_and, and_false, if_false, e6, if_true, if_neg hba]
      by_cases c3 : n1lt = some b
      · have c1 : n1r ≠ some b := a8 c3
        have c2 : n2r ≠ some a := fun e => a7 (a2 c3) (a3 e)
        simp [c1, c2, c3, swapPtr_right]
      · simp only [if_neg c3, ite_self, swapPtr_of_ne e1 c3]
    · have hfix : fixL a b n1r n1lt n2r n2lt (exchView a b L) x = L x := by
        simp only [fixL, exchView, if_neg hxa, if_neg hxb]
        split_ifs <;> rfl
      simp only [relL, hfix, swapAddr_of_ne hxa hxb, hlx, Option.map_some', ne_eq, hxa, hxb,
        not_false_eq_true, true_and]
      by_cases d1 : lx = some b
      · have hp : n2p = some x :=
          Option.some.inj (hPb.symm.trans (W.downL b x hx (by rw [hlx, d1])).2)
        have : l2 = true := (hl2 x hp).2 (by rw [hlx, d1])
        simp [hp, this, d1, swapPtr_right]
      · have c1 : ¬ (n2p = some x ∧ l2 = true) := fun ⟨hp, hl⟩ =>
          d1 (Option.some.inj (hlx.symm.trans ((hl2 x hp).1 hl)))
        by_cases d2 : lx = some a
        · have hp : n1p = some x :=
            Option.some.inj (hPa.symm.trans (W.downL a x hx (by rw [hlx, d2])).2)
          have : l1 = true := (hl1 x hp).2 (by rw [hlx, d2])
          simp [c1, hp, this, d2, swapPtr_left]
        · have c2 : ¬ (n1p = some x ∧ l1 = true) := fun ⟨hp, hl⟩ =>
            d2 (Option.some.inj (hlx.symm.trans ((hl1 x hp).1 hl)))
          simp [c1, c2, swapPtr_of_ne d2 d1]

theorem swap_right_view {T : Nat → Prop} {P L R : Nat → Option Ptr} (W : TreeLinks T P L R)
    {a b : Nat} (hab : a ≠ b) (hTa : T a) (hTb : T b)
    {n1p n1r n2p n2r : Ptr} {l1 l2 : Bool}
    (hPa : P a = some n1p) (hRa : R a = some n1r)
    (hPb : P b = some n2p) (hRb : R b = some n2r)
    (hl1 : ∀ p, n1p = some p → (l1 = true ↔ L p = some (some a)))
    (hl2 : ∀ p, n2p = some p → (l2 = true ↔ L p = some (some b))) (x : Nat) (hx : T x) :
    relR a n2p l2 (relR b n1p l1 (fixR a b n1r n2r (exchView a b R))) x
      = (R (swapAddr a b x)).map (swapPtr a b) := by
  obtain ⟨rx, hrx⟩ := W.liveR x hx
  have hba : b ≠ a := Ne.symm hab
  have e2 : n1r ≠ some a := fun e => W.rightNoSelf hTa (by rw [hRa, e])
  have e4 : n2r ≠ some b := fun e => W.rightNoSelf hTb (by rw [hRb, e])
  have e5 : n1p ≠ some a := fun e => W.noSelf a hTa (by rw [hPa, e])
  have e6 : n2p ≠ some b := fun e => W.noSelf b hTb (by rw [hPb, e])
  have a1 : n1r = some b → n2p = some a := fun e =>
    Option.some.inj (hPb.symm.trans (W.downR b a hTa (by rw [hRa, e])).2)
  have a3 : n2r = some a → n1p = some b := fun e =>
    Option.some.inj (hPa.symm.trans (W.downR a b hTb (by rw [hRb, e])).2)
  have a7 : n2p = some a → n1p ≠ some b := fun e e' =>
    W.noTwo b a hTb (by rw [hPb, e]) (by rw [hPa, e'])
  by_cases hxa : x = a
  · have hxa' := hxa.symm
    subst hxa'
    simp only [relR, fixR, exchView, swapAddr_left, hRb, Option.map_some', ne_eq,
      not_true_eq_false, false_and, and_false, if_false, e5, if_true, if_neg hab]
    by_cases c2 : n2r = some a
    · have c1 : n1r ≠ some b := fun e => a7 (a1 e) (a3 c2)
      simp [c1, c2, swapPtr_left]
    · simp only [if_neg c2, ite_self, swapPtr_of_ne c2 e4]
  · by_cases hxb : x = b
    · have hxb' := hxb.symm
      subst hxb'
      simp only [relR, fixR, exchView, swapAddr_right, hRa, Option.map_some', ne_eq,
        not_true_eq_false, false_and, and_false, if_false, e6, if_true, if_neg hba]
      by_cases c1 : n1r = some b
      · simp [c1, swapPtr_right]
      · simp only [if_neg c1, ite_self, swapPtr_of_ne e2 c1]
    · have hfix : fixR a b n1r n2r (exchView a b R) x = R x := by
        simp only [fixR, exchView, if_neg hxa, if_neg hxb]
        split_ifs <;> rfl
      simp only [relR, hfix, swapAddr_of_ne hxa hxb, hrx, Option.map_some', ne_eq, hxa, hxb,
        not_false_eq_true, true_and]
      -- the slot of a parent that holds a child: left exactly when the flag is set
      have key : ∀ {c : Nat} {np : Ptr} {l : Bool}, T c → P c = some np →
          (∀ p, np = some p → (l = true ↔ L p = some (some c))) →
          (rx = some c ↔ (np = some x ∧ l = false)) := by
        intro c np l hTc hPc hl
        constructor
        · intro e
          have hp : np = some x :=
            Option.some.inj (hPc.symm.trans (W.downR c x hx (by rw [hrx, e])).2)
          refine ⟨hp, ?_⟩
          cases hlb : l with
          | false => rfl
          | true =>
            exact absurd (by rw [hrx, e]) (W.distinct x c hx ((hl x hp).1 hlb))
        · rintro ⟨hp, hlf⟩
          rcases W.up c x hTc (by rw [hPc, hp]) with h | h
          · have := (hl x hp).2 h
            rw [hlf] at this
            cases this
          · rw [hrx] at h; exact Option.some.inj h
      by_cases d1 : rx = some b
      · simp [(key hTb hPb hl2).1 d1, d1, swapPtr_right]
      · have c1 : ¬ (n2p = some x ∧ l2 = false) := fun hc => d1 ((key hTb hPb hl2).2 hc)
        by_cases d2 : rx = some a
        · simp [c1, (key hTa hPa hl1).1 d2, d2, swapPtr_left]
        · have c2 : ¬ (n1p = some x ∧ l1 = false) := fun hc => d2 ((key hTa hPa hl1).2 hc)
          simp [c1, c2, swapPtr_of_ne d2 d1]

/-! ## nodeSwap on the store -/

theorem hasView_self (h : Heap) :
    HasView h h.length (payload h) (getParent h) (getLeft h) (getRight h) :=
  ⟨rfl, fun _ => rfl, fun _ => rfl, fun _ => rfl, fun _ => rfl⟩

theorem HasView.live {h : Heap} {n : Nat} {pay : Nat → Option (Int × Int × Int)}
    {P L R : Nat → Option Ptr} (hv : HasView h n pay P L R) {x : Nat}
    (hx : ∃ v, pay x = some v) : ∃ nd, deref h x = some nd := by
  obtain ⟨v, e⟩ := hx
  have := hv.payl x
  rw [e] at this
  unfold payload at this
  cases hd : deref h x with
  | none => rw [hd] at this; cases this
  | some nd => exact ⟨nd, rfl⟩

theorem HasView.congr {h : Heap} {n : Nat} {pay : Nat → Option (Int × Int × Int)}
    {P L R P' L' R' : Nat → Option Ptr} (hv : HasView h n pay P L R)
    (hP : ∀ x, P x = P' x) (hL : ∀ x, L x = L' x) (hR : ∀ x, R x = R' x) :
    HasView h n pay P' L' R' :=
  ⟨hv.len, hv.payl, fun x => (hv.par x).trans (hP x), fun x => (hv.left x).trans (hL x),
    fun x => (hv.right x).trans (hR x)⟩

theorem setParent_view {h : Heap} {n : Nat} {pay : Nat → Option (Int × Int × Int)}
    {P L R : Nat → Option Ptr} (hv : HasView h n pay P L R) {x : Nat}
    (hx : ∃ v, pay x = some v) (q : Ptr) :
    ∃ h', setParent h x q = some h' ∧
      HasView h' n pay (fun y => if y = x then some q else P y) L R := by
  obtain ⟨nd, e⟩ := hv.live hx
  refine ⟨store h x { nd with parent_ := q }, by simp only [setParent, e, Option.map_some'],
    ?_, ?_, ?_, ?_, ?_⟩
  · rw [length_store]; exact hv.len
  · intro y
    rw [← hv.payl y]
    unfold payload
    rw [deref_store]
    split_ifs with hc
    · obtain ⟨rfl, _⟩ := hc; rw [e]; rfl
    · rfl
  · intro y
    unfold getParent
    rw [deref_store]
    by_cases hy : y = x
    · subst hy; simp [deref_lt e]
    · rw [if_neg (fun hc => hy hc.1.symm), if_neg hy]; exact hv.par y
  · intro y
    rw [← hv.left y]
    unfold getLeft
    rw [deref_store]
    split_ifs with hc
    · obtain ⟨rfl, _⟩ := hc; rw [e]; rfl
    · rfl
  · intro y
    rw [← hv.right y]
    unfold getRight
    rw [deref_store]
    split_ifs with hc
    · obtain ⟨rfl, _⟩ := hc; rw [e]; rfl
    · rfl

theorem setLeft_view {h : Heap} {n : Nat} {pay : Nat → Option (Int × Int × Int)}
    {P L R : Nat → Option Ptr} (hv : HasView h n pay P L R) {x : Nat}
    (hx : ∃ v, pay x = some v) (q : Ptr) :
    ∃ h', setLeft h x q = some h' ∧
      HasView h' n pay P (fun y => if y = x then some q else L y) R := by
  obtain ⟨nd, e⟩ := hv.live hx
  refine ⟨store h x { nd with left_ := q }, by simp only [setLeft, e, Option.map_some'],
    ?_, ?_, ?_, ?_, ?_⟩
  · rw [length_store]; exact hv.len
  · intro y
    rw [← hv.payl y]
    unfold payload
    rw [deref_store]
    split_ifs with hc
    · obtain ⟨rfl, _⟩ := hc; rw [e]; rfl
    · rfl
  · intro y
    rw [← hv.par y]
    unfold getParent
    rw [deref_store]
    split_ifs with hc
    · obtain ⟨rfl, _⟩ := hc; rw [e]; rfl
    · rfl
  · intro y
    unfold getLeft
    rw [deref_store]
    by_cases hy : y = x
    · subst hy; simp [deref_lt e]
    · rw [if_neg (fun hc => hy hc.1.symm), if_neg hy]; exact hv.left y
  · intro y
    rw [← hv.right y]
    unfold getRight
    rw [deref_store]
    split_ifs with hc
    · obtain ⟨rfl, _⟩ := hc; rw [e]; rfl
    · rfl

theorem setRight_view {h : Heap} {n : Nat} {pay : Nat → Option (Int × Int × Int)}
    {P L R : Nat → Option Ptr} (hv : HasView h n pay P L R) {x : Nat}
    (hx : ∃ v, pay x = some v) (q : Ptr) :
    ∃ h', setRight h x q = some h' ∧
      HasView h' n pay P L (fun y => if y = x then some q else R y) := by
  obtain ⟨nd, e⟩ := hv.live hx
  refine ⟨store h x { nd with right_ := q }, by simp only [setRight, e, Option.map_some'],
    ?_, ?_, ?_, ?_, ?_⟩
  · rw [length_store]; exact hv.len
  · intro y
    rw [← hv.payl y]
    unfold payload
    rw [deref_store]
    split_ifs with hc
    · obtain ⟨rfl, _⟩ := hc; rw [e]; rfl
    · rfl
  · intro y
    rw [← hv.par y]
    unfold getParent
    rw [deref_store]
    split_ifs with hc
    · obtain ⟨rfl, _⟩ := hc; rw [e]; rfl
    · rfl
  · intro y
    rw [← hv.left y]
    unfold getLeft
    rw [deref_store]
    split_ifs with hc
    · obtain ⟨rfl, _⟩ := hc; rw [e]; rfl
    · rfl
  · intro y
    unfold getRight
    rw [deref_store]
    by_cases hy : y = x
    · subst hy; simp [deref_lt e]
    · rw [if_neg (fun hc => hy hc.1.symm), if_neg hy]; exact hv.right y

theorem swapLinks_view {h : Heap} {n : Nat} {pay : Nat → Option (Int × Int × Int)}
    {P L R : Nat → Option Ptr} (hv : HasView h n pay P L R) {a b : Nat} (hab : a ≠ b)
    (ha : ∃ v, pay a = some v) (hb : ∃ v, pay b = some v)
    {n1p n1r n1lt n2p n2r n2lt : Ptr}
    (hPa : P a = some n1p) (hRa : R a = some n1r) (hLa : L a = some n1lt)
    (hPb : P b = some n2p) (hRb : R b = some n2r) (hLb : L b = some n2lt) :
    ∃ h', BinarySearchTree.swapLinks h a b = some h' ∧
      HasView h' n pay (exchView a b P) (exchView a b L) (exchView a b R) := by
  have hba : b ≠ a := Ne.symm hab
  obtain ⟨h1, e1, v1⟩ := setParent_view hv ha n2p
  obtain ⟨h2, e2, v2⟩ := setParent_view v1 hb n1p
  obtain ⟨h3, e3, v3⟩ := setLeft_view v2 ha n2lt
  obtain ⟨h4, e4, v4⟩ := setLeft_view v3 hb n1lt
  obtain ⟨h5, e5, v5⟩ := setRight_view v4 ha n2r
  obtain ⟨h6, e6, v6⟩ := setRight_view v5 hb n1r
  refine ⟨h6, ?_, v6.congr ?_ ?_ ?_⟩
  · unfold BinarySearchTree.swapLinks
    rw [hv.par a, hv.par b, hPa, hPb]
    simp only [Option.some_bind, e1, e2]
    rw [v2.left a, v2.left b, hLa, hLb]
    simp only [Option.some_bind, e3, e4]
    rw [v4.right a, v4.right b, hRa, hRb]
    simp only [Option.some_bind, e5, e6]
  · intro x
    simp only [exchView]
    by_cases hxa : x = a
    · subst hxa; simp [hab, hPb]
    · by_cases hxb : x = b
      · subst hxb; simp [hPa, hxa]
      · simp [hxa, hxb]
  · intro x
    simp only [exchView]
    by_cases hxa : x = a
    · subst hxa; simp [hab, hLb]
    · by_cases hxb : x = b
      · subst hxb; simp [hLa, hxa]
      · simp [hxa, hxb]
  · intro x
    simp only [exchView]
    by_cases hxa : x = a
    · subst hxa; simp [hab, hRb]
    · by_cases hxb : x = b
      · subst hxb; simp [hRa, hxa]
      · simp [hxa, hxb]

theorem fixAdjacent_view {h : Heap} {n : Nat} {pay : Nat → Option (Int × Int × Int)}
    {P L R : Nat → Option Ptr} (hv : HasView h n pay P L R) {a b : Nat}
    (ha : ∃ v, pay a = some v) (hb : ∃ v, pay b = some v) (n1r n1lt n2r n2lt : Ptr) :
    ∃ h', BinarySearchTree.fixAdjacent h a b n1r n1lt n2r n2lt = some h' ∧
      HasView h' n pay (fixP a b n1r n1lt n2r n2lt P) (fixL a b n1r n1lt n2r n2lt L)
        (fixR a b n1r n2r R) := by
  have hsome : ∀ {p : Ptr} {c : Nat}, p = some c → (p ≠ none ∧ p = some c) :=
    fun e => ⟨by rw [e]; simp, e⟩
  unfold BinarySearchTree.fixAdjacent
  by_cases c1 : n1r = some b
  · obtain ⟨h1, e1, v1⟩ := setRight_view hv hb (some a)
    obtain ⟨h2, e2, v2⟩ := setParent_view v1 ha (some b)
    refine ⟨h2, by rw [if_pos (hsome c1), e1]; exact e2, v2.congr ?_ ?_ ?_⟩
    · intro x; simp only [fixP, if_pos c1]
    · intro x; simp only [fixL, if_pos c1]
    · intro x; simp only [fixR, if_pos c1]
  · rw [if_neg (fun hc => c1 hc.2)]
    by_cases c2 : n2r = some a
    · obtain ⟨h1, e1, v1⟩ := setRight_view hv ha (some b)
      obtain ⟨h2, e2, v2⟩ := setParent_view v1 hb (some a)
      refine ⟨h2, by rw [if_pos (hsome c2), e1]; exact e2, v2.congr ?_ ?_ ?_⟩
      · intro x; simp only [fixP, if_neg c1, if_pos c2]
      · intro x; simp only [fixL, if_neg c1, if_pos c2]
      · intro x; simp only [fixR, if_neg c1, if_pos c2]
    · rw [if_neg (fun hc => c2 hc.2)]
      by_cases c3 : n1lt = some b
      · obtain ⟨h1, e1, v1⟩ := setLeft_view hv hb (some a)
        obtain ⟨h2, e2, v2⟩ := setParent_view v1 ha (some b)
        refine ⟨h2, by rw [if_pos (hsome c3), e1]; exact e2, v2.congr ?_ ?_ ?_⟩
        · intro x; simp only [fixP, if_neg c1, if_neg c2, if_pos c3]
        · intro x; simp only [fixL, if_neg c1, if_neg c2, if_pos c3]
        · intro x; simp only [fixR, if_neg c1, if_neg c2]
      · rw [if_neg (fun hc => c3 hc.2)]
        by_cases c4 : n2lt = some a
        · obtain ⟨h1, e1, v1⟩ := setLeft_view hv ha (some b)
          obtain ⟨h2, e2, v2⟩ := setParent_view v1 hb (some a)
          refine ⟨h2, by rw [if_pos (hsome c4), e1]; exact e2, v2.congr ?_ ?_ ?_⟩
          · intro x; simp only [fixP, if_neg c1, if_neg c2, if_neg c3, if_pos c4]
          · intro x; simp only [fixL, if_neg c1, if_neg c2, if_neg c3, if_pos c4]
          · intro x; simp only [fixR, if_neg c1, if_neg c2]
        · rw [if_neg (fun hc => c4 hc.2)]
          refine ⟨h, rfl, hv.congr ?_ ?_ ?_⟩
          · intro x; simp only [fixP, if_neg c1, if_neg c2, if_neg c3, if_neg c4]
          · intro x; simp only [fixL, if_neg c1, if_neg c2, if_neg c3, if_neg c4]
          · intro x; simp only [fixR, if_neg c1, if_neg c2]

theorem setParentAt_view {h : Heap} {n : Nat} {pay : Nat → Option (Int × Int × Int)}
    {P L R : Nat → Option Ptr} (hv : HasView h n pay P L R) (b : Nat) {nr : Ptr}
    (hlive : ∀ c, nr = some c → c ≠ b → ∃ v, pay c = some v) :
    ∃ h', (if nr ≠ none ∧ nr ≠ some b then setParentAt h nr (some b) else some h) = some h' ∧
      HasView h' n pay (fun x => if nr = some x ∧ x ≠ b then some (some b) else P x) L R := by
  cases nr with
  | none =>
    refine ⟨h, by simp, hv.congr (fun x => ?_) (fun _ => rfl) (fun _ => rfl)⟩
    simp
  | some c =>
    by_cases hc : c = b
    · subst hc
      refine ⟨h, by simp, hv.congr (fun x => ?_) (fun _ => rfl) (fun _ => rfl)⟩
      have : ¬ (some c = some x ∧ x ≠ c) := fun ⟨e1, e2⟩ => e2 (Option.some.inj e1).symm
      rw [if_neg this]
    · obtain ⟨h1, e1, v1⟩ := setParent_view hv (hlive c rfl hc) (some b)
      have hcond : (some c : Ptr) ≠ none ∧ (some c : Ptr) ≠ some b :=
        ⟨by simp, fun e => hc (Option.some.inj e)⟩
      refine ⟨h1, by rw [if_pos hcond]; exact e1, v1.congr (fun x => ?_) (fun _ => rfl)
        (fun _ => rfl)⟩
      by_cases hx : x = c
      · subst hx; simp [hc]
      · have : ¬ (some c = some x ∧ x ≠ b) := fun ⟨e1, _⟩ => hx (Option.some.inj e1).symm
        rw [if_neg hx, if_neg this]

theorem relinkNeighbours_view {h : Heap} {n : Nat} {pay : Nat → Option (Int × Int × Int)}
    {P L R : Nat → Option Ptr} (hv : HasView h n pay P L R) (b : Nat) (np nr nlt : Ptr)
    (isLeft : Bool)
    (hp : ∀ c, np = some c → c ≠ b → ∃ v, pay c = some v)
    (hr : ∀ c, nr = some c → c ≠ b → ∃ v, pay c = some v)
    (hl : ∀ c, nlt = some c → c ≠ b → ∃ v, pay c = some v) :
    ∃ h', BinarySearchTree.relinkNeighbours h b np nr nlt isLeft = some h' ∧
      HasView h' n pay (relP b nr nlt P) (relL b np isLeft L) (relR b np isLeft R) := by
  have tail : ∀ h1, HasView h1 n pay P (relL b np isLeft L) (relR b np isLeft R) →
      ∃ h', ((if nr ≠ none ∧ nr ≠ some b then setParentAt h1 nr (some b) else some h1).bind
          fun h => (if nlt ≠ none ∧ nlt ≠ some b then setParentAt h nlt (some b) else some h))
          = some h' ∧
        HasView h' n pay (relP b nr nlt P) (relL b np isLeft L) (relR b np isLeft R) := by
    intro h1 v1
    obtain ⟨h2, e2, v2⟩ := setParentAt_view v1 b hr
    obtain ⟨h3, e3, v3⟩ := setParentAt_view v2 b hl
    refine ⟨h3, ?_, v3.congr (fun _ => rfl) (fun _ => rfl) (fun _ => rfl)⟩
    rw [e2]
    simp only [Option.some_bind]
    exact e3
  unfold BinarySearchTree.relinkNeighbours
  cases np with
  | none =>
    obtain ⟨h', e', v'⟩ := tail h (hv.congr (fun _ => rfl) (fun x => by simp [relL])
      (fun x => by simp [relR]))
    exact ⟨h', by simpa only [Option.some_bind] using e', v'⟩
  | some pa =>
    by_cases hc : pa = b
    · subst hc
      have hv1 : HasView h n pay P (relL pa (some pa) isLeft L) (relR pa (some pa) isLeft R) := by
        refine hv.congr (fun _ => rfl) (fun x => ?_) (fun x => ?_)
        · have : ¬ (some pa = some x ∧ x ≠ pa ∧ isLeft = true) :=
            fun ⟨e1, e2, _⟩ => e2 (Option.some.inj e1).symm
          simp only [relL, if_neg this]
        · have : ¬ (some pa = some x ∧ x ≠ pa ∧ isLeft = false) :=
            fun ⟨e1, e2, _⟩ => e2 (Option.some.inj e1).symm
          simp only [relR, if_neg this]
      obtain ⟨h', e', v'⟩ := tail h hv1
      refine ⟨h', ?_, v'⟩
      simp only [ne_eq, not_true_eq_false, if_false, Option.some_bind]
      exact e'
    · have hne : (some pa : Ptr) ≠ some b := fun e => hc (Option.some.inj e)
      have hn : ∀ x, x ≠ pa → ¬ ((some pa : Ptr) = some x) :=
        fun x hx e => hx (Option.some.inj e).symm
      cases isLeft with
      | true =>
        obtain ⟨h1, e1, v1⟩ := setLeft_view hv (hp pa rfl hc) (some b)
        have hv1 : HasView h1 n pay P (relL b (some pa) true L) (relR b (some pa) true R) := by
          refine v1.congr (fun _ => rfl) (fun x => ?_) (fun x => ?_)
          · by_cases hx : x = pa
            · subst hx; simp [relL, hc]
            · simp [relL, hx, hn x hx]
          · simp [relR]
        obtain ⟨h', e', v'⟩ := tail h1 hv1
        refine ⟨h', ?_, v'⟩
        simp only [if_pos hne, if_true, e1, Option.some_bind]
        exact e'
      | false =>
        obtain ⟨h1, e1, v1⟩ := setRight_view hv (hp pa rfl hc) (some b)
        have hv1 : HasView h1 n pay P (relL b (some pa) false L) (relR b (some pa) false R) := by
          refine v1.congr (fun _ => rfl) (fun x => ?_) (fun x => ?_)
          · simp [relL]
          · by_cases hx : x = pa
            · subst hx; simp [relR, hc]
            · simp [relR, hx, hn x hx]
        obtain ⟨h', e', v'⟩ := tail h1 hv1
        refine ⟨h', ?_, v'⟩
        simp only [if_pos hne, Bool.false_eq_true, if_false, e1, Option.some_bind]
        exact e'

theorem isLeftChild_view {h : Heap} {n : Nat} {pay : Nat → Option (Int × Int × Int)}
    {P L R : Nat → Option Ptr} (hv : HasView h n pay P L R) (a : Nat) (np : Ptr)
    (hp : ∀ p, np = some p → ∃ l, L p = some l) :
    ∃ fl, BinarySearchTree.isLeftChild h a np = some fl ∧
      ∀ p, np = some p → (fl = true ↔ L p = some (some a)) := by
  cases np with
  | none => exact ⟨false, rfl, fun p e => by cases e⟩
  | some pa =>
    obtain ⟨l, hl⟩ := hp pa rfl
    refine ⟨decide (some a = l), by simp [BinarySearchTree.isLeftChild, hv.left pa, hl], ?_⟩
    intro p e
    cases e
    rw [hl]
    simp only [decide_eq_true_eq, Option.some.injEq]
    exact eq_comm

theorem root_swap (a b : Nat) (r : Ptr) :
    (if r = some a then some b else if r = some b then some a else r) = swapPtr a b r := by
  cases r with
  | none => simp [swapPtr]
  | some x =>
    simp only [swapPtr, swapAddr, Option.some.injEq]
    split_ifs <;> rfl

theorem swap_frame_view {T : Nat → Prop} {P L R : Nat → Option Ptr} (W : TreeLinks T P L R)
    {a b : Nat} (hTa : T a) (hTb : T b)
    {n1p n1r n1lt n2p n2r n2lt : Ptr} (l1 l2 : Bool)
    (hPa : P a = some n1p) (hRa : R a = some n1r) (hLa : L a = some n1lt)
    (hPb : P b = some n2p) (hRb : R b = some n2r) (hLb : L b = some n2lt)
    (x : Nat) (hx : ¬ T x) :
    relP a n2r n2lt (relP b n1r n1lt (fixP a b n1r n1lt n2r n2lt (exchView a b P))) x = P x ∧
    relL a n2p l2 (relL b n1p l1 (fixL a b n1r n1lt n2r n2lt (exchView a b L))) x = L x ∧
    relR a n2p l2 (relR b n1p l1 (fixR a b n1r n2r (exchView a b R))) x = R x := by
  have hxa : x ≠ a := fun e => hx (e ▸ hTa)
  have hxb : x ≠ b := fun e => hx (e ▸ hTb)
  have f1 : n1p ≠ some x := fun e => hx (W.closedP a x hTa (by rw [hPa, e]))
  have f2 : n1r ≠ some x := fun e => hx (W.downR x a hTa (by rw [hRa, e])).1
  have f3 : n1lt ≠ some x := fun e => hx (W.downL x a hTa (by rw [hLa, e])).1
  have f4 : n2p ≠ some x := fun e => hx (W.closedP b x hTb (by rw [hPb, e]))
  have f5 : n2r ≠ some x := fun e => hx (W.downR x b hTb (by rw [hRb, e])).1
  have f6 : n2lt ≠ some x := fun e => hx (W.downL x b hTb (by rw [hLb, e])).1
  refine ⟨?_, ?_, ?_⟩
  · simp only [relP, fixP, exchView, f2, f3, f5, f6, false_and, if_false, if_neg hxa, if_neg hxb]
    split_ifs <;> rfl
  · simp only [relL, fixL, exchView, f1, f4, false_and, if_false, if_neg hxa, if_neg hxb]
    split_ifs <;> rfl
  · simp only [relR, fixR, exchView, f1, f4, false_and, if_false, if_neg hxa, if_neg hxb]
    split_ifs <;> rfl

theorem payload_of_getParent {h : Heap} {x : Nat} {p : Ptr} (e : getParent h x = some p) :
    ∃ v, payload h x = some v := by
  unfold getParent at e
  unfold payload
  cases hd : deref h x with
  | none => rw [hd] at e; cases e
  | some nd => exact ⟨_, rfl⟩

theorem nodeSwap_fields {t : TreeState} {T : Nat → Prop}
    (W : TreeLinks T (getParent t.heap) (getLeft t.heap) (getRight t.heap)) {a b : Nat}
    (hab : a ≠ b) (hTa : T a) (hTb : T b) :
    ∃ h', BinarySearchTree.nodeSwap t (some a) (some b)
        = some { root_ := swapPtr a b t.root_, heap := h' } ∧
      h'.length = t.heap.length ∧ (∀ x, payload h' x = payload t.heap x) ∧
      (∀ x, T x →
        getParent h' x = (getParent t.heap (swapAddr a b x)).map (swapPtr a b) ∧
        getLeft h' x = (getLeft t.heap (swapAddr a b x)).map (swapPtr a b) ∧
        getRight h' x = (getRight t.heap (swapAddr a b x)).map (swapPtr a b)) ∧
      (∀ x, ¬ T x → getParent h' x = getParent t.heap x ∧ getLeft h' x = getLeft t.heap x ∧
        getRight h' x = getRight t.heap x) := by
  have hlive : ∀ x, T x → ∃ v, payload t.heap x = some v := fun x hx => by
    obtain ⟨p, hp⟩ := W.liveP x hx
    exact payload_of_getParent hp
  obtain ⟨n1p, hPa⟩ := W.liveP a hTa
  obtain ⟨n1r, hRa⟩ := W.liveR a hTa
  obtain ⟨n1lt, hLa⟩ := W.liveL a hTa
  obtain ⟨n2p, hPb⟩ := W.liveP b hTb
  obtain ⟨n2r, hRb⟩ := W.liveR b hTb
  obtain ⟨n2lt, hLb⟩ := W.liveL b hTb
  have hv := hasView_self t.heap
  obtain ⟨l1, el1, hl1⟩ := isLeftChild_view hv a n1p
    (fun p e => W.liveL p (W.closedP a p hTa (by rw [hPa, e])))
  obtain ⟨l2, el2, hl2⟩ := isLeftChild_view hv b n2p
    (fun p e => W.liveL p (W.closedP b p hTb (by rw [hPb, e])))
  obtain ⟨h1, e1, v1⟩ := swapLinks_view hv hab (hlive a hTa) (hlive b hTb) hPa hRa hLa hPb hRb hLb
  obtain ⟨h2, e2, v2⟩ := fixAdjacent_view v1 (hlive a hTa) (hlive b hTb) n1r n1lt n2r n2lt
  obtain ⟨h3, e3, v3⟩ := relinkNeighbours_view v2 b n1p n1r n1lt l1
    (fun c e _ => hlive c (W.closedP a c hTa (by rw [hPa, e])))
    (fun c e _ => hlive c (W.downR c a hTa (by rw [hRa, e])).1)
    (fun c e _ => hlive c (W.downL c a hTa (by rw [hLa, e])).1)
  obtain ⟨h4, e4, v4⟩ := relinkNeighbours_view v3 a n2p n2r n2lt l2
    (fun c e _ => hlive c (W.closedP b c hTb (by rw [hPb, e])))
    (fun c e _ => hlive c (W.downR c b hTb (by rw [hRb, e])).1)
    (fun c e _ => hlive c (W.downL c b hTb (by rw [hLb, e])).1)
  refine ⟨h4, ?_, v4.len, v4.payl, fun x hx => ⟨?_, ?_, ?_⟩, fun x hx => ?_⟩
  · simp only [BinarySearchTree.nodeSwap, if_neg hab, hPa, hRa, hLa, hPb, hRb, hLb,
      Option.some_bind, el1, el2, e1, e2, e3, e4, Option.map_some', root_swap]
  · rw [v4.par x]; exact swap_parent_view W hab hTa hTb hRa hLa hRb hLb x hx
  · rw [v4.left x]; exact swap_left_view W hab hTa hTb hPa hRa hLa hPb hRb hLb hl1 hl2 x hx
  · rw [v4.right x]; exact swap_right_view W hab hTa hTb hPa hRa hPb hRb hl1 hl2 x hx
  · rw [v4.par x, v4.left x, v4.right x]
    exact swap_frame_view W hTa hTb l1 l2 hPa hRa hLa hPb hRb hLb x hx

namespace Shape

theorem rep_parent_child {h : Heap} {par : Ptr} {s : Shape} (hr : Rep h par s) {x : Nat}
    (hx : x ∈ s.addrs) {nd : AVLNode} (e : deref h x = some nd) :
    (s.ptr = some x ∧ nd.parent_ = par) ∨
      ∃ pa pnd, nd.parent_ = some pa ∧ pa ∈ s.addrs ∧ deref h pa = some pnd ∧
        (pnd.left_ = some x ∨ pnd.right_ = some x) := by
  induction s generalizing par with
  | nil => simp at hx
  | node l a key val r ihl ihr =>
    obtain ⟨⟨b, hb⟩, hl, hr'⟩ := hr
    simp only [addrs_node, List.mem_append, List.mem_cons] at hx
    rcases hx with hx | rfl | hx
    · right
      rcases ihl hl hx with ⟨hp, hpar⟩ | ⟨pa, pnd, h1, h2, h3, h4⟩
      · exact ⟨a, _, hpar, by simp, hb, Or.inl hp⟩
      · exact ⟨pa, pnd, h1, by simp [h2], h3, h4⟩
    · left
      rw [hb] at e
      cases e
      exact ⟨rfl, rfl⟩
    · right
      rcases ihr hr' hx with ⟨hp, hpar⟩ | ⟨pa, pnd, h1, h2, h3, h4⟩
      · exact ⟨a, _, hpar, by simp, hb, Or.inr hp⟩
      · exact ⟨pa, pnd, h1, by simp [h2], h3, h4⟩

theorem rep_children_distinct {h : Heap} {par : Ptr} {s : Shape} (hr : Rep h par s)
    (hnd : s.addrs.Nodup) {x : Nat} (hx : x ∈ s.addrs) {nd : AVLNode}
    (e : deref h x = some nd) {c : Nat} (hl : nd.left_ = some c) : nd.right_ ≠ some c := by
  induction s generalizing par with
  | nil => simp at hx
  | node l a key val r ihl ihr =>
    obtain ⟨⟨b, hb⟩, hl', hr'⟩ := hr
    obtain ⟨ndl, ndr, nal, nar, ndis⟩ := nodup_node hnd
    simp only [addrs_node, List.mem_append, List.mem_cons] at hx
    rcases hx with hx | rfl | hx
    · exact ihl hl' ndl hx
    · rw [hb] at e
      cases e
      intro hr2
      exact ndis c (addrs_of_ptr hl) (addrs_of_ptr hr2)
    · exact ihr hr' ndr hx

end Shape

theorem getParent_deref {h : Heap} {x : Nat} {nd : AVLNode} (e : deref h x = some nd) :
    getParent h x = some nd.parent_ := by simp [getParent, e]

theorem getLeft_deref {h : Heap} {x : Nat} {nd : AVLNode} (e : deref h x = some nd) :
    getLeft h x = some nd.left_ := by simp [getLeft, e]

theorem getRight_deref {h : Heap} {x : Nat} {nd : AVLNode} (e : deref h x = some nd) :
    getRight h x = some nd.right_ := by simp [getRight, e]

theorem payload_deref {h : Heap} {x : Nat} {nd : AVLNode} (e : deref h x = some nd) :
    payload h x = some (nd.key, nd.value, nd.balance_) := by simp [payload, e]

theorem treeLinks_of_models {t : TreeState} {s : Shape} (hm : Models t s) :
    TreeLinks (fun x => x ∈ s.addrs) (getParent t.heap) (getLeft t.heap) (getRight t.heap) := by
  obtain ⟨hroot, hrep, hnd⟩ := hm
  have hup : ∀ x y, x ∈ s.addrs → getParent t.heap x = some (some y) →
      y ∈ s.addrs ∧ (getLeft t.heap y = some (some x) ∨ getRight t.heap y = some (some x)) := by
    intro x y hx hp
    obtain ⟨nd, e⟩ := Shape.rep_addr_live hrep hx
    rw [getParent_deref e] at hp
    have hp' : nd.parent_ = some y := Option.some.inj hp
    rcases Shape.rep_parent_child hrep hx e with ⟨_, hq⟩ | ⟨pa, pnd, h1, h2, h3, h4⟩
    · rw [hq] at hp'; cases hp'
    · rw [hp'] at h1
      cases h1
      refine ⟨h2, ?_⟩
      rw [getLeft_deref h3, getRight_deref h3]
      rcases h4 with h4 | h4
      · left; rw [h4]
      · right; rw [h4]
  have hdown : ∀ x y, y ∈ s.addrs →
      (getLeft t.heap y = some (some x) ∨ getRight t.heap y = some (some x)) →
      x ∈ s.addrs ∧ getParent t.heap x = some (some y) := by
    intro x y hy hc
    obtain ⟨nd, e⟩ := Shape.rep_addr_live hrep hy
    rw [getLeft_deref e, getRight_deref e] at hc
    have hc' : nd.left_ = some x ∨ nd.right_ = some x := by
      rcases hc with hc | hc
      · exact Or.inl (Option.some.inj hc)
      · exact Or.inr (Option.some.inj hc)
    obtain ⟨md, e2, hpar⟩ := rep_children_parent hrep hy e hc'
    exact ⟨Shape.rep_child_mem hrep hy e hc', by rw [getParent_deref e2, hpar]⟩
  have hfresh : ∀ x c, x ∈ s.addrs →
      (getLeft t.heap x = some (some c) ∨ getRight t.heap x = some (some c)) →
      c ≠ x ∧ getParent t.heap x ≠ some (some c) := by
    intro x c hx hc
    obtain ⟨nd, e⟩ := Shape.rep_addr_live hrep hx
    rw [getLeft_deref e, getRight_deref e] at hc
    have hc' : nd.left_ = some c ∨ nd.right_ = some c := by
      rcases hc with hc | hc
      · exact Or.inl (Option.some.inj hc)
      · exact Or.inr (Option.some.inj hc)
    obtain ⟨h1, h2⟩ := Shape.child_fresh hrep hnd (fun pa hpa => by cases hpa) hx e hc'
    refine ⟨h1, fun hp => ?_⟩
    rw [getParent_deref e] at hp
    exact h2 c (Option.some.inj hp) rfl
  refine ⟨?_, ?_, ?_, ?_, ?_, ?_, ?_, ?_, ?_, ?_⟩
  · intro x hx
    obtain ⟨nd, e⟩ := Shape.rep_addr_live hrep hx
    exact ⟨_, getParent_deref e⟩
  · intro x hx
    obtain ⟨nd, e⟩ := Shape.rep_addr_live hrep hx
    exact ⟨_, getLeft_deref e⟩
  · intro x hx
    obtain ⟨nd, e⟩ := Shape.rep_addr_live hrep hx
    exact ⟨_, getRight_deref e⟩
  · exact fun x y hx hp => (hup x y hx hp).1
  · exact fun x y hx hp => (hup x y hx hp).2
  · exact fun x y hy hc => hdown x y hy (Or.inl hc)
  · exact fun x y hy hc => hdown x y hy (Or.inr hc)
  · intro x c hx hl hr
    obtain ⟨nd, e⟩ := Shape.rep_addr_live hrep hx
    rw [getLeft_deref e] at hl
    rw [getRight_deref e] at hr
    exact Shape.rep_children_distinct hrep hnd hx e (Option.some.inj hl) (Option.some.inj hr)
  · intro x hx hp
    rcases (hup x x hx hp).2 with hc | hc
    · exact (hfresh x x hx (Or.inl hc)).1 rfl
    · exact (hfresh x x hx (Or.inr hc)).1 rfl
  · intro x y hx hp hq
    obtain ⟨hy, hc⟩ := hup x y hx hp
    exact (hfresh y x hy hc).2 hq

theorem deref_of_fields {h : Heap} {x : Nat} {k v bal : Int} {p l r : Ptr}
    (hpay : payload h x = some (k, v, bal)) (hp : getParent h x = some p)
    (hl : getLeft h x = some l) (hr : getRight h x = some r) :
    deref h x = some ⟨k, v, p, l, r, bal⟩ := by
  unfold payload at hpay
  unfold getParent at hp
  unfold getLeft at hl
  unfold getRight at hr
  cases hd : deref h x with
  | none => rw [hd] at hp; cases hp
  | some nd =>
    rw [hd] at hpay hp hl hr
    obtain ⟨k', v', p', l', r', b'⟩ := nd
    simp only [Option.map_some', Option.some.injEq, Prod.mk.injEq] at hpay hp hl hr
    obtain ⟨rfl, rfl, rfl⟩ := hpay
    subst hp hl hr
    rfl

theorem deref_ext_fields {h h' : Heap} {x : Nat} (hpay : payload h' x = payload h x)
    (hp : getParent h' x = getParent h x) (hl : getLeft h' x = getLeft h x)
    (hr : getRight h' x = getRight h x) : deref h' x = deref h x := by
  cases hd : deref h x with
  | none =>
    cases hd' : deref h' x with
    | none => rfl
    | some nd' => simp [getParent, hd, hd'] at hp
  | some nd =>
    obtain ⟨k, v, p, l, r, b⟩ := nd
    exact deref_of_fields (by rw [hpay, payload_deref hd]) (by rw [hp, getParent_deref hd])
      (by rw [hl, getLeft_deref hd]) (by rw [hr, getRight_deref hd])

theorem heap_ext {h h' : Heap} (hlen : h'.length = h.length)
    (hd : ∀ x, deref h' x = deref h x) : h' = h := by
  apply List.ext_getElem hlen
  intro n h1 h2
  have := hd n
  unfold deref at this
  rw [List.getD_eq_getElem _ _ h1, List.getD_eq_getElem _ _ h2] at this
  exact this

theorem swapAddr_injective (a b : Nat) : Function.Injective (swapAddr a b) := fun x y e => by
  have := congrArg (swapAddr a b) e
  rwa [swapAddr_invol, swapAddr_invol] at this

namespace Shape

theorem ptr_exchange (a b : Nat) (na nb : Int × Int) (s : Shape) :
    (s.exchange a b na nb).ptr = swapPtr a b s.ptr := by
  cases s with
  | nil => rfl
  | node l x k v r =>
    simp only [exchange, swapPtr, swapAddr, ptr]
    split_ifs <;> rfl

theorem addrs_exchange (a b : Nat) (na nb : Int × Int) (s : Shape) :
    (s.exchange a b na nb).addrs = s.addrs.map (swapAddr a b) := by
  induction s with
  | nil => rfl
  | node l x k v r ihl ihr =>
    simp only [exchange]
    split_ifs with h1 h2
    · simp [addrs_node, ihl, ihr, swapAddr, h1]
    · subst h2
      simp [addrs_node, ihl, ihr, swapAddr, h1]
    · simp [addrs_node, ihl, ihr, swapAddr, h1, h2]

theorem mem_addrs_exchange {a b : Nat} (na nb : Int × Int) {s : Shape} (ha : a ∈ s.addrs)
    (hb : b ∈ s.addrs) (x : Nat) : x ∈ (s.exchange a b na nb).addrs ↔ x ∈ s.addrs := by
  rw [addrs_exchange, List.mem_map]
  constructor
  · rintro ⟨y, hy, rfl⟩
    simp only [swapAddr]
    split_ifs with h1 h2
    · exact hb
    · exact ha
    · exact hy
  · intro hx
    refine ⟨swapAddr a b x, ?_, swapAddr_invol a b x⟩
    simp only [swapAddr]
    split_ifs with h1 h2
    · exact hb
    · exact ha
    · exact hx

theorem rep_exchange {h h' : Heap} {a b : Nat} {na nb : Int × Int} {par : Ptr} {s : Shape}
    (hr : Rep h par s)
    (hA : ∃ bal, payload h' a = some (na.1, na.2, bal))
    (hB : ∃ bal, payload h' b = some (nb.1, nb.2, bal))
    (hpay : ∀ x, payload h' x = payload h x)
    (hf : ∀ x, x ∈ s.addrs →
      getParent h' (swapAddr a b x) = (getParent h x).map (swapPtr a b) ∧
      getLeft h' (swapAddr a b x) = (getLeft h x).map (swapPtr a b) ∧
      getRight h' (swapAddr a b x) = (getRight h x).map (swapPtr a b)) :
    Rep h' (swapPtr a b par) (s.exchange a b na nb) := by
  induction s generalizing par with
  | nil => trivial
  | node l x k v r ihl ihr =>
    obtain ⟨⟨bal, hb⟩, hl, hr'⟩ := hr
    have ihl' := ihl hl fun y hy => hf y (by simp [hy])
    have ihr' := ihr hr' fun y hy => hf y (by simp [hy])
    obtain ⟨hP, hL, hR⟩ := hf x (by simp)
    rw [getParent_deref hb] at hP
    rw [getLeft_deref hb] at hL
    rw [getRight_deref hb] at hR
    simp only [Option.map_some'] at hP hL hR
    simp only [exchange]
    split_ifs with h1 h2
    · subst h1
      rw [swapAddr_left] at hP hL hR
      obtain ⟨bal', hpb⟩ := hB
      refine ⟨⟨bal', ?_⟩, ?_, ?_⟩
      · rw [ptr_exchange, ptr_exchange]
        exact deref_of_fields hpb hP hL hR
      · have := swapPtr_left x b
        rw [← this]; exact ihl'
      · have := swapPtr_left x b
        rw [← this]; exact ihr'
    · subst h2
      rw [swapAddr_right] at hP hL hR
      obtain ⟨bal', hpa⟩ := hA
      refine ⟨⟨bal', ?_⟩, ?_, ?_⟩
      · rw [ptr_exchange, ptr_exchange]
        exact deref_of_fields hpa hP hL hR
      · have := swapPtr_right a x
        rw [← this]; exact ihl'
      · have := swapPtr_right a x
        rw [← this]; exact ihr'
    · rw [swapAddr_of_ne h1 h2] at hP hL hR
      have hpx : payload h' x = some (k, v, bal) := by rw [hpay, payload_deref hb]
      refine ⟨⟨bal, ?_⟩, ?_, ?_⟩
      · rw [ptr_exchange, ptr_exchange]
        exact deref_of_fields hpx hP hL hR
      · have : swapPtr a b (some x) = some x := by simp [swapPtr, swapAddr_of_ne h1 h2]
        rw [← this]; exact ihl'
      · have : swapPtr a b (some x) = some x := by simp [swapPtr, swapAddr_of_ne h1 h2]
        rw [← this]; exact ihr'

end Shape

theorem nodeSwap_models {t : TreeState} {s : Shape} (hm : Models t s) {a b : Nat}
    {ka va kb vb : Int} (ha : (a, ka, va) ∈ s.nodes) (hb : (b, kb, vb) ∈ s.nodes)
    (hab : a ≠ b) :
    ∃ h', BinarySearchTree.nodeSwap t (some a) (some b)
        = some { root_ := swapPtr a b t.root_, heap := h' } ∧
      Models { root_ := swapPtr a b t.root_, heap := h' } (s.exchange a b (ka, va) (kb, vb)) ∧
      h'.length = t.heap.length ∧ (∀ x, payload h' x = payload t.heap x) ∧
      (∀ x, x ∈ s.addrs →
        getParent h' x = (getParent t.heap (swapAddr a b x)).map (swapPtr a b) ∧
        getLeft h' x = (getLeft t.heap (swapAddr a b x)).map (swapPtr a b) ∧
        getRight h' x = (getRight t.heap (swapAddr a b x)).map (swapPtr a b)) ∧
      (∀ x, x ∉ s.addrs → deref h' x = deref t.heap x) := by
  have W := treeLinks_of_models hm
  obtain ⟨hroot, hrep, hnd⟩ := hm
  have haT := Shape.mem_addrs_of_mem_nodes ha
  have hbT := Shape.mem_addrs_of_mem_nodes hb
  obtain ⟨h', e, hlen, hpay, hT, hF⟩ := nodeSwap_fields W hab haT hbT
  obtain ⟨nda, ea, hka, hva⟩ := Shape.rep_nodes hrep ha
  obtain ⟨ndb, eb, hkb, hvb⟩ := Shape.rep_nodes hrep hb
  have hmemσ : ∀ x, x ∈ s.addrs → swapAddr a b x ∈ s.addrs := by
    intro x hx
    simp only [swapAddr]
    split_ifs
    · exact hbT
    · exact haT
    · exact hx
  refine ⟨h', e, ⟨?_, ?_, ?_⟩, hlen, hpay, hT, fun x hx => ?_⟩
  · show swapPtr a b t.root_ = _
    rw [Shape.ptr_exchange, hroot]
  · have := Shape.rep_exchange (a := a) (b := b) hrep
      (⟨nda.balance_, by rw [hpay, payload_deref ea, hka, hva]⟩ :
        ∃ bal, payload h' a = some ((ka, va).1, (ka, va).2, bal))
      (⟨ndb.balance_, by rw [hpay, payload_deref eb, hkb, hvb]⟩ :
        ∃ bal, payload h' b = some ((kb, vb).1, (kb, vb).2, bal))
      hpay
      (fun x hx => by
        have := hT (swapAddr a b x) (hmemσ x hx)
        rwa [swapAddr_invol] at this)
    exact this
  · rw [Shape.addrs_exchange]
    exact hnd.map (swapAddr_injective a b)
  · obtain ⟨h1, h2, h3⟩ := hF x hx
    exact deref_ext_fields (hpay x) h1 h2 h3

theorem deref_of_payload {h : Heap} {x : Nat} {v : Int × Int × Int}
    (e : payload h x = some v) :
    ∃ nd, deref h x = some nd ∧ nd.key = v.1 ∧ nd.value = v.2.1 ∧ nd.balance_ = v.2.2 := by
  unfold payload at e
  cases hd : deref h x with
  | none => rw [hd] at e; cases e
  | some nd =>
    rw [hd] at e
    simp only [Option.map_some', Option.some.injEq] at e
    subst e
    exact ⟨nd, rfl, rfl, rfl, rfl⟩

/-- C21: on a well-formed tree with two distinct nodes `a` and `b` (adjacent or not, root or
not), `BinarySearchTree::nodeSwap(a, b)` returns a well-formed tree in which `a` and `b` have
exchanged their positions: every node `x` has the parent, left and right pointers that the node
in its position had before, with `a` and `b` renamed into each other; the root pointer is
renamed in the same way; every child of a node points back to it; no key, value or balance is
changed and no cell outside the tree is touched. `nodeSwap(a, a)` and `nodeSwap` with a null
argument return the state unchanged. -/
theorem C21_nodeSwap_exchanges_positions (t : TreeState) (s : Shape) (a b : Nat)
    (ka va kb vb : Int) (hm : Models t s) (ha : (a, ka, va) ∈ s.nodes)
    (hb : (b, kb, vb) ∈ s.nodes) (hab : a ≠ b) :
    (∃ t', BinarySearchTree.nodeSwap t (some a) (some b) = some t' ∧
      Models t' (s.exchange a b (ka, va) (kb, vb)) ∧
      t'.root_ = swapPtr a b t.root_ ∧
      (∀ x nd, x ∈ s.addrs → deref t.heap (swapAddr a b x) = some nd →
        ∃ nd', deref t'.heap x = some nd' ∧ nd'.parent_ = swapPtr a b nd.parent_ ∧
          nd'.left_ = swapPtr a b nd.left_ ∧ nd'.right_ = swapPtr a b nd.right_) ∧
      (∀ x nd, deref t.heap x = some nd →
        ∃ nd', deref t'.heap x = some nd' ∧ nd'.key = nd.key ∧ nd'.value = nd.value ∧
          nd'.balance_ = nd.balance_) ∧
      (∀ n nd m, n ∈ s.addrs → deref t'.heap n = some nd →
        (nd.left_ = some m ∨ nd.right_ = some m) →
        ∃ md, deref t'.heap m = some md ∧ md.parent_ = some n) ∧
      (∀ x, x ∉ s.addrs → deref t'.heap x = deref t.heap x)) ∧
    BinarySearchTree.nodeSwap t (some a) (some a) = some t ∧
    (∀ p, BinarySearchTree.nodeSwap t none p = some t ∧
      BinarySearchTree.nodeSwap t p none = some t) := by
  refine ⟨?_, by simp [BinarySearchTree.nodeSwap], fun p => ⟨rfl, by cases p <;> rfl⟩⟩
  obtain ⟨h', e, hm', hlen, hpay, hT, hF⟩ := nodeSwap_models hm ha hb hab
  have haT := Shape.mem_addrs_of_mem_nodes ha
  have hbT := Shape.mem_addrs_of_mem_nodes hb
  refine ⟨_, e, hm', rfl, ?_, ?_, ?_, hF⟩
  · intro x nd hx hd
    obtain ⟨hP, hL, hR⟩ := hT x hx
    rw [getParent_deref hd] at hP
    rw [getLeft_deref hd] at hL
    rw [getRight_deref hd] at hR
    obtain ⟨xd, exd⟩ := Shape.rep_addr_live hm.2.1 hx
    have hp := hpay x
    rw [payload_deref exd] at hp
    obtain ⟨nd', e', _⟩ := deref_of_payload hp
    rw [getParent_deref e'] at hP
    rw [getLeft_deref e'] at hL
    rw [getRight_deref e'] at hR
    exact ⟨nd', e', Option.some.inj hP, Option.some.inj hL, Option.some.inj hR⟩
  · intro x nd hd
    have hp := hpay x
    rw [payload_deref hd] at hp
    exact deref_of_payload hp
  · intro n nd m hn hd hc
    exact rep_children_parent hm'.2.1
      ((Shape.mem_addrs_exchange (ka, va) (kb, vb) haT hbT n).2 hn) hd hc

/-- Witness of C21: swapping the root (key 2) with its left child (key 1) in the tree holding
keys 2, 1, 3. -/
theorem C21_nodeSwap_exchanges_positions_witness :
    (∃ t', BinarySearchTree.nodeSwap exampleTree (some 0) (some 1) = some t' ∧
      Models t' (exampleShape.exchange 0 1 (2, 20) (1, 10)) ∧
      t'.root_ = swapPtr 0 1 exampleTree.root_ ∧
      (∀ x nd, x ∈ exampleShape.addrs → deref exampleTree.heap (swapAddr 0 1 x) = some nd →
        ∃ nd', deref t'.heap x = some nd' ∧ nd'.parent_ = swapPtr 0 1 nd.parent_ ∧
          nd'.left_ = swapPtr 0 1 nd.left_ ∧ nd'.right_ = swapPtr 0 1 nd.right_) ∧
      (∀ x nd, deref exampleTree.heap x = some nd →
        ∃ nd', deref t'.heap x = some nd' ∧ nd'.key = nd.key ∧ nd'.value = nd.value ∧
          nd'.balance_ = nd.balance_) ∧
      (∀ n nd m, n ∈ exampleShape.addrs → deref t'.heap n = some nd →
        (nd.left_ = some m ∨ nd.right_ = some m) →
        ∃ md, deref t'.heap m = some md ∧ md.parent_ = some n) ∧
      (∀ x, x ∉ exampleShape.addrs → deref t'.heap x = deref exampleTree.heap x)) ∧
    BinarySearchTree.nodeSwap exampleTree (some 0) (some 0) = some exampleTree ∧
    (∀ p, BinarySearchTree.nodeSwap exampleTree none p = some exampleTree ∧
      BinarySearchTree.nodeSwap exampleTree p none = some exampleTree) :=
  C21_nodeSwap_exchanges_positions exampleTree exampleShape 0 1 2 20 1 10
    ⟨rfl, ⟨⟨2, rfl⟩, ⟨⟨1, rfl⟩, trivial, trivial⟩, ⟨⟨1, rfl⟩, trivial, trivial⟩⟩, by decide⟩
    (by decide) (by decide) (by decide)

/-- C26: on a well-formed tree with two distinct nodes `a` and `b`, `nodeSwap(a, b)` returns a
state from which a second `nodeSwap(a, b)` returns exactly the original state (root pointer and
every cell of the store), and `nodeSwap(b, a)` returns the same state as `nodeSwap(a, b)`. -/
theorem C26_nodeSwap_involutive_and_symmetric (t : TreeState) (s : Shape) (a b : Nat)
    (hm : Models t s) (ha : a ∈ s.addrs) (hb : b ∈ s.addrs) (hab : a ≠ b) :
    ∃ t', BinarySearchTree.nodeSwap t (some a) (some b) = some t' ∧
      BinarySearchTree.nodeSwap t' (some a) (some b) = some t ∧
      BinarySearchTree.nodeSwap t (some b) (some a) = some t' := by
  obtain ⟨⟨a', ka, va⟩, hna, ea⟩ := List.mem_map.1 ha
  obtain ⟨⟨b', kb, vb⟩, hnb, eb⟩ := List.mem_map.1 hb
  simp only at ea eb
  subst ea eb
  obtain ⟨h', e, hm', hlen, hpay, hT, hF⟩ := nodeSwap_models hm hna hnb hab
  have hmem := Shape.mem_addrs_exchange (ka, va) (kb, vb) ha hb
  obtain ⟨⟨a2, ka2, va2⟩, hna2, ea2⟩ := List.mem_map.1 ((hmem a').2 ha)
  obtain ⟨⟨b2, kb2, vb2⟩, hnb2, eb2⟩ := List.mem_map.1 ((hmem b').2 hb)
  simp only at ea2 eb2
  subst ea2 eb2
  obtain ⟨h2, e2, _, hlen2, hpay2, hT2, hF2⟩ := nodeSwap_models hm' hna2 hnb2 hab
  obtain ⟨h3, e3, _, hlen3, hpay3, hT3, hF3⟩ := nodeSwap_models hm hnb hna (Ne.symm hab)
  have hσ : ∀ x, x ∈ s.addrs → swapAddr a2 b2 x ∈ s.addrs := by
    intro x hx
    simp only [swapAddr]
    split_ifs
    · exact hb
    · exact ha
    · exact hx
  have hmm : ∀ o : Option Ptr, (o.map (swapPtr a2 b2)).map (swapPtr a2 b2) = o := by
    intro o
    cases o with
    | none => rfl
    | some p => simp [swapPtr_invol]
  have hcomm : ∀ o : Option Ptr, o.map (swapPtr b2 a2) = o.map (swapPtr a2 b2) := by
    intro o
    cases o with
    | none => rfl
    | some p => simp [swapPtr_comm b2 a2 p]
  have hback : h2 = t.heap := by
    refine heap_ext (hlen2.trans hlen) fun x => ?_
    by_cases hx : x ∈ s.addrs
    · obtain ⟨p1, l1, r1⟩ := hT2 x ((hmem x).2 hx)
      obtain ⟨p2, l2, r2⟩ := hT (swapAddr a2 b2 x) (hσ x hx)
      rw [swapAddr_invol] at p2 l2 r2
      refine deref_ext_fields ((hpay2 x).trans (hpay x)) ?_ ?_ ?_
      · show getParent h2 x = _
        rw [p1]
        show Option.map _ (getParent h' _) = _
        rw [p2, hmm]
      · show getLeft h2 x = _
        rw [l1]
        show Option.map _ (getLeft h' _) = _
        rw [l2, hmm]
      · show getRight h2 x = _
        rw [r1]
        show Option.map _ (getRight h' _) = _
        rw [r2, hmm]
    · rw [hF2 x fun hx' => hx ((hmem x).1 hx')]
      exact hF x hx
  have hsym : h3 = h' := by
    refine heap_ext (hlen3.trans hlen.symm) fun x => ?_
    by_cases hx : x ∈ s.addrs
    · obtain ⟨p1, l1, r1⟩ := hT3 x hx
      obtain ⟨p2, l2, r2⟩ := hT x hx
      rw [← swapAddr_comm a2 b2 x, hcomm] at p1 l1 r1
      exact deref_ext_fields ((hpay3 x).trans (hpay x).symm) (p1.trans p2.symm)
        (l1.trans l2.symm) (r1.trans r2.symm)
    · rw [hF3 x hx, hF x hx]
  refine ⟨_, e, ?_, ?_⟩
  · rw [e2]
    show some { root_ := swapPtr a2 b2 (swapPtr a2 b2 t.root_), heap := h2 } = some t
    rw [swapPtr_invol, hback]
  · rw [e3, hsym, swapPtr_comm b2 a2]

/-- Witness of C26: the root and its left child of the tree holding keys 2, 1, 3. -/
theorem C26_nodeSwap_involutive_and_symmetric_witness :
    ∃ t', BinarySearchTree.nodeSwap exampleTree (some 0) (some 1) = some t' ∧
      BinarySearchTree.nodeSwap t' (some 0) (some 1) = some exampleTree ∧
      BinarySearchTree.nodeSwap exampleTree (some 1) (some 0) = some t' :=
  C26_nodeSwap_involutive_and_symmetric exampleTree exampleShape 0 1
    ⟨rfl, ⟨⟨2, rfl⟩, ⟨⟨1, rfl⟩, trivial, trivial⟩, ⟨⟨1, rfl⟩, trivial, trivial⟩⟩, by decide⟩
    (by decide) (by decide) (by decide)

/-- C22: on a well-formed tree with two distinct nodes `a` and `b`, `AVLTree::nodeSwap(a, b)`
returns; its result has the root pointer of the base-tree `nodeSwap(a, b)` and a store that
agrees with the base-tree result on every field except balances; afterwards `a` stores the
balance `b` had before and `b` the balance `a` had before, and every other cell is exactly as
the base-tree `nodeSwap` left it. -/
theorem C22_avl_nodeSwap_exchanges_balances (t : TreeState) (s : Shape) (a b : Nat)
    (hm : Models t s) (ha : a ∈ s.addrs) (hb : b ∈ s.addrs) (hab : a ≠ b) :
    ∃ tb t' nda ndb, BinarySearchTree.nodeSwap t (some a) (some b) = some tb ∧
      AVLTree.nodeSwap t (some a) (some b) = some t' ∧
      deref t.heap a = some nda ∧ deref t.heap b = some ndb ∧
      t'.root_ = tb.root_ ∧ SameShape tb.heap t'.heap ∧
      (∃ nd, deref t'.heap a = some nd ∧ nd.balance_ = ndb.balance_) ∧
      (∃ nd, deref t'.heap b = some nd ∧ nd.balance_ = nda.balance_) ∧
      ∀ x, x ≠ a → x ≠ b → deref t'.heap x = deref tb.heap x := by
  obtain ⟨⟨a', ka, va⟩, hna, ea⟩ := List.mem_map.1 ha
  obtain ⟨⟨b', kb, vb⟩, hnb, eb⟩ := List.mem_map.1 hb
  simp only at ea eb
  subst ea eb
  obtain ⟨h', e, hm', hlen, hpay, hT, hF⟩ := nodeSwap_models hm hna hnb hab
  obtain ⟨nda, eda⟩ := Shape.rep_addr_live hm.2.1 ha
  obtain ⟨ndb, edb⟩ := Shape.rep_addr_live hm.2.1 hb
  have hpa := hpay a'
  have hpb := hpay b'
  rw [payload_deref eda] at hpa
  rw [payload_deref edb] at hpb
  obtain ⟨na, ena, _, _, hba⟩ := deref_of_payload hpa
  obtain ⟨nb, enb, _, _, hbb⟩ := deref_of_payload hpb
  simp only at hba hbb
  have enb1 : deref (store h' a' { na with balance_ := nb.balance_ }) b' = some nb := by
    rw [deref_store_ne _ _ hab]; exact enb
  refine ⟨{ root_ := swapPtr a' b' t.root_, heap := h' },
    { root_ := swapPtr a' b' t.root_,
      heap := store (store h' a' { na with balance_ := nb.balance_ }) b'
        { nb with balance_ := na.balance_ } },
    nda, ndb, e, ?_, eda, edb, rfl, ?_, ?_, ?_, ?_⟩
  · simp only [AVLTree.nodeSwap, e, derefPtr, ena, enb, setBalance, enb1, Option.map_some',
      bind, Option.bind, Option.some_bind]
  · exact (sameShape_setBalance ena _).trans (sameShape_setBalance enb1 _)
  · refine ⟨{ na with balance_ := nb.balance_ }, ?_, hbb⟩
    rw [deref_store_ne _ _ (Ne.symm hab), deref_store_self ena]
  · exact ⟨{ nb with balance_ := na.balance_ }, deref_store_self enb1 _, hba⟩
  · intro x hxa hxb
    rw [deref_store_ne _ _ (Ne.symm hxb), deref_store_ne _ _ (Ne.symm hxa)]

/-- Witness of C22: the root and its left child of the tree holding keys 2, 1, 3. -/
theorem C22_avl_nodeSwap_exchanges_balances_witness :
    ∃ tb t' nda ndb, BinarySearchTree.nodeSwap exampleTree (some 0) (some 1) = some tb ∧
      AVLTree.nodeSwap exampleTree (some 0) (some 1) = some t' ∧
      deref exampleTree.heap 0 = some nda ∧ deref exampleTree.heap 1 = some ndb ∧
      t'.root_ = tb.root_ ∧ SameShape tb.heap t'.heap ∧
      (∃ nd, deref t'.heap 0 = some nd ∧ nd.balance_ = ndb.balance_) ∧
      (∃ nd, deref t'.heap 1 = some nd ∧ nd.balance_ = nda.balance_) ∧
      ∀ x, x ≠ 0 → x ≠ 1 → deref t'.heap x = deref tb.heap x :=
  C22_avl_nodeSwap_exchanges_balances exampleTree exampleShape 0 1
    ⟨rfl, ⟨⟨2, rfl⟩, ⟨⟨1, rfl⟩, trivial, trivial⟩, ⟨⟨1, rfl⟩, trivial, trivial⟩⟩, by decide⟩
    (by decide) (by decide) (by decide)

/-! ## Keys inserted in increasing order -/

namespace Shape

theorem spineFrom_ins (m a : Nat) :
    (spineFrom a m).ins (a + m) (((a + m : Nat) : Int) + 1) (((a + m : Nat) : Int) + 1)
      = spineFrom a (m + 1) := by
  induction m generalizing a with
  | zero => simp [spineFrom, ins]
  | succ m ih =>
    have h := ih (a + 1)
    rw [show a + 1 + m = a + (m + 1) by omega] at h
    have hk : ¬ ((((a + (m + 1) : Nat) : Int) + 1) < (a : Int) + 1) := by push_cast; omega
    have hk' : (((a + (m + 1) : Nat) : Int) + 1) > (a : Int) + 1 := by push_cast; omega
    rw [show spineFrom a (m + 1) = node nil a ((a : Int) + 1) ((a : Int) + 1)
        (spineFrom (a + 1) m) from rfl]
    simp only [ins, if_neg hk, if_pos hk']
    rw [h]
    rfl

theorem height_spineFrom (m a : Nat) : (spineFrom a m).height = m := by
  induction m generalizing a with
  | zero => rfl
  | succ m ih => simp [spineFrom, height, ih]

theorem length_nodes_spineFrom (m a : Nat) : (spineFrom a m).nodes.length = m := by
  induction m generalizing a with
  | zero => rfl
  | succ m ih => simp [spineFrom, nodes, ih]

theorem find_spineFrom_none (m a : Nat) {k : Int} (hk : ((a + m : Nat) : Int) < k) :
    (spineFrom a m).find k = none := by
  induction m generalizing a with
  | zero => rfl
  | succ m ih =>
    have h1 : ¬ ((a : Int) + 1 = k) := by push_cast at hk; omega
    have h2 : ¬ ((a : Int) + 1 > k) := by push_cast at hk; omega
    simp only [spineFrom, find, if_neg h1, if_neg h2]
    exact ih (a + 1) (by rw [show a + 1 + m = a + (m + 1) by omega]; exact hk)

end Shape

theorem ascending_succ (n : Nat) :
    ascending (n + 1) = ascending n ++ [((n : Int) + 1, (n : Int) + 1)] := by
  simp [ascending, List.range_succ]

theorem insertAll_append (t : TreeState) (l : List (Int × Int)) (kv : Int × Int) :
    AVLTree.insertAll t (l ++ [kv]) = (AVLTree.insertAll t l).bind fun t => AVLTree.insert t kv := by
  induction l generalizing t with
  | nil =>
    simp only [List.nil_append, AVLTree.insertAll, Option.some_bind]
    cases AVLTree.insert t kv <;> rfl
  | cons x rest ih =>
    simp only [List.cons_append, AVLTree.insertAll]
    cases AVLTree.insert t x with
    | none => rfl
    | some t1 => simp only [Option.some_bind]; exact ih t1

theorem reach_length {t : TreeState} {s : Shape} (hR : Reach t s) :
    t.heap.length = s.nodes.length :=
  le_antisymm (reach_length_le hR) (Shape.nodes_length_le hR.models.2.1 hR.models.2.2)

theorem ascending_reach (n : Nat) :
    ∃ t, AVLTree.insertAll AVLTree.empty (ascending n) = some t ∧
      Reach t (Shape.spineFrom 0 n) ∧
      ((Shape.spineFrom 0 n).height ≤ 127 →
        (Shape.spineFrom 0 n).BalOK t.heap ∨ (Shape.spineFrom 0 n).nodes.length ≤ 1) := by
  induction n with
  | zero => exact ⟨AVLTree.empty, rfl, reach_empty, fun _ => Or.inr (by simp [Shape.spineFrom, Shape.nodes])⟩
  | succ n ih =>
    obtain ⟨t, e, hR, hJ⟩ := ih
    have hlen : t.heap.length = n := by
      rw [reach_length hR, Shape.length_nodes_spineFrom]
    obtain ⟨t', e', hR', hJ'⟩ := insert_bal_step hR hJ ((n : Int) + 1) ((n : Int) + 1)
    have hs : (Shape.spineFrom 0 n).ins t.heap.length ((n : Int) + 1) ((n : Int) + 1)
        = Shape.spineFrom 0 (n + 1) := by
      have := Shape.spineFrom_ins n 0
      simp only [Nat.zero_add] at this
      rw [hlen]
      exact this
    rw [hs] at hR' hJ'
    refine ⟨t', ?_, hR', hJ'⟩
    rw [ascending_succ, insertAll_append, e]
    exact e'

/-- C24 (the claim as stated fails): insert the keys 1, 2, ..., 128 in increasing order into the
empty tree. The last statement of the last `insert` is the call `updateBalances(newNode)` on
the new node at address 127; the root (address 0) is on its parent chain, and when the call
returns the root stores the balance -128, whereas 1 + max of the stored balances of its
children (0 for the absent left child, 127 for the right child) is 128. -/
theorem C24_balance_wraps_at_height_128 :
    ∃ t h nd, AVLTree.insertAll AVLTree.empty (ascending 128) = some t ∧
      AVLTree.updateBalances (h.length + 1) h (some 127) = some t.heap ∧
      0 ∈ parentChain h (h.length + 1) (some 127) ∧
      deref t.heap 0 = some nd ∧ nd.balance_ = -128 ∧
      storedBalance t.heap nd.left_ = 0 ∧ storedBalance t.heap nd.right_ = 127 ∧
      1 + max (storedBalance t.heap nd.left_) (storedBalance t.heap nd.right_) = 128 := by
  obtain ⟨t, e, hR, hJ⟩ := ascending_reach 127
  have hlen : t.heap.length = 127 := by
    rw [reach_length hR, Shape.length_nodes_spineFrom]
  have hb : (Shape.spineFrom 0 127).BalOK t.heap := by
    rcases hJ (by rw [Shape.height_spineFrom]) with h | h
    · exact h
    · rw [Shape.length_nodes_spineFrom] at h; omega
  have hfind : (Shape.spineFrom 0 127).find 128 = none :=
    Shape.find_spineFrom_none 127 0 (by norm_num)
  obtain ⟨h4, h5, eins, eupd, hnd', hr4, hr5, ho5, hst⟩ :=
    insert_balance_facts hR (128 : Int) hfind (a := 0) rfl (Shape.offOK_of_balOK 128 hb)
  have hfs := Shape.find_ins_new t.heap.length (128 : Int) hfind
  have hs : (Shape.spineFrom 0 127).ins t.heap.length 128 128
      = Shape.node Shape.nil 0 1 1 (Shape.spineFrom 1 127) := by
    have h1 := Shape.spineFrom_ins 127 0
    have h2 : (((0 + 127 : Nat) : Int) + 1) = 128 := by norm_num
    rw [h2, Nat.zero_add] at h1
    rw [hlen, h1]
    rfl
  rw [hs] at hnd' hr4 hr5 ho5 hst hfs
  rw [hlen] at eupd hfs
  have hhr : (Shape.spineFrom 1 127).height = 127 := Shape.height_spineFrom 127 1
  generalize Shape.spineFrom 1 127 = r at hnd' hr4 hr5 ho5 hst hfs hhr
  obtain ⟨⟨b0, hb0⟩, _, hrr⟩ := hr5
  have ho5' : r.OffOK h5 128 := by
    simp only [Shape.OffOK] at ho5
    rw [if_neg (by norm_num), if_pos (by norm_num)] at ho5
    exact ho5.2
  have hbr : r.BalOK h5 :=
    Shape.balOK_of_steps hrr ho5' (fun m hm => hst m (by simp [Shape.path, hm]))
      (by rw [hhr])
  have hsb := Shape.storedBalance_of_balOK hbr
  rw [hhr] at hsb
  obtain ⟨md, emd, hmd⟩ := hst 0 (by simp [Shape.path])
  rw [hb0] at emd
  cases emd
  simp only at hmd
  have hsl : storedBalance h5 (Shape.nil).ptr = 0 := rfl
  rw [hsl, hsb] at hmd
  have hw : wrap8 (max (0 : Int) ((127 : Nat) : Int) + 1) = -128 := by decide
  rw [hw] at hmd
  obtain ⟨d, hd, hpc⟩ := Shape.parentChain_path hr4 hfs
  have hh4 := Shape.height_le_heap hr4 hnd'
  refine ⟨{ root_ := t.root_, heap := h5 }, h4, _, ?_, eupd, ?_, hb0, hmd, hsl, hsb, ?_⟩
  · rw [ascending_succ, insertAll_append, e]
    have h2 : (((127 : Nat) : Int) + 1) = 128 := by norm_num
    rw [h2]
    exact eins
  · have := hpc (h4.length + 1 - d)
    rw [Nat.sub_add_cancel (by omega), parentChain_null, List.append_nil] at this
    rw [this]
    simp [Shape.path]
  · show 1 + max (storedBalance h5 (Shape.nil).ptr) (storedBalance h5 r.ptr) = 128
    rw [hsl, hsb]
    decide
